import Mathlib

/-!
# k-means in three execution models: a verification development

Shallow embedding of `tpSequentiel.c`, `tppthread.c` and `tpcuda.c`.

Modelling conventions.

* Unless said otherwise, `double` and `float` values are exact rationals (`ℚ`):
  rounding, infinities and NaN are outside this exact model. It is the model of the
  statements made "in exact arithmetic" and of the loop structure of the programs.
* Where a statement depends on the machine arithmetic, the same source lines are
  embedded a second time with that arithmetic: the sections on the range of `double`
  (`Ranged.*`: a result above `DBL_MAX` is an infinity) and on rounding (`binary32`,
  `binary64`, `Binary32.*`, `Binary64.*`: every result is rounded to nearest, ties to
  even).
* `sqrt` of a rational is not rational, so a value returned by `euclidean_distance`
  is kept as an exact real of the form `√r`, stored by its radicand `r` (`SqrtQ`).
  The comparisons the programs make on such values (`<`, `>`) are decided on the
  radicands, which is the order of the real numbers `√r` (`SqrtQ.lt_iff_sqrt_lt`).
* C arrays are lists read with `List.getD` and written with `List.set`; the sizes
  `n` and `k` travel separately, as they do in the C code.
* `for (i = a; i < b; i++)` loops are folds over `List.range`; loops with `break`
  or `return` are recursive functions that stop at the same place.
* In the exact model a division whose divisor is a zero count yields `none` (`fdiv`),
  and so does an access outside an array that the model tracks: the C program does not
  stop there (a zero count stores NaN), but its behaviour from that point on is outside
  the model.
-/

namespace KMeans

/-! ## Exact square roots -/

/-- The nonnegative real `√radicand`, stored by its radicand. -/
structure SqrtQ where
  radicand : ℚ
deriving DecidableEq

namespace SqrtQ

/-- The C call `sqrt(r)`. -/
def sqrt (r : ℚ) : SqrtQ := ⟨r⟩

/-- A nonnegative rational constant `q`, as `√(q²)`. -/
def ofRat (q : ℚ) : SqrtQ := ⟨q * q⟩

instance : LT SqrtQ := ⟨fun a b => a.radicand < b.radicand⟩

instance (a b : SqrtQ) : Decidable (a < b) :=
  inferInstanceAs (Decidable (a.radicand < b.radicand))

end SqrtQ

/-! ## `tpSequentiel.c` -/

/-- The C constant `MAX_ITERS`. -/
def MAX_ITERS : Nat := 100

/-- The C constant `TOL`, `1e-4`. -/
def TOL : ℚ := 1 / 10000

/-- The C struct `Point`. -/
structure Point where
  x : ℚ
  y : ℚ
deriving DecidableEq

instance : Inhabited Point := ⟨⟨0, 0⟩⟩

/-- The division `a / c` of a `double` by an `int` count; `none` when the count is zero. -/
def fdiv (a : ℚ) (c : Nat) : Option ℚ :=
  if c = 0 then none else some (a / (c : ℚ))

/-- Source: `sqrt(pow(a.x - b.x, 2) + pow(a.y - b.y, 2))`. -/
def euclidean_distance (a b : Point) : SqrtQ :=
  SqrtQ.sqrt ((a.x - b.x) ^ 2 + (a.y - b.y) ^ 2)

/-- The memory the sequential functions work on: `data`, `centroids`, `clusters`. -/
structure State where
  data : List Point
  centroids : List Point
  clusters : List Nat
deriving DecidableEq

/-- Body of the inner loop of `assign_clusters` at index `j`, on `(min_dist, cluster)`. -/
def assign_step (p : Point) (centroids : List Point) (j : Nat) (acc : SqrtQ × Nat) :
    SqrtQ × Nat :=
  let dist := euclidean_distance p (centroids.getD j default)
  if dist < acc.1 then (dist, j) else acc

/-- The inner loop `for (j = 1; j < k; j++)` of `assign_clusters`, for one point:
the final `(min_dist, cluster)`. -/
def assign_scan (p : Point) (centroids : List Point) (k : Nat) : SqrtQ × Nat :=
  (List.range' 1 (k - 1)).foldl (fun acc j => assign_step p centroids j acc)
    (euclidean_distance p (centroids.getD 0 default), 0)

/-- Source: `assign_clusters(data, centroids, clusters, n, k)`. The loop writes
`clusters[i]` and nothing else. -/
def assign_clusters (s : State) (n k : Nat) : State :=
  { s with
    clusters := (List.range n).foldl
      (fun cl i => cl.set i (assign_scan (s.data.getD i default) s.centroids k).2)
      s.clusters }

/-- The accumulators `sums[k]` and `counts[k]` of `update_centroids`. -/
structure Accum where
  sums : List Point
  counts : List Nat
deriving DecidableEq

/-- Body of the accumulation loop of `update_centroids` at point index `i`:
`sums[cluster].x += data[i].x; sums[cluster].y += data[i].y; counts[cluster]++`. -/
def accumulate_step (data : List Point) (clusters : List Nat) (i : Nat) (a : Accum) : Accum :=
  let cluster := clusters.getD i 0
  let p := data.getD i default
  let s := a.sums.getD cluster default
  { sums := a.sums.set cluster ⟨s.x + p.x, s.y + p.y⟩
    counts := a.counts.set cluster (a.counts.getD cluster 0 + 1) }

/-- The first two loops of `update_centroids`: zero the accumulators, then one pass over
the `n` points. -/
def accumulate (data : List Point) (clusters : List Nat) (n k : Nat) : Accum :=
  (List.range n).foldl (fun a i => accumulate_step data clusters i a)
    { sums := List.replicate k ⟨0, 0⟩, counts := List.replicate k 0 }

/-- Body of the last loop of `update_centroids` at cluster index `i`: the guarded
division. The result is `none` once a division by a zero count has been performed. -/
def finalize_step (a : Accum) (i : Nat) (cs : Option (List Point)) : Option (List Point) :=
  cs.bind fun cs =>
    if a.counts.getD i 0 > 0 then
      (fdiv (a.sums.getD i default).x (a.counts.getD i 0)).bind fun nx =>
        (fdiv (a.sums.getD i default).y (a.counts.getD i 0)).bind fun ny =>
          some (cs.set i ⟨nx, ny⟩)
    else some cs

/-- Source: `update_centroids(data, centroids, clusters, n, k)`. -/
def update_centroids (s : State) (n k : Nat) : Option State :=
  ((List.range k).foldl (fun cs i => finalize_step (accumulate s.data s.clusters n k) i cs)
      (some s.centroids)).map
    fun cs => { s with centroids := cs }

/-- The copy loop `old_centroids[i] = centroids[i]`, `i < k`, of `k_means`. -/
def snapshot (centroids : List Point) (k : Nat) : List Point :=
  (List.range k).map fun i => centroids.getD i default

/-- The convergence loop of `k_means` from index `i` with `steps` indices left: `false`
at the first `i` with `euclidean_distance(old_centroids[i], centroids[i]) > TOL` (the
`break`), `true` when the loop runs to its end. -/
def converged_from (old cur : List Point) : (steps i : Nat) → Bool
  | 0, _ => true
  | steps + 1, i =>
    if SqrtQ.ofRat TOL < euclidean_distance (old.getD i default) (cur.getD i default) then false
    else converged_from old cur steps (i + 1)

/-- The value of `converged` after the convergence loop of `k_means`. -/
def converged (old cur : List Point) (k : Nat) : Bool :=
  converged_from old cur k 0

/-- How `k_means` ends: `CONVERGED it` prints "Converged after it iterations",
`MAX_ITERS_REACHED` prints "Reached maximum iterations without full convergence". -/
inductive Outcome where
  | CONVERGED (iterations : Nat)
  | MAX_ITERS_REACHED
deriving DecidableEq

/-- One execution of the body of the `k_means` loop up to the test of `converged`:
the memory after `update_centroids` and the flag. -/
def k_means_pass (s : State) (n k : Nat) : Option (State × Bool) :=
  let s1 := assign_clusters s n k
  let old_centroids := snapshot s1.centroids k
  (update_centroids s1 n k).map fun s2 => (s2, converged old_centroids s2.centroids k)

/-- The loop `for (iter = ...; iter < MAX_ITERS; iter++)` of `k_means`, with
`remaining = MAX_ITERS - iter` iterations left. -/
def k_means_from (n k : Nat) : (remaining iter : Nat) → State → Option (Outcome × State)
  | 0, _, s => some (Outcome.MAX_ITERS_REACHED, s)
  | remaining + 1, iter, s =>
    match k_means_pass s n k with
    | none => none
    | some (s2, true) => some (Outcome.CONVERGED (iter + 1), s2)
    | some (s2, false) => k_means_from n k remaining (iter + 1) s2

/-- Source: `k_means(data, centroids, clusters, n, k)`. -/
def k_means (s : State) (n k : Nat) : Option (Outcome × State) :=
  k_means_from n k MAX_ITERS 0 s

/-! ### Reference quantities for the reduction -/

/-- The indices `i < n` of the points assigned to cluster `c`. -/
def members (clusters : List Nat) (n c : Nat) : List Nat :=
  (List.range n).filter fun i => decide (clusters.getD i 0 = c)

/-- The sum of the `x` of the points assigned to cluster `c`. -/
def cluster_sum_x (data : List Point) (clusters : List Nat) (n c : Nat) : ℚ :=
  ((members clusters n c).map fun i => (data.getD i default).x).sum

/-- The sum of the `y` of the points assigned to cluster `c`. -/
def cluster_sum_y (data : List Point) (clusters : List Nat) (n c : Nat) : ℚ :=
  ((members clusters n c).map fun i => (data.getD i default).y).sum

/-- The number of points assigned to cluster `c`. -/
def cluster_count (clusters : List Nat) (n c : Nat) : Nat :=
  (members clusters n c).length

/-- The new value `update_centroids` gives to centroid `c`. -/
def finalized (a : Accum) (cs : List Point) (c : Nat) : Point :=
  if 0 < a.counts.getD c 0 then
    ⟨(a.sums.getD c default).x / (a.counts.getD c 0 : ℚ),
      (a.sums.getD c default).y / (a.counts.getD c 0 : ℚ)⟩
  else cs.getD c default

/-- The memory after one execution of the body of the `k_means` loop. -/
def pass_state (s : State) (n k : Nat) : State :=
  match k_means_pass s n k with
  | some (s2, _) => s2
  | none => s

/-- The value of `converged` after one execution of the body of the `k_means` loop. -/
def pass_flag (s : State) (n k : Nat) : Bool :=
  match k_means_pass s n k with
  | some (_, b) => b
  | none => false

/-- The memory after `t` executions of the body of the `k_means` loop. -/
def after_passes (n k : Nat) : Nat → State → State
  | 0, s => s
  | t + 1, s => after_passes n k t (pass_state s n k)

/-- What the claim on `k_means` says of an outcome reached from `s` with the iteration
counter at `iter`: a reported iteration number `t` is that of the first pass whose test is
true, and `MAX_ITERS_REACHED` comes after `remaining` passes whose tests are all false. -/
def outcome_ok (n k remaining iter : Nat) (s : State) (out : Outcome) (s' : State) : Prop :=
  match out with
  | Outcome.CONVERGED t =>
    iter < t ∧ t ≤ iter + remaining ∧
    pass_flag (after_passes n k (t - 1 - iter) s) n k = true ∧
    (∀ u < t - 1 - iter, pass_flag (after_passes n k u s) n k = false) ∧
    s' = after_passes n k (t - iter) s
  | Outcome.MAX_ITERS_REACHED =>
    (∀ u < remaining, pass_flag (after_passes n k u s) n k = false) ∧
    s' = after_passes n k remaining s

/-! ## `tppthread.c` -/

/-- The C constant `NB_CLUSTERS`. -/
def NB_CLUSTERS : Nat := 2

/-- The C constant `NB_THREADS`. -/
def NB_THREADS : Nat := 2

/-- The global `d`, the dimension, initialised to 2 and never written. -/
def d : Nat := 2

/-- The constant `DBL_MAX` of `float.h`, the largest finite `double`. -/
def DBL_MAX : ℚ := (((2 ^ 53 - 1) * 2 ^ 971 : Nat) : ℚ)

/-- A row `double[2]` is stored as a `Point`: index 0 is `x`, index 1 is `y`. -/
def Point.coord (p : Point) (j : Nat) : ℚ :=
  if j = 0 then p.x else p.y

/-- The write `row[j] = v` on a row `double[2]`. -/
def Point.setCoord (p : Point) (j : Nat) (v : ℚ) : Point :=
  if j = 0 then { p with x := v } else { p with y := v }

/-- Source (`tppthread.c`): `euclidean_distance(point, centroid, dim)`, on unbounded
rationals; `Ranged.Pthread.euclidean_distance` is the same function within the range of
`double`. -/
def Pthread.euclidean_distance (point centroid : Point) (dim : Nat) : SqrtQ :=
  SqrtQ.sqrt ((List.range dim).foldl
    (fun sum i => sum + (point.coord i - centroid.coord i) * (point.coord i - centroid.coord i)) 0)

/-- The globals of `tppthread.c`. -/
structure Globals where
  n : Nat
  k : Nat
  data : List Point
  centroids : List Point
  clusters : List Int
  points_per_thread : List Nat
deriving DecidableEq

/-- Body of the inner loop of `assign_points` at index `j`, on `(min_dist, best_cluster)`. -/
def assign_points_step (p : Point) (centroids : List Point) (j : Nat) (acc : SqrtQ × Int) :
    SqrtQ × Int :=
  let dist := Pthread.euclidean_distance p (centroids.getD j default) d
  if dist < acc.1 then (dist, (j : Int)) else acc

/-- The inner loop of `assign_points` for one point: from `(DBL_MAX, -1)`, a scan of
`j = 0 .. k-1`. -/
def assign_point (p : Point) (centroids : List Point) (k : Nat) : SqrtQ × Int :=
  (List.range k).foldl (fun acc j => assign_points_step p centroids j acc)
    (SqrtQ.ofRat DBL_MAX, -1)

/-- Source: `assign_points(args)` with `args->start = start`, `args->end = stop`. The
loop writes `clusters[i]` and nothing else. -/
def assign_points (g : Globals) (start stop : Nat) : Globals :=
  { g with
    clusters := (List.range' start (stop - start)).foldl
      (fun cl i => cl.set i (assign_point (g.data.getD i default) g.centroids g.k).2)
      g.clusters }

/-- Body of the inner loops `for (l = 0; l < d; l++) row[l] += other[l]`. -/
def row_add (row other : Point) : Point :=
  (List.range d).foldl (fun r l => r.setCoord l (r.coord l + other.coord l)) row

/-- Body of the local accumulation loop of the thread function `update_centroids` at point
index `i`. The local arrays have `NB_CLUSTERS` entries: an index outside them is an
out-of-bounds access, reported as `none`. -/
def local_step (data : List Point) (clusters : List Int) (i : Nat) (a : Option Accum) :
    Option Accum :=
  a.bind fun a =>
    let cluster := clusters.getD i 0
    if 0 ≤ cluster ∧ cluster < (NB_CLUSTERS : Int) then
      let c := cluster.toNat
      some
        { sums := a.sums.set c (row_add (a.sums.getD c default) (data.getD i default))
          counts := a.counts.set c (a.counts.getD c 0 + 1) }
    else none

/-- The local pass of the thread function `update_centroids` over `[start, stop)`:
`local_sums` and `local_counts`. -/
def local_accumulate (g : Globals) (start stop : Nat) : Option Accum :=
  (List.range' start (stop - start)).foldl (fun a i => local_step g.data g.clusters i a)
    (some { sums := List.replicate NB_CLUSTERS ⟨0, 0⟩, counts := List.replicate NB_CLUSTERS 0 })

/-- The merge of one worker, done under the lock: `centroids[j][l] += local_sums[j][l]`
and `points_per_thread[j] += local_counts[j]` for `j < k`. -/
def merge (g : Globals) (a : Accum) : Globals :=
  { g with
    centroids := (List.range g.k).foldl
      (fun cs j => cs.set j (row_add (cs.getD j default) (a.sums.getD j default)))
      g.centroids
    points_per_thread := (List.range g.k).foldl
      (fun pp j => pp.set j (pp.getD j 0 + a.counts.getD j 0))
      g.points_per_thread }

/-- Source: the thread function `update_centroids(args)` of `tppthread.c`. -/
def Pthread.update_centroids (g : Globals) (start stop : Nat) : Option Globals :=
  (local_accumulate g start stop).map fun a => merge g a

/-- Source: `check_convergence(old_centroids)`, from cluster index `i` with `steps`
indices left: 0 at the first coordinate that moved by more than the threshold. -/
def check_convergence_from (centroids old_centroids : List Point) : (steps i : Nat) → Int
  | 0, _ => 1
  | steps + 1, i =>
    if (List.range d).any fun j =>
        decide ((1 / 10000 : ℚ) <
          |(centroids.getD i default).coord j - (old_centroids.getD i default).coord j|) then 0
    else check_convergence_from centroids old_centroids steps (i + 1)

/-- Source: `check_convergence(old_centroids)`. -/
def check_convergence (g : Globals) (old_centroids : List Point) : Int :=
  check_convergence_from g.centroids old_centroids g.k 0

/-- The `start` of worker `t` in `main`: `t * chunk_size`. -/
def chunk_start (n t : Nat) : Nat :=
  t * (n / NB_THREADS)

/-- The `end` of worker `t` in `main`: `n` for the last worker, else `(t + 1) * chunk_size`. -/
def chunk_end (n t : Nat) : Nat :=
  if t = NB_THREADS - 1 then n else (t + 1) * (n / NB_THREADS)

/-- The assignment phase of one iteration of `main`: one `assign_points` per worker. The
workers write disjoint ranges of `clusters` and read nothing a worker writes, so they are
run in the order of their creation. -/
def assign_phase (g : Globals) : Globals :=
  (List.range NB_THREADS).foldl
    (fun st t => assign_points st (chunk_start st.n t) (chunk_end st.n t)) g

/-- The reset loop of `main`: `centroids[i][j] = 0.0` and `points_per_thread[i] = 0`. -/
def reset (g : Globals) : Globals :=
  { g with
    centroids := (List.range g.k).foldl
      (fun cs i => cs.set i
        ((List.range d).foldl (fun row j => row.setCoord j 0) (cs.getD i default)))
      g.centroids
    points_per_thread := (List.range g.k).foldl (fun pp i => pp.set i 0) g.points_per_thread }

/-- The reduction phase of one iteration of `main`: one `update_centroids` per worker.
The merges are serialised by the lock; they are run in the order of creation. -/
def update_phase (g : Globals) : Option Globals :=
  (List.range NB_THREADS).foldl
    (fun st t => st.bind fun st =>
      Pthread.update_centroids st (chunk_start st.n t) (chunk_end st.n t))
    (some g)

/-- Body of the inner loop `for (j = 0; j < d; j++) row[j] /= count`; `none` once a
division by a zero count has been performed. -/
def row_div (row : Point) (count : Nat) : Option Point :=
  (List.range d).foldl
    (fun r j => r.bind fun r => (fdiv (r.coord j) count).map fun v => r.setCoord j v)
    (some row)

/-- The division loop of `main`: `centroids[i][j] /= points_per_thread[i]`, unguarded.
The result is `none` once a division by a zero count has been performed. -/
def divide (g : Globals) : Option Globals :=
  ((List.range g.k).foldl
    (fun cs i => cs.bind fun cs =>
      (row_div (cs.getD i default) (g.points_per_thread.getD i 0)).map fun row => cs.set i row)
    (some g.centroids)).map
  fun cs => { g with centroids := cs }

/-- One execution of the body of `while (!converged)` in `main`: the globals after it and
the new value of `converged`. -/
def main_iteration (g : Globals) : Option (Globals × Int) :=
  let old_centroids := snapshot g.centroids g.k
  (update_phase (reset (assign_phase g))).bind fun g3 =>
    (divide g3).map fun g4 => (g4, check_convergence g4 old_centroids)

/-- A run of the loop of `main`, followed for a bounded number of iterations.
`stopped it g`: `check_convergence` returned 1 at iteration `it`, which left the globals
`g`. `still_running g`: the iterations followed did not end the loop. `faulted it`:
iteration `it` divides by a zero count or indexes an array outside its bounds. The C
program does not stop there (a zero count stores NaN in the centroid and the loop goes
on); NaN and out-of-bounds accesses are outside this model, which follows the run no
further. -/
inductive Run where
  | stopped (iterations : Nat) (final : Globals)
  | faulted (iterations : Nat)
  | still_running (g : Globals)
deriving DecidableEq

/-- The loop `while (!converged)` of `main`, run for at most `fuel` iterations after the
`iters` already done. -/
def main_loop : (fuel iters : Nat) → Globals → Run
  | 0, _, g => Run.still_running g
  | fuel + 1, iters, g =>
    match main_iteration g with
    | none => Run.faulted (iters + 1)
    | some (g4, converged) =>
      if converged ≠ 0 then Run.stopped (iters + 1) g4 else main_loop fuel (iters + 1) g4

/-! ### A family of one-dimensional inputs for the thread-pool loop -/

/-- The points `(x, 0)` for `x` in `xs`. -/
def line_data (xs : List Nat) : List Point :=
  xs.map fun (x : Nat) => (⟨(x : ℚ), 0⟩ : Point)

/-- The sum of the first `m` entries of `xs`. -/
def head_sum (xs : List Nat) (m : Nat) : Nat :=
  (xs.take m).sum

/-- The assignment of `n` points that sends the first `m` to cluster 0 and the others to
cluster 1. -/
def split_clusters (n m : Nat) : List Int :=
  List.replicate m 0 ++ List.replicate (n - m) 1

/-- The globals of the thread-pool program at the end of an iteration on the points
`line_data xs` that sent the first `m` points to cluster 0 and the others to cluster 1:
each centroid is the mean of its points. -/
def split_state (xs : List Nat) (m : Nat) : Globals :=
  { n := xs.length
    k := 2
    data := line_data xs
    centroids :=
      [⟨(head_sum xs m : ℚ) / (m : ℚ), 0⟩,
        ⟨((head_sum xs xs.length : ℚ) - (head_sum xs m : ℚ)) / ((xs.length - m : Nat) : ℚ), 0⟩]
    clusters := split_clusters xs.length m
    points_per_thread := [m, xs.length - m] }

/-- The globals after `t` iterations of the loop of `main`, when none of them faults. -/
def after_iterations : Nat → Globals → Option Globals
  | 0, g => some g
  | t + 1, g => (main_iteration g).bind fun r => after_iterations t r.1

/-- The conditions under which an iteration of the thread-pool loop on `line_data xs`,
started with centroids `(c0, 0)` and `(c1, 0)`, sends exactly the first `m` points to
cluster 0: the centroids are ordered, `c0` lies in `[0, bound]`, both clusters are
non-empty, and the midpoint of the centroids falls between point `m - 1` and point `m`. -/
def separates (xs : List Nat) (bound : Nat) (c0 c1 : ℚ) (m : Nat) : Bool :=
  decide (0 ≤ c0) && decide (c0 ≤ (bound : ℚ)) && decide (c0 < c1) && decide (0 < m) &&
    decide (m < xs.length) && decide (2 * (xs.getD (m - 1) 0 : ℚ) ≤ c0 + c1) &&
    decide (c0 + c1 < 2 * (xs.getD m 0 : ℚ))

/-- The iteration from `split_state xs m` moves exactly one point to cluster 0 and
`check_convergence` returns 0 after it. -/
def creeps (xs : List Nat) (bound m : Nat) : Bool :=
  separates xs bound (((split_state xs m).centroids.getD 0 default).x)
    (((split_state xs m).centroids.getD 1 default).x) (m + 1) &&
  decide (check_convergence_from (split_state xs (m + 1)).centroids
    (split_state xs m).centroids 2 0 = 0)

/-- The property `creeps` for `cnt` successive split points from `m` on. -/
def creeps_from (xs : List Nat) (bound : Nat) : (cnt m : Nat) → Bool
  | 0, _ => true
  | cnt + 1, m => creeps xs bound m && creeps_from xs bound cnt (m + 1)

/-- The 103 middle abscissas of the slow input. -/
def slow_zone : List Nat :=
  [314329, 322327, 327225, 332027, 336714, 341293, 345770, 350151, 354440, 358644, 362767,
    366814, 370787, 374692, 378532, 382311, 386031, 389695, 393307, 396869, 400384, 403855,
    407282, 410670, 414019, 417332, 420611, 423858, 427074, 430261, 433421, 436555, 439665,
    442752, 445818, 448864, 451892, 454902, 457896, 460876, 463842, 466795, 469737, 472669,
    475593, 478508, 481416, 484319, 487217, 490111, 493003, 495893, 498783, 501673, 504565,
    507460, 510358, 513260, 516169, 519084, 522007, 524939, 527881, 530835, 533801, 536780,
    539774, 542784, 545812, 548858, 551923, 555010, 558120, 561254, 564413, 567600, 570815,
    574061, 577339, 580651, 583999, 587385, 590811, 594280, 597793, 601353, 604963, 608625,
    612341, 616117, 619953, 623854, 627823, 631864, 635981, 640179, 644462, 648835, 653303,
    657872, 662548, 667338, 672249]

/-- The abscissas of the slow input: 40 points at 0, the 103 points of `slow_zone`, and
40 points at 1000000, in increasing order. -/
def slow_xs : List Nat :=
  List.replicate 40 0 ++ slow_zone ++ List.replicate 40 1000000

/-- The slow input of the thread-pool program: `n = 183` points on the line, `k = 2`,
initial centroids (0, 0) and (636656, 0). -/
def slow_input : Globals :=
  ⟨183, 2, line_data slow_xs, [⟨0, 0⟩, ⟨636656, 0⟩], List.replicate 183 0, [0, 0]⟩

/-! ## `tpcuda.c` -/

/-- The C constant `threads_per_block`. -/
def threads_per_block : Nat := 512

/-- Source (`tpcuda.c`): `sqrt((a.x - b.x) * (a.x - b.x) + (a.y - b.y) * (a.y - b.y))`. -/
def Cuda.euclidean_distance (a b : Point) : SqrtQ :=
  SqrtQ.sqrt ((a.x - b.x) * (a.x - b.x) + (a.y - b.y) * (a.y - b.y))

/-- The host and device memory of `tpcuda.c`; `centroids` stands for both `centroids`
and its device copy `d_centroids`, which `main` keeps equal at the kernel launches. -/
structure Device where
  data : List Point
  centroids : List Point
  clusters : List Nat
  sums : List Point
  counts : List Nat
deriving DecidableEq

/-- Body of the inner loop of the kernel `assign_clusters` at index `j`. -/
def assign_kernel_step (p : Point) (centroids : List Point) (j : Nat) (acc : SqrtQ × Nat) :
    SqrtQ × Nat :=
  let dist := Cuda.euclidean_distance p (centroids.getD j default)
  if dist < acc.1 then (dist, j) else acc

/-- One thread of the kernel `assign_clusters`, with global index `idx`. -/
def Cuda.assign_clusters (n k idx : Nat) (m : Device) : Device :=
  if idx < n then
    { m with
      clusters := m.clusters.set idx
        ((List.range' 1 (k - 1)).foldl
          (fun acc j => assign_kernel_step (m.data.getD idx default) m.centroids j acc)
          (Cuda.euclidean_distance (m.data.getD idx default) (m.centroids.getD 0 default), 0)).2 }
  else m

/-- One thread of the kernel `update_centroids`, with global index `idx`; the three
`atomicAdd` are indivisible, so the threads are run one after the other. -/
def Cuda.update_centroids (n idx : Nat) (m : Device) : Device :=
  if idx < n then
    let cluster := m.clusters.getD idx 0
    let p := m.data.getD idx default
    let s := m.sums.getD cluster default
    { m with
      sums := m.sums.set cluster ⟨s.x + p.x, s.y + p.y⟩
      counts := m.counts.set cluster (m.counts.getD cluster 0 + 1) }
  else m

/-- A kernel launch `kernel<<<num_blocks, threads_per_block>>>`: every thread of every
block runs once, with `idx = blockIdx.x * blockDim.x + threadIdx.x`. -/
def launch (num_blocks : Nat) (thread : Nat → Device → Device) (m : Device) : Device :=
  (List.range num_blocks).foldl
    (fun m b =>
      (List.range threads_per_block).foldl (fun m t => thread (b * threads_per_block + t) m) m)
    m

/-- Source: `num_blocks = (n + threads_per_block - 1) / threads_per_block`. -/
def num_blocks (n : Nat) : Nat :=
  (n + threads_per_block - 1) / threads_per_block

/-- Body of the host loop of `main` at cluster index `i`, on `(centroids, max_change)`:
the guarded division and the two updates of `max_change`. -/
def host_finalize_step (sums : List Point) (counts : List Nat) (i : Nat)
    (st : Option (List Point × ℚ)) : Option (List Point × ℚ) :=
  st.bind fun st =>
    if counts.getD i 0 > 0 then
      (fdiv (sums.getD i default).x (counts.getD i 0)).bind fun new_x =>
        (fdiv (sums.getD i default).y (counts.getD i 0)).bind fun new_y =>
          some (st.1.set i ⟨new_x, new_y⟩,
            max (max st.2 |new_x - (st.1.getD i default).x|) |new_y - (st.1.getD i default).y|)
    else some st

/-- The host loop of `main` that computes the new centroids and `max_change`, in exact
arithmetic; `Binary32.host_finalize` is the same loop in `float` arithmetic. -/
def host_finalize (sums : List Point) (counts : List Nat) (centroids : List Point) (k : Nat) :
    Option (List Point × ℚ) :=
  (List.range k).foldl (fun st i => host_finalize_step sums counts i st) (some (centroids, 0))

/-- One execution of the body of the `for` loop of `main` in `tpcuda.c`: the memory after
it and whether the `break` is taken (`max_change < TOL`). -/
def cuda_iteration (m : Device) (n k : Nat) : Option (Device × Bool) :=
  let m1 : Device := { m with sums := List.replicate k ⟨0, 0⟩, counts := List.replicate k 0 }
  let m2 := launch (num_blocks n) (Cuda.assign_clusters n k) m1
  let m3 := launch (num_blocks n) (Cuda.update_centroids n) m2
  (host_finalize m3.sums m3.counts m3.centroids k).map fun r =>
    ({ m3 with centroids := r.1 }, decide (r.2 < TOL))

/-! ## The two `main` functions, from the inputs to the loop -/

/-- How `main` of `tpSequentiel.c` ends: `return 1` when the point file cannot be loaded,
`return 0` after `k_means`. -/
inductive Exit where
  | load_failure
  | done (out : Outcome) (final : State)
deriving DecidableEq

/-- Source: `main` of `tpSequentiel.c`. `file` is the content of the point file (`none`
when `read_data_from_file` returns -1), `k` the number typed, `seeds` the centroid
coordinates typed (`initialize_centroids` reads `k` of them) and `memory` the content
of the freshly allocated `clusters` array; for `k ≥ 1` the allocations are taken to
succeed. There is no test on `k`. With `k ≤ 0` the
block `centroids` has no entry (for `k < 0` `malloc` is asked for a size it cannot give
and returns `NULL`), `assign_clusters` reads `centroids[0]` outside it, and `sums[k]`,
`counts[k]`, `old_centroids[k]` are arrays of a non-positive size: that run is outside
the model and reported as `none`. -/
def Sequentiel.main (file : Option (List Point)) (k : Int) (seeds : List Point)
    (memory : List Nat) : Option Exit :=
  match file with
  | none => some Exit.load_failure
  | some data =>
    if k ≤ 0 then none
    else
      (k_means ⟨data, snapshot seeds k.toNat, memory⟩ data.length k.toNat).map
        fun r => Exit.done r.1 r.2

/-- The C constant `NB_POINTS`, the size of the global arrays `data` and `clusters`. -/
def NB_POINTS : Nat := 5000000

/-- How `main` of `tppthread.c` ends within a bounded number of iterations:
`exit(EXIT_FAILURE)` when the point file cannot be opened, else the run of its loop. -/
inductive ThreadExit where
  | load_failure
  | ran (r : Run)
deriving DecidableEq

/-- The globals with which `main` of `tppthread.c` reaches its loop: `n` and `k` are the
numbers typed (a negative number runs every loop `i < n`, `i < k` as 0 does), `points`
the content of the point file, `seeds` the centroid coordinates typed; the global arrays
start zeroed. -/
def Pthread.main_globals (n k : Int) (points seeds : List Point) : Globals :=
  ⟨n.toNat, k.toNat, snapshot points n.toNat, snapshot seeds k.toNat,
    List.replicate n.toNat 0, List.replicate NB_THREADS 0⟩

/-- Source: `main` of `tppthread.c`, followed for at most `fuel` iterations of its loop.
There is no test on `n` or `k`. With `n > NB_POINTS` or `k > NB_CLUSTERS` the input
loops write outside the global arrays `data` and `centroids`: that run is outside the
model and reported as `none`. -/
def Pthread.main (n k : Int) (file : Option (List Point)) (seeds : List Point) (fuel : Nat) :
    Option ThreadExit :=
  match file with
  | none => some ThreadExit.load_failure
  | some points =>
    if (NB_POINTS : Int) < n ∨ (NB_CLUSTERS : Int) < k then none
    else some (ThreadExit.ran (main_loop fuel 0 (Pthread.main_globals n k points seeds)))

/-! ### The reduction phase for any table of worker ranges -/

/-- The reduction phase of the thread-pool `main` for an arbitrary table of worker
ranges `(start, end)`: one thread function `update_centroids` per range. The lock makes
each merge indivisible, so a run is the list of the ranges in the order in which their
workers took the lock. -/
def update_phase_chunks (g : Globals) (chunks : List (Nat × Nat)) : Option Globals :=
  chunks.foldl (fun st c => st.bind fun st => Pthread.update_centroids st c.1 c.2) (some g)

/-- The ranges `chunks` split `[0, n)`: each ends within `n`, and every index below `n`
lies in exactly one of them. -/
def is_split (n : Nat) (chunks : List (Nat × Nat)) : Prop :=
  (∀ c ∈ chunks, c.2 ≤ n) ∧
  ∀ i < n, chunks.countP (fun c => decide (c.1 ≤ i ∧ i < c.2)) = 1

/-- The ranges that `main` gives to its `NB_THREADS` workers. -/
def main_chunks (n : Nat) : List (Nat × Nat) :=
  (List.range NB_THREADS).map fun t => (chunk_start n t, chunk_end n t)

/-- The indices of `idxs` whose point is assigned to cluster `c`. -/
def part_members (clusters : List Nat) (idxs : List Nat) (c : Nat) : List Nat :=
  idxs.filter fun i => decide (clusters.getD i 0 = c)

/-- The sum of the `x` of the points of `idxs` assigned to cluster `c`. -/
def part_sum_x (data : List Point) (clusters : List Nat) (idxs : List Nat) (c : Nat) : ℚ :=
  ((part_members clusters idxs c).map fun i => (data.getD i default).x).sum

/-- The sum of the `y` of the points of `idxs` assigned to cluster `c`. -/
def part_sum_y (data : List Point) (clusters : List Nat) (idxs : List Nat) (c : Nat) : ℚ :=
  ((part_members clusters idxs c).map fun i => (data.getD i default).y).sum

/-- The number of points of `idxs` assigned to cluster `c`. -/
def part_count (clusters : List Nat) (idxs : List Nat) (c : Nat) : Nat :=
  (part_members clusters idxs c).length

/-- The memory after `t` executions of the body of the `for` loop of `main` in
`tpcuda.c`. -/
def cuda_after_iterations (n k : Nat) : Nat → Device → Option Device
  | 0, m => some m
  | t + 1, m => (cuda_iteration m n k).bind fun r => cuda_after_iterations n k t r.1

/-! ## The range of `double` in the distance computations

The definitions above compute on unbounded rationals. In the two scans below the range
of `double` is taken into account (rounding still is not): a result whose magnitude
exceeds `DBL_MAX` is an infinity. -/

/-- A `double` result with the range of the type taken into account: `some q` for a
finite value, `none` for an infinity, which a result of magnitude above `DBL_MAX` is. -/
@[irreducible]
def in_range (q : ℚ) : Option ℚ :=
  if |q| ≤ DBL_MAX then some q else none

/-- The test `a < b` on two nonnegative `double` values, `none` being `+inf`: `+inf` is
below nothing, and every finite value is below `+inf`. -/
def Ranged.lt (a b : Option SqrtQ) : Bool :=
  match a, b with
  | some x, some y => decide (x < y)
  | some _, none => true
  | none, _ => false

/-- Source (`tppthread.c`): `euclidean_distance(point, centroid, dim)` with the range of
`double`. A difference that overflows is an infinity, the square of an infinity is
`+inf`, a sum with a `+inf` term is `+inf`, and `sqrt(+inf)` is `+inf` (`none`). -/
def Ranged.Pthread.euclidean_distance (point centroid : Point) (dim : Nat) : Option SqrtQ :=
  ((List.range dim).foldl
    (fun sum i =>
      sum.bind fun s =>
        (in_range (point.coord i - centroid.coord i)).bind fun df =>
          (in_range (df * df)).bind fun sq => in_range (s + sq))
    (some 0)).map SqrtQ.sqrt

/-- Body of the inner loop of `assign_points` at index `j`, with the range of `double`. -/
def Ranged.assign_points_step (p : Point) (centroids : List Point) (j : Nat)
    (acc : Option SqrtQ × Int) : Option SqrtQ × Int :=
  let dist := Ranged.Pthread.euclidean_distance p (centroids.getD j default) d
  if Ranged.lt dist acc.1 then (dist, (j : Int)) else acc

/-- The inner loop of `assign_points` for one point, with the range of `double`: from
`(DBL_MAX, -1)`, a scan of `j = 0 .. k-1`. -/
def Ranged.assign_point (p : Point) (centroids : List Point) (k : Nat) : Option SqrtQ × Int :=
  (List.range k).foldl (fun acc j => Ranged.assign_points_step p centroids j acc)
    (some (SqrtQ.ofRat DBL_MAX), -1)

/-- Source (`tpSequentiel.c`): `sqrt(pow(a.x - b.x, 2) + pow(a.y - b.y, 2))` with the
range of `double`; `pow` of an infinity is `+inf`. -/
def Ranged.euclidean_distance (a b : Point) : Option SqrtQ :=
  ((in_range (a.x - b.x)).bind fun dx => in_range (dx ^ 2)).bind fun px =>
    ((in_range (a.y - b.y)).bind fun dy => in_range (dy ^ 2)).bind fun py =>
      (in_range (px + py)).map SqrtQ.sqrt

/-- Body of the inner loop of `assign_clusters` at index `j`, with the range of
`double`. -/
def Ranged.assign_step (p : Point) (centroids : List Point) (j : Nat)
    (acc : Option SqrtQ × Nat) : Option SqrtQ × Nat :=
  let dist := Ranged.euclidean_distance p (centroids.getD j default)
  if Ranged.lt dist acc.1 then (dist, j) else acc

/-- The inner loop `for (j = 1; j < k; j++)` of `assign_clusters` for one point, with the
range of `double`. -/
def Ranged.assign_scan (p : Point) (centroids : List Point) (k : Nat) : Option SqrtQ × Nat :=
  (List.range' 1 (k - 1)).foldl (fun acc j => Ranged.assign_step p centroids j acc)
    (Ranged.euclidean_distance p (centroids.getD 0 default), 0)

/-! ## Rounding to `float` and `double`

The definitions above compute on exact rationals. The definitions of this section
round every arithmetic result to the nearest value of the binary format, ties to even,
as the machine does for `+`, `-`, `*` and `/`. Subnormal numbers are included; the
exponent range is not bounded above, so a result beyond the largest finite value of the
format is not replaced by an infinity. -/

/-- The rational `2 ^ e` for an integer exponent `e`. -/
def pow2 (e : Int) : ℚ :=
  if 0 ≤ e then ((2 ^ e.toNat : Nat) : ℚ) else 1 / ((2 ^ (-e).toNat : Nat) : ℚ)

/-- The number of binary digits of `n`, computed with at most `fuel` halvings. -/
def bit_length : (fuel : Nat) → Nat → Nat
  | 0, _ => 0
  | fuel + 1, n => if n = 0 then 0 else bit_length fuel (n / 2) + 1

/-- The binary exponent of a positive rational `q`: the `E` with `2 ^ E ≤ q < 2 ^ (E + 1)`.
The difference `l` of the digit counts of numerator and denominator is `E` or `E + 1`. -/
def ilog2 (q : ℚ) : Int :=
  let l : Int := (bit_length q.num.natAbs q.num.natAbs : Int) - (bit_length q.den q.den : Int)
  if pow2 l ≤ q then l else l - 1

/-- The integer nearest to a nonnegative rational, a tie going to the even one. -/
def round_half_even (q : ℚ) : Nat :=
  let f := q.num.natAbs / q.den
  let r := q - (f : ℚ)
  if r < 1 / 2 then f else if 1 / 2 < r then f + 1 else if f % 2 = 0 then f else f + 1

/-- Rounding to the nearest number of the binary format with `p` significand bits whose
least positive number is `2 ^ emin`, ties to even: the result is a multiple of the unit
in the last place `2 ^ e`, where `e` is `E - (p - 1)` for the binary exponent `E` of `q`,
and `emin` in the subnormal range. -/
def round_nearest (p : Nat) (emin : Int) (q : ℚ) : ℚ :=
  if q = 0 then 0
  else
    let e := max (ilog2 |q| - ((p : Int) - 1)) emin
    (if q < 0 then -1 else 1) * ((round_half_even (|q| / pow2 e) : Nat) : ℚ) * pow2 e

/-- A result of `float` arithmetic (IEEE 754 binary32: 24 significand bits, least
positive number `2 ^ -149`). -/
def binary32 (q : ℚ) : ℚ :=
  round_nearest 24 (-149) q

/-- A result of `double` arithmetic (IEEE 754 binary64: 53 significand bits, least
positive number `2 ^ -1074`). -/
def binary64 (q : ℚ) : ℚ :=
  round_nearest 53 (-1074) q

/-! ### The host loop of `tpcuda.c` in `float` arithmetic -/

/-- Body of the host loop of `main` in `tpcuda.c` at cluster index `i`, on
`(centroids, max_change)`, in `float` arithmetic: `new_x = sums[i].x / counts[i]` is a
`float` division by the count converted to `float`, `new_x - centroids[i].x` a `float`
subtraction; `fabs` and `fmax` are exact. The guard `counts[i] > 0` excludes a zero
divisor. -/
def Binary32.host_finalize_step (sums : List Point) (counts : List Nat) (i : Nat)
    (st : List Point × ℚ) : List Point × ℚ :=
  if counts.getD i 0 > 0 then
    let new_x := binary32 ((sums.getD i default).x / binary32 (counts.getD i 0 : ℚ))
    let new_y := binary32 ((sums.getD i default).y / binary32 (counts.getD i 0 : ℚ))
    (st.1.set i ⟨new_x, new_y⟩,
      max (max st.2 |binary32 (new_x - (st.1.getD i default).x)|)
        |binary32 (new_y - (st.1.getD i default).y)|)
  else st

/-- The host loop of `main` in `tpcuda.c` that computes the new centroids and
`max_change`, in `float` arithmetic. -/
def Binary32.host_finalize (sums : List Point) (counts : List Nat) (centroids : List Point)
    (k : Nat) : List Point × ℚ :=
  (List.range k).foldl (fun st i => Binary32.host_finalize_step sums counts i st)
    (centroids, 0)

/-- The test `max_change < TOL` of `main` in `tpcuda.c`: `max_change` is a `float`, the
constant `TOL` is the `double` nearest to `1e-4`, and the comparison is made on the
values. -/
def Binary32.breaks (max_change : ℚ) : Bool :=
  decide (max_change < binary64 TOL)

/-- The new value the host loop gives to centroid `c`, in `float` arithmetic. -/
def Binary32.finalized (sums : List Point) (counts : List Nat) (cs : List Point) (c : Nat) :
    Point :=
  if 0 < counts.getD c 0 then
    ⟨binary32 ((sums.getD c default).x / binary32 (counts.getD c 0 : ℚ)),
      binary32 ((sums.getD c default).y / binary32 (counts.getD c 0 : ℚ))⟩
  else cs.getD c default

/-! ### `update_centroids` of `tpSequentiel.c` in `double` arithmetic -/

/-- Body of the accumulation loop of `update_centroids` at point index `i`, in `double`
arithmetic: each `+=` rounds its sum. -/
def Binary64.accumulate_step (data : List Point) (clusters : List Nat) (i : Nat) (a : Accum) :
    Accum :=
  let cluster := clusters.getD i 0
  let p := data.getD i default
  let s := a.sums.getD cluster default
  { sums := a.sums.set cluster ⟨binary64 (s.x + p.x), binary64 (s.y + p.y)⟩
    counts := a.counts.set cluster (a.counts.getD cluster 0 + 1) }

/-- The first two loops of `update_centroids`, in `double` arithmetic. -/
def Binary64.accumulate (data : List Point) (clusters : List Nat) (n k : Nat) : Accum :=
  (List.range n).foldl (fun a i => Binary64.accumulate_step data clusters i a)
    { sums := List.replicate k ⟨0, 0⟩, counts := List.replicate k 0 }

/-- Body of the last loop of `update_centroids` at cluster index `i`, in `double`
arithmetic: the guarded division, whose quotient is rounded (the `int` count converts
to `double` exactly). -/
def Binary64.finalize_step (a : Accum) (i : Nat) (cs : List Point) : List Point :=
  if a.counts.getD i 0 > 0 then
    cs.set i
      ⟨binary64 ((a.sums.getD i default).x / (a.counts.getD i 0 : ℚ)),
        binary64 ((a.sums.getD i default).y / (a.counts.getD i 0 : ℚ))⟩
  else cs

/-- Source: `update_centroids(data, centroids, clusters, n, k)` of `tpSequentiel.c`, in
`double` arithmetic. -/
def Binary64.update_centroids (s : State) (n k : Nat) : State :=
  { s with
    centroids := (List.range k).foldl
      (fun cs i => Binary64.finalize_step (Binary64.accumulate s.data s.clusters n k) i cs)
      s.centroids }

end KMeans

namespace KMeans

/-! ## Helper lemmas: exact square roots -/

theorem euclidean_distance_radicand_nonneg (a b : Point) :
    0 ≤ (euclidean_distance a b).radicand := by
  show 0 ≤ (a.x - b.x) ^ 2 + (a.y - b.y) ^ 2
  positivity

theorem SqrtQ.lt_def (a b : SqrtQ) : a < b ↔ a.radicand < b.radicand := Iff.rfl

/-- The order on `SqrtQ` is the order of the real numbers it stands for. -/
theorem SqrtQ.lt_iff_sqrt_lt (a b : SqrtQ) (ha : 0 ≤ a.radicand) :
    a < b ↔ Real.sqrt (a.radicand : ℝ) < Real.sqrt (b.radicand : ℝ) := by
  rw [SqrtQ.lt_def, Real.sqrt_lt_sqrt_iff (by exact_mod_cast ha)]
  exact_mod_cast Iff.rfl

theorem sqrt_le_of_radicand_le {a b : ℚ} (h : a ≤ b) :
    Real.sqrt (a : ℝ) ≤ Real.sqrt (b : ℝ) :=
  Real.sqrt_le_sqrt (by exact_mod_cast h)

theorem sqrt_lt_of_radicand_lt {a b : ℚ} (ha : 0 ≤ a) (h : a < b) :
    Real.sqrt (a : ℝ) < Real.sqrt (b : ℝ) :=
  (Real.sqrt_lt_sqrt_iff (by exact_mod_cast ha)).2 (by exact_mod_cast h)

/-! ## Helper lemmas: loops that write one array cell per index -/

theorem foldl_set_length {α : Type} (f : Nat → α) :
    ∀ (len a : Nat) (l : List α),
      ((List.range' a len).foldl (fun cl i => cl.set i (f i)) l).length = l.length := by
  intro len
  induction len with
  | zero => intro a l; simp
  | succ m ih => intro a l; simp [List.range'_succ, ih]

theorem foldl_set_getD {α : Type} (f : Nat → α) (dflt : α) :
    ∀ (len a : Nat) (l : List α) (i : Nat),
      ((List.range' a len).foldl (fun cl i => cl.set i (f i)) l).getD i dflt =
        if a ≤ i ∧ i < a + len ∧ i < l.length then f i else l.getD i dflt := by
  intro len
  induction len with
  | zero =>
    intro a l i
    have h : ¬ (a ≤ i ∧ i < a + 0 ∧ i < l.length) := by omega
    rw [if_neg h]
    rfl
  | succ m ih =>
    intro a l i
    simp only [List.range'_succ, List.foldl_cons]
    rw [ih]
    simp only [List.length_set, List.getD_eq_getElem?_getD, List.getElem?_set]
    by_cases hai : a = i
    · subst hai
      by_cases hl : a < l.length
      · simp [hl]
      · have : l[a]? = none := by simp; omega
        simp [hl, this]
    · by_cases h1 : a + 1 ≤ i ∧ i < a + 1 + m ∧ i < l.length
      · have h2 : a ≤ i ∧ i < a + (m + 1) ∧ i < l.length := by omega
        simp [h1, h2]
      · have h2 : ¬ (a ≤ i ∧ i < a + (m + 1) ∧ i < l.length) := by omega
        simp [h1, h2, hai]

/-! ## Sequential assignment -/

/-- Invariant of the inner loop of `assign_clusters`: after the indices below `a`, the
pair `(min_dist, cluster)` holds the least index of minimal distance among them. -/
theorem assign_fold_inv (p : Point) (cs : List Point) :
    ∀ (m a : Nat) (acc : SqrtQ × Nat),
      acc.1 = euclidean_distance p (cs.getD acc.2 default) →
      acc.2 < a →
      (∀ j < a, (euclidean_distance p (cs.getD acc.2 default)).radicand ≤
        (euclidean_distance p (cs.getD j default)).radicand) →
      (∀ j < acc.2, (euclidean_distance p (cs.getD acc.2 default)).radicand <
        (euclidean_distance p (cs.getD j default)).radicand) →
      let r := (List.range' a m).foldl (fun acc j => assign_step p cs j acc) acc
      r.1 = euclidean_distance p (cs.getD r.2 default) ∧ r.2 < a + m ∧
      (∀ j < a + m, (euclidean_distance p (cs.getD r.2 default)).radicand ≤
        (euclidean_distance p (cs.getD j default)).radicand) ∧
      (∀ j < r.2, (euclidean_distance p (cs.getD r.2 default)).radicand <
        (euclidean_distance p (cs.getD j default)).radicand) := by
  intro m
  induction m with
  | zero => intro a acc h1 h2 h3 h4; exact ⟨h1, by simpa using h2, by simpa using h3, h4⟩
  | succ m ih =>
    intro a acc h1 h2 h3 h4
    simp only [List.range'_succ, List.foldl_cons]
    have key := ih (a + 1) (assign_step p cs a acc)
    by_cases hlt : euclidean_distance p (cs.getD a default) < acc.1
    · have hstep : assign_step p cs a acc = (euclidean_distance p (cs.getD a default), a) :=
        if_pos hlt
      rw [hstep] at key ⊢
      rw [h1, SqrtQ.lt_def] at hlt
      have := key rfl (Nat.lt_succ_self a)
        (fun j hj => by
          rcases Nat.lt_succ_iff_lt_or_eq.1 hj with h | h
          · exact le_trans (le_of_lt hlt) (h3 j h)
          · subst h; exact le_refl _)
        (fun j hj => lt_of_lt_of_le hlt (h3 j hj))
      simpa [Nat.add_assoc, Nat.add_comm 1 m] using this
    · have hstep : assign_step p cs a acc = acc := if_neg hlt
      rw [hstep] at key ⊢
      rw [h1, SqrtQ.lt_def, not_lt] at hlt
      have := key h1 (Nat.lt_succ_of_lt h2)
        (fun j hj => by
          rcases Nat.lt_succ_iff_lt_or_eq.1 hj with h | h
          · exact h3 j h
          · subst h; exact hlt)
        h4
      simpa [Nat.add_assoc, Nat.add_comm 1 m] using this

/-- What `assign_scan` returns for `k ≥ 1`: the least index of minimal distance. -/
theorem assign_scan_spec (p : Point) (cs : List Point) (k : Nat) (hk : 1 ≤ k) :
    (assign_scan p cs k).2 < k ∧
    (∀ j < k, (euclidean_distance p (cs.getD (assign_scan p cs k).2 default)).radicand ≤
      (euclidean_distance p (cs.getD j default)).radicand) ∧
    (∀ j < (assign_scan p cs k).2,
      (euclidean_distance p (cs.getD (assign_scan p cs k).2 default)).radicand <
      (euclidean_distance p (cs.getD j default)).radicand) := by
  have h := assign_fold_inv p cs (k - 1) 1 (euclidean_distance p (cs.getD 0 default), 0) rfl
    Nat.zero_lt_one
    (fun j hj => by
      have : j = 0 := by omega
      subst this; exact le_refl _)
    (fun j hj => absurd hj (Nat.not_lt_zero j))
  have hk1 : 1 + (k - 1) = k := by omega
  rw [hk1] at h
  exact ⟨h.2.1, h.2.2.1, h.2.2.2⟩

theorem assign_clusters_getD (s : State) (n k i : Nat) (hcl : s.clusters.length = n)
    (hi : i < n) :
    (assign_clusters s n k).clusters.getD i 0 =
      (assign_scan (s.data.getD i default) s.centroids k).2 := by
  show ((List.range n).foldl _ s.clusters).getD i 0 = _
  rw [List.range_eq_range', foldl_set_getD]
  simp [hcl, hi]

theorem assign_clusters_length (s : State) (n k : Nat) :
    (assign_clusters s n k).clusters.length = s.clusters.length := by
  show ((List.range n).foldl _ s.clusters).length = _
  rw [List.range_eq_range', foldl_set_length]

/-! ## Sequential reduction -/

theorem getD_set {α : Type} (l : List α) (i j : Nat) (a dflt : α) :
    (l.set i a).getD j dflt = if i = j ∧ i < l.length then a else l.getD j dflt := by
  simp only [List.getD_eq_getElem?_getD, List.getElem?_set]
  by_cases hij : i = j
  · subst hij
    by_cases hl : i < l.length
    · simp [hl]
    · have : l[i]? = none := by simp; omega
      simp [hl, this]
  · simp [hij]

theorem members_succ (clusters : List Nat) (m c : Nat) :
    members clusters (m + 1) c =
      members clusters m c ++ (if clusters.getD m 0 = c then [m] else []) := by
  unfold members
  rw [List.range_succ, List.filter_append]
  by_cases h : clusters.getD m 0 = c
  · have hd : decide (clusters.getD m 0 = c) = true := decide_eq_true h
    rw [if_pos h]
    simp only [List.filter, hd]
  · have hd : decide (clusters.getD m 0 = c) = false := decide_eq_false h
    rw [if_neg h]
    simp only [List.filter, hd]

theorem cluster_sum_x_succ (data : List Point) (clusters : List Nat) (m c : Nat) :
    cluster_sum_x data clusters (m + 1) c =
      cluster_sum_x data clusters m c +
        (if clusters.getD m 0 = c then (data.getD m default).x else 0) := by
  unfold cluster_sum_x
  rw [members_succ]
  by_cases h : clusters.getD m 0 = c
  · rw [if_pos h, if_pos h]; simp
  · rw [if_neg h, if_neg h]; simp

theorem cluster_sum_y_succ (data : List Point) (clusters : List Nat) (m c : Nat) :
    cluster_sum_y data clusters (m + 1) c =
      cluster_sum_y data clusters m c +
        (if clusters.getD m 0 = c then (data.getD m default).y else 0) := by
  unfold cluster_sum_y
  rw [members_succ]
  by_cases h : clusters.getD m 0 = c
  · rw [if_pos h, if_pos h]; simp
  · rw [if_neg h, if_neg h]; simp

theorem cluster_count_succ (clusters : List Nat) (m c : Nat) :
    cluster_count clusters (m + 1) c =
      cluster_count clusters m c + (if clusters.getD m 0 = c then 1 else 0) := by
  unfold cluster_count
  rw [members_succ]
  by_cases h : clusters.getD m 0 = c
  · rw [if_pos h, if_pos h]; simp
  · rw [if_neg h, if_neg h]; simp

theorem accumulate_step_sums_length (data : List Point) (clusters : List Nat) (i : Nat)
    (a : Accum) : (accumulate_step data clusters i a).sums.length = a.sums.length := by
  simp [accumulate_step]

theorem accumulate_step_counts_length (data : List Point) (clusters : List Nat) (i : Nat)
    (a : Accum) : (accumulate_step data clusters i a).counts.length = a.counts.length := by
  simp [accumulate_step]

theorem accumulate_step_sums (data : List Point) (clusters : List Nat) (i c : Nat)
    (a : Accum) (hc : c < a.sums.length) :
    (accumulate_step data clusters i a).sums.getD c default =
      if clusters.getD i 0 = c then
        ⟨(a.sums.getD c default).x + (data.getD i default).x,
          (a.sums.getD c default).y + (data.getD i default).y⟩
      else a.sums.getD c default := by
  show (a.sums.set _ _).getD c default = _
  rw [getD_set]
  by_cases h : clusters.getD i 0 = c
  · rw [if_pos h, if_pos ⟨h, by rw [h]; exact hc⟩, h]
  · rw [if_neg h, if_neg (fun hh => h hh.1)]

theorem accumulate_step_counts (data : List Point) (clusters : List Nat) (i c : Nat)
    (a : Accum) (hc : c < a.counts.length) :
    (accumulate_step data clusters i a).counts.getD c 0 =
      if clusters.getD i 0 = c then a.counts.getD c 0 + 1 else a.counts.getD c 0 := by
  show (a.counts.set _ _).getD c 0 = _
  rw [getD_set]
  by_cases h : clusters.getD i 0 = c
  · rw [if_pos h, if_pos ⟨h, by rw [h]; exact hc⟩, h]
  · rw [if_neg h, if_neg (fun hh => h hh.1)]

/-- The accumulators after the first `m` points. -/
theorem accumulate_upto (data : List Point) (clusters : List Nat) (k : Nat) :
    ∀ m : Nat,
      ((List.range m).foldl (fun a i => accumulate_step data clusters i a)
        ({ sums := List.replicate k ⟨0, 0⟩, counts := List.replicate k 0 } : Accum)).sums.length
          = k ∧
      ((List.range m).foldl (fun a i => accumulate_step data clusters i a)
        ({ sums := List.replicate k ⟨0, 0⟩, counts := List.replicate k 0 } : Accum)).counts.length
          = k ∧
      ∀ c < k,
        ((List.range m).foldl (fun a i => accumulate_step data clusters i a)
          ({ sums := List.replicate k ⟨0, 0⟩, counts := List.replicate k 0 } : Accum)).sums.getD
            c default =
          ⟨cluster_sum_x data clusters m c, cluster_sum_y data clusters m c⟩ ∧
        ((List.range m).foldl (fun a i => accumulate_step data clusters i a)
          ({ sums := List.replicate k ⟨0, 0⟩, counts := List.replicate k 0 } : Accum)).counts.getD
            c 0 = cluster_count clusters m c := by
  intro m
  induction m with
  | zero =>
    refine ⟨by simp, by simp, fun c hc => ?_⟩
    simp [cluster_sum_x, cluster_sum_y, cluster_count, members, List.getD_eq_getElem?_getD,
      List.getElem?_replicate, hc]
  | succ m ih =>
    simp only [List.range_succ, List.foldl_append, List.foldl_cons, List.foldl_nil]
    generalize (List.range m).foldl (fun a i => accumulate_step data clusters i a)
        ({ sums := List.replicate k ⟨0, 0⟩, counts := List.replicate k 0 } : Accum) = A at ih ⊢
    obtain ⟨hs, hc, hall⟩ := ih
    refine ⟨by rw [accumulate_step_sums_length, hs],
      by rw [accumulate_step_counts_length, hc], fun c hck => ?_⟩
    obtain ⟨h1, h2⟩ := hall c hck
    rw [cluster_sum_x_succ, cluster_sum_y_succ, cluster_count_succ,
      accumulate_step_sums _ _ _ _ _ (by rw [hs]; exact hck),
      accumulate_step_counts _ _ _ _ _ (by rw [hc]; exact hck), h1, h2]
    by_cases h : clusters.getD m 0 = c
    · simp only [h, if_true, and_self]
    · simp only [h, if_false, add_zero, and_self]

theorem accumulate_spec (data : List Point) (clusters : List Nat) (n k c : Nat) (hc : c < k) :
    (accumulate data clusters n k).sums.getD c default =
      ⟨cluster_sum_x data clusters n c, cluster_sum_y data clusters n c⟩ ∧
    (accumulate data clusters n k).counts.getD c 0 = cluster_count clusters n c :=
  (accumulate_upto data clusters k n).2.2 c hc

theorem finalize_step_some (a : Accum) (i : Nat) (cs : List Point) :
    finalize_step a i (some cs) =
      some (if 0 < a.counts.getD i 0 then cs.set i (finalized a cs i) else cs) := by
  unfold finalize_step finalized fdiv
  by_cases h : 0 < a.counts.getD i 0
  · have h0 : a.counts.getD i 0 ≠ 0 := Nat.pos_iff_ne_zero.1 h
    simp only [Option.some_bind, gt_iff_lt, h, if_true, h0, if_false]
  · simp only [Option.some_bind, gt_iff_lt, h, if_false]

/-- The last loop of `update_centroids` after the first `m` clusters: no division by a
zero count has happened, the first `m` centroids are final, the others untouched. -/
theorem finalize_upto (a : Accum) (cs : List Point) :
    ∀ m : Nat, ∃ cs' : List Point,
      (List.range m).foldl (fun r i => finalize_step a i r) (some cs) = some cs' ∧
      cs'.length = cs.length ∧
      ∀ c < cs.length, cs'.getD c default =
        if c < m then finalized a cs c else cs.getD c default := by
  intro m
  induction m with
  | zero => exact ⟨cs, rfl, rfl, fun c _ => by simp⟩
  | succ m ih =>
    obtain ⟨cs1, h1, h2, h3⟩ := ih
    simp only [List.range_succ, List.foldl_append, List.foldl_cons, List.foldl_nil, h1]
    rw [finalize_step_some]
    refine ⟨_, rfl, ?_, fun c hc => ?_⟩
    · split <;> simp [h2]
    · have hfin : finalized a cs1 m = finalized a cs m := by
        unfold finalized
        by_cases hm : m < cs.length
        · rw [h3 m hm]; simp
        · have e1 : cs1.getD m default = default := by
            simp only [List.getD_eq_getElem?_getD]
            rw [List.getElem?_eq_none (by omega)]; rfl
          have e2 : cs.getD m default = default := by
            simp only [List.getD_eq_getElem?_getD]
            rw [List.getElem?_eq_none (by omega)]; rfl
          rw [e1, e2]
      by_cases hpos : 0 < a.counts.getD m 0
      · simp only [hpos, if_true, getD_set, h2]
        by_cases hmc : m = c
        · subst hmc
          simp [hc, hfin]
        · have : (c < m + 1) = (c < m) := by
            apply propext; constructor <;> intro h <;> omega
          simp only [hmc, false_and, if_false, this]
          exact h3 c hc
      · simp only [hpos, if_false]
        rw [h3 c hc]
        by_cases hmc : c = m
        · subst hmc
          rw [if_neg (Nat.lt_irrefl c), if_pos (Nat.lt_succ_self c)]
          unfold finalized
          rw [if_neg hpos]
        · have hiff : c < m + 1 ↔ c < m := by omega
          simp only [hiff]

theorem update_centroids_spec (s : State) (n k : Nat) (hcen : s.centroids.length = k) :
    ∃ cs' : List Point,
      update_centroids s n k = some { s with centroids := cs' } ∧ cs'.length = k ∧
      ∀ c < k, cs'.getD c default = finalized (accumulate s.data s.clusters n k) s.centroids c := by
  obtain ⟨cs', h1, h2, h3⟩ := finalize_upto (accumulate s.data s.clusters n k) s.centroids k
  refine ⟨cs', ?_, by rw [h2, hcen], fun c hc => ?_⟩
  · unfold update_centroids
    rw [h1]
    rfl
  · rw [h3 c (by rw [hcen]; exact hc), if_pos hc]

/-! ## Sequential convergence test and main loop -/

theorem snapshot_getD (cs : List Point) (k i : Nat) (hi : i < k) :
    (snapshot cs k).getD i default = cs.getD i default := by
  unfold snapshot
  simp [List.getD_eq_getElem?_getD, List.getElem?_map, List.getElem?_range hi]

theorem snapshot_length (cs : List Point) (k : Nat) : (snapshot cs k).length = k := by
  simp [snapshot]

theorem converged_from_iff (old cur : List Point) :
    ∀ (steps i : Nat),
      converged_from old cur steps i = true ↔
        ∀ j, i ≤ j → j < i + steps →
          ¬ SqrtQ.ofRat TOL < euclidean_distance (old.getD j default) (cur.getD j default) := by
  intro steps
  induction steps with
  | zero => intro i; simp only [converged_from, true_iff]; intro j h1 h2; omega
  | succ m ih =>
    intro i
    unfold converged_from
    by_cases h : SqrtQ.ofRat TOL < euclidean_distance (old.getD i default) (cur.getD i default)
    · rw [if_pos h]
      simp only [Bool.false_eq_true, false_iff]
      intro hall
      exact hall i (le_refl i) (by omega) h
    · rw [if_neg h, ih]
      constructor
      · intro hall j h1 h2
        rcases Nat.eq_or_lt_of_le h1 with e | l
        · subst e; exact h
        · exact hall j l (by omega)
      · intro hall j h1 h2
        exact hall j (by omega) (by omega)

theorem TOL_lt_iff (r : ℚ) :
    SqrtQ.ofRat TOL < SqrtQ.sqrt r ↔ ((TOL : ℚ) : ℝ) < Real.sqrt (r : ℝ) := by
  have hT : (0 : ℝ) ≤ ((TOL : ℚ) : ℝ) := by
    have : (0 : ℚ) ≤ TOL := by unfold TOL; norm_num
    exact_mod_cast this
  rw [Real.lt_sqrt hT]
  show TOL * TOL < r ↔ _
  rw [sq]
  exact_mod_cast Iff.rfl

theorem k_means_pass_some (s : State) (n k : Nat) :
    k_means_pass s n k = some (pass_state s n k, pass_flag s n k) := by
  obtain ⟨cs', h1, -, -⟩ :=
    finalize_upto (accumulate (assign_clusters s n k).data (assign_clusters s n k).clusters n k)
      (assign_clusters s n k).centroids k
  have hu : update_centroids (assign_clusters s n k) n k =
      some { assign_clusters s n k with centroids := cs' } := by
    unfold update_centroids
    rw [h1]
    rfl
  have hp : k_means_pass s n k = some ({ assign_clusters s n k with centroids := cs' },
      converged (snapshot (assign_clusters s n k).centroids k) cs' k) := by
    unfold k_means_pass
    simp only [hu, Option.map_some']
  unfold pass_state pass_flag
  rw [hp]

theorem pass_state_centroids_length (s : State) (n k : Nat) (hcen : s.centroids.length = k) :
    (pass_state s n k).centroids.length = k := by
  obtain ⟨cs', h1, h2, -⟩ := update_centroids_spec (assign_clusters s n k) n k hcen
  have hp : k_means_pass s n k = some ({ assign_clusters s n k with centroids := cs' },
      converged (snapshot (assign_clusters s n k).centroids k) cs' k) := by
    unfold k_means_pass
    simp only [h1, Option.map_some']
  unfold pass_state
  rw [hp]
  exact h2

theorem after_passes_centroids_length (n k : Nat) :
    ∀ (t : Nat) (s : State), s.centroids.length = k →
      (after_passes n k t s).centroids.length = k := by
  intro t
  induction t with
  | zero => intro s h; exact h
  | succ t ih => intro s h; exact ih _ (pass_state_centroids_length s n k h)

theorem after_passes_succ (n k : Nat) (t : Nat) (s : State) :
    after_passes n k (t + 1) s = after_passes n k t (pass_state s n k) := rfl

/-- The loop of `k_means` from any iteration counter: it always ends, and its outcome is
the one `outcome_ok` describes. -/
theorem k_means_from_spec (n k : Nat) :
    ∀ (remaining iter : Nat) (s : State),
      ∃ (out : Outcome) (s' : State),
        k_means_from n k remaining iter s = some (out, s') ∧
        outcome_ok n k remaining iter s out s' := by
  intro remaining
  induction remaining with
  | zero =>
    intro iter s
    exact ⟨Outcome.MAX_ITERS_REACHED, s, rfl, fun u hu => absurd hu (Nat.not_lt_zero u), rfl⟩
  | succ r ih =>
    intro iter s
    cases hflag : pass_flag s n k with
    | true =>
      refine ⟨Outcome.CONVERGED (iter + 1), pass_state s n k, ?_, ?_⟩
      · unfold k_means_from
        rw [k_means_pass_some, hflag]
      · refine ⟨Nat.lt_succ_self iter, by omega, ?_, ?_, ?_⟩
        · have : iter + 1 - 1 - iter = 0 := by omega
          rw [this]; exact hflag
        · intro u hu; omega
        · have : iter + 1 - iter = 1 := by omega
          rw [this]; rfl
    | false =>
      obtain ⟨out, s', h1, h2⟩ := ih (iter + 1) (pass_state s n k)
      refine ⟨out, s', ?_, ?_⟩
      · unfold k_means_from
        rw [k_means_pass_some, hflag]
        exact h1
      · cases out with
        | CONVERGED t =>
          obtain ⟨a1, a2, a3, a4, a5⟩ := h2
          have e1 : t - 1 - iter = (t - 1 - (iter + 1)) + 1 := by omega
          have e2 : t - iter = (t - (iter + 1)) + 1 := by omega
          refine ⟨by omega, by omega, ?_, ?_, ?_⟩
          · rw [e1, after_passes_succ]; exact a3
          · intro u hu
            cases u with
            | zero => exact hflag
            | succ u => rw [after_passes_succ]; exact a4 u (by omega)
          · rw [e2, after_passes_succ]; exact a5
        | MAX_ITERS_REACHED =>
          obtain ⟨a1, a2⟩ := h2
          refine ⟨?_, ?_⟩
          · intro u hu
            cases u with
            | zero => exact hflag
            | succ u => rw [after_passes_succ]; exact a1 u (by omega)
          · rw [after_passes_succ]; exact a2

/-! ## Thread-pool convergence test -/

theorem check_convergence_from_iff (cur old : List Point) :
    ∀ (steps i : Nat),
      check_convergence_from cur old steps i = 1 ↔
        ∀ j, i ≤ j → j < i + steps → ∀ l < d,
          ¬ (1 / 10000 : ℚ) < |(cur.getD j default).coord l - (old.getD j default).coord l| := by
  intro steps
  induction steps with
  | zero => intro i; simp only [check_convergence_from, true_iff]; intro j h1 h2; omega
  | succ m ih =>
    intro i
    unfold check_convergence_from
    by_cases h : ((List.range d).any fun l =>
        decide ((1 / 10000 : ℚ) <
          |(cur.getD i default).coord l - (old.getD i default).coord l|)) = true
    · rw [if_pos h]
      simp only [zero_ne_one, false_iff]
      intro hall
      rw [List.any_eq_true] at h
      obtain ⟨l, hl, hd⟩ := h
      exact hall i (le_refl i) (by omega) l (List.mem_range.1 hl) (of_decide_eq_true hd)
    · rw [if_neg h, ih]
      constructor
      · intro hall j h1 h2 l hl
        rcases Nat.eq_or_lt_of_le h1 with e | lt
        · subst e
          intro hgt
          exact h (List.any_eq_true.2 ⟨l, List.mem_range.2 hl, decide_eq_true hgt⟩)
        · exact hall j lt (by omega) l hl
      · intro hall j h1 h2
        exact hall j (by omega) (by omega)

theorem abs_le_of_sq_sum_le (a b t : ℚ) (ht : 0 ≤ t) (h : ¬ t * t < a ^ 2 + b ^ 2) :
    ¬ t < |a| ∧ ¬ t < |b| := by
  rw [not_lt] at h
  constructor
  · intro hlt
    have h1 : t * t < |a| * |a| := mul_self_lt_mul_self ht hlt
    rw [abs_mul_abs_self] at h1
    nlinarith [sq_nonneg b]
  · intro hlt
    have h1 : t * t < |b| * |b| := mul_self_lt_mul_self ht hlt
    rw [abs_mul_abs_self] at h1
    nlinarith [sq_nonneg a]

/-! ## Data-parallel host loop -/

theorem host_finalize_step_some (sums : List Point) (counts : List Nat) (i : Nat)
    (cs : List Point) (mc : ℚ) :
    host_finalize_step sums counts i (some (cs, mc)) =
      some (if 0 < counts.getD i 0 then
        (cs.set i (finalized ⟨sums, counts⟩ cs i),
          max (max mc |(finalized ⟨sums, counts⟩ cs i).x - (cs.getD i default).x|)
            |(finalized ⟨sums, counts⟩ cs i).y - (cs.getD i default).y|)
        else (cs, mc)) := by
  unfold host_finalize_step finalized fdiv
  by_cases h : 0 < counts.getD i 0
  · have h0 : counts.getD i 0 ≠ 0 := Nat.pos_iff_ne_zero.1 h
    simp only [Option.some_bind, gt_iff_lt, h, if_true, h0, if_false]
  · simp only [Option.some_bind, gt_iff_lt, h, if_false]

theorem finalized_congr (a : Accum) (cs cs1 : List Point) (i : Nat)
    (h : cs1.getD i default = cs.getD i default) : finalized a cs1 i = finalized a cs i := by
  unfold finalized
  rw [h]

theorem finalized_diff_zero (a : Accum) (cs : List Point) (i : Nat)
    (h : ¬ 0 < a.counts.getD i 0) :
    (finalized a cs i).x - (cs.getD i default).x = 0 ∧
    (finalized a cs i).y - (cs.getD i default).y = 0 := by
  unfold finalized
  rw [if_neg h]
  exact ⟨sub_self _, sub_self _⟩

theorem getD_of_length_le {α : Type} (l : List α) (i : Nat) (dflt : α) (h : l.length ≤ i) :
    l.getD i dflt = dflt := by
  simp only [List.getD_eq_getElem?_getD]
  rw [List.getElem?_eq_none h]
  rfl

/-- The host loop after the first `m ≤ length` clusters: no division by a zero count, the
first `m` centroids are final, the others untouched, and `max_change` is below a bound
exactly when the bound is positive and every coordinate of the first `m` centroids moved
by less than it. -/
theorem host_finalize_upto (sums : List Point) (counts : List Nat) (cs : List Point) :
    ∀ m : Nat, m ≤ cs.length → ∃ (cs' : List Point) (mc : ℚ),
      (List.range m).foldl (fun st i => host_finalize_step sums counts i st) (some (cs, 0)) =
        some (cs', mc) ∧
      cs'.length = cs.length ∧
      (∀ c < cs.length, cs'.getD c default =
        if c < m then finalized ⟨sums, counts⟩ cs c else cs.getD c default) ∧
      ∀ t : ℚ, mc < t ↔ 0 < t ∧ ∀ i < m,
        |(finalized ⟨sums, counts⟩ cs i).x - (cs.getD i default).x| < t ∧
        |(finalized ⟨sums, counts⟩ cs i).y - (cs.getD i default).y| < t := by
  intro m
  induction m with
  | zero =>
    intro _
    refine ⟨cs, 0, rfl, rfl, fun c _ => by simp, fun t => ?_⟩
    constructor
    · intro h; exact ⟨h, fun i hi => absurd hi (Nat.not_lt_zero i)⟩
    · intro h; exact h.1
  | succ m ih =>
    intro hm
    obtain ⟨cs1, mc1, h1, h2, h3, h4⟩ := ih (by omega)
    simp only [List.range_succ, List.foldl_append, List.foldl_cons, List.foldl_nil, h1]
    rw [host_finalize_step_some]
    have hmlen : m < cs.length := by omega
    have hold : cs1.getD m default = cs.getD m default := by
      rw [h3 m hmlen, if_neg (Nat.lt_irrefl m)]
    have hfin : finalized ⟨sums, counts⟩ cs1 m = finalized ⟨sums, counts⟩ cs m :=
      finalized_congr _ _ _ _ hold
    by_cases hpos : 0 < counts.getD m 0
    · rw [if_pos hpos, hfin, hold]
      refine ⟨_, _, rfl, by simp [h2], fun c hc => ?_, fun t => ?_⟩
      · rw [getD_set, h2]
        by_cases hmc : m = c
        · subst hmc
          rw [if_pos ⟨rfl, hmlen⟩, if_pos (Nat.lt_succ_self m)]
        · have hiff : c < m + 1 ↔ c < m := by omega
          rw [if_neg (fun hh => hmc hh.1), h3 c hc]
          simp only [hiff]
      · rw [max_lt_iff, max_lt_iff, h4 t]
        constructor
        · rintro ⟨⟨⟨ht, hall⟩, hx⟩, hy⟩
          refine ⟨ht, fun i hi => ?_⟩
          rcases Nat.lt_succ_iff_lt_or_eq.1 hi with h | h
          · exact hall i h
          · subst h; exact ⟨hx, hy⟩
        · rintro ⟨ht, hall⟩
          exact ⟨⟨⟨ht, fun i hi => hall i (by omega)⟩, (hall m (by omega)).1⟩,
            (hall m (by omega)).2⟩
    · rw [if_neg hpos]
      refine ⟨cs1, mc1, rfl, h2, fun c hc => ?_, fun t => ?_⟩
      · rw [h3 c hc]
        by_cases hmc : c = m
        · subst hmc
          rw [if_neg (Nat.lt_irrefl c), if_pos (Nat.lt_succ_self c)]
          unfold finalized
          rw [if_neg hpos]
        · have hiff : c < m + 1 ↔ c < m := by omega
          simp only [hiff]
      · rw [h4 t]
        obtain ⟨zx, zy⟩ := finalized_diff_zero ⟨sums, counts⟩ cs m hpos
        constructor
        · rintro ⟨ht, hall⟩
          refine ⟨ht, fun i hi => ?_⟩
          rcases Nat.lt_succ_iff_lt_or_eq.1 hi with h | h
          · exact hall i h
          · subst h
            rw [zx, zy, abs_zero]
            exact ⟨ht, ht⟩
        · rintro ⟨ht, hall⟩
          exact ⟨ht, fun i hi => hall i (by omega)⟩

/-! ## Thread-pool iteration on one-dimensional inputs -/

theorem pthread_distance_radicand (p c : Point) :
    (Pthread.euclidean_distance p c d).radicand =
      (p.x - c.x) * (p.x - c.x) + (p.y - c.y) * (p.y - c.y) := by
  simp [Pthread.euclidean_distance, SqrtQ.sqrt, d, List.range_succ, Point.coord]

theorem row_add_eq (r p : Point) : row_add r p = ⟨r.x + p.x, r.y + p.y⟩ := rfl

theorem assign_point_two (p a b : Point)
    (ha : (Pthread.euclidean_distance p a d).radicand < DBL_MAX * DBL_MAX) :
    (assign_point p [a, b] 2).2 =
      if (Pthread.euclidean_distance p b d).radicand < (Pthread.euclidean_distance p a d).radicand
      then 1 else 0 := by
  have h0 : assign_points_step p [a, b] 0 (SqrtQ.ofRat DBL_MAX, -1) =
      (Pthread.euclidean_distance p a d, 0) := if_pos ha
  have hfold : assign_point p [a, b] 2 =
      assign_points_step p [a, b] 1 (assign_points_step p [a, b] 0 (SqrtQ.ofRat DBL_MAX, -1)) :=
    rfl
  rw [hfold, h0]
  unfold assign_points_step
  by_cases h : (Pthread.euclidean_distance p b d).radicand < (Pthread.euclidean_distance p a d).radicand
  · rw [if_pos h]
    exact (congrArg Prod.snd (if_pos h)).trans rfl
  · rw [if_neg h]
    exact (congrArg Prod.snd (if_neg h)).trans rfl

/-- On the line, with `c0 < c1`, a point goes to cluster 1 exactly when it lies beyond the
midpoint of the two centroids. -/
theorem assign_point_line (x c0 c1 : ℚ) (h01 : c0 < c1)
    (hb : (x - c0) * (x - c0) < DBL_MAX * DBL_MAX) :
    (assign_point ⟨x, 0⟩ [⟨c0, 0⟩, ⟨c1, 0⟩] 2).2 = if c0 + c1 < 2 * x then 1 else 0 := by
  rw [assign_point_two _ _ _ (by rw [pthread_distance_radicand]; simpa using hb)]
  rw [pthread_distance_radicand, pthread_distance_radicand]
  by_cases h : c0 + c1 < 2 * x
  · rw [if_pos h, if_pos]
    simp only [sub_self, mul_zero, add_zero]
    nlinarith
  · rw [if_neg h, if_neg]
    simp only [sub_self, mul_zero, add_zero]
    rw [not_lt] at h ⊢
    nlinarith

theorem list_eq_of_getD {α : Type} (dflt : α) (l1 l2 : List α) (hl : l1.length = l2.length)
    (h : ∀ i < l1.length, l1.getD i dflt = l2.getD i dflt) : l1 = l2 := by
  apply List.ext_getElem hl
  intro i h1 h2
  have := h i h1
  rw [List.getD_eq_getElem _ _ h1, List.getD_eq_getElem _ _ h2] at this
  exact this

theorem chunks_cover (n : Nat) :
    chunk_start n 0 = 0 ∧ chunk_end n 0 = n / 2 ∧ chunk_start n 1 = n / 2 ∧ chunk_end n 1 = n := by
  simp [chunk_start, chunk_end, NB_THREADS]

/-- The assignment phase writes, for every `i < n`, the result of the scan of point `i`
into `clusters[i]`, and nothing else. -/
theorem assign_phase_mk (n k : Nat) (data cen : List Point) (cl : List Int) (pp : List Nat)
    (hlen : cl.length = n) :
    assign_phase ⟨n, k, data, cen, cl, pp⟩ =
      ⟨n, k, data, cen,
        (List.range n).map (fun i => (assign_point (data.getD i default) cen k).2), pp⟩ := by
  obtain ⟨e1, e2, e3, e4⟩ := chunks_cover n
  have hunfold : assign_phase ⟨n, k, data, cen, cl, pp⟩ =
      ⟨n, k, data, cen,
        (List.range' (chunk_start n 1) (chunk_end n 1 - chunk_start n 1)).foldl
          (fun cl i => cl.set i (assign_point (data.getD i default) cen k).2)
          ((List.range' (chunk_start n 0) (chunk_end n 0 - chunk_start n 0)).foldl
            (fun cl i => cl.set i (assign_point (data.getD i default) cen k).2) cl), pp⟩ := rfl
  rw [hunfold, e1, e2, e3, e4]
  congr 1
  apply list_eq_of_getD 0
  · rw [foldl_set_length, foldl_set_length, hlen]; simp
  · intro i hi
    rw [foldl_set_length, foldl_set_length, hlen] at hi
    rw [foldl_set_getD, foldl_set_length, foldl_set_getD, hlen]
    have hmap : ((List.range n).map
        (fun i => (assign_point (data.getD i default) cen k).2)).getD i 0 =
        (assign_point (data.getD i default) cen k).2 := by
      simp [List.getD_eq_getElem?_getD, List.getElem?_map, List.getElem?_range hi]
    rw [hmap]
    by_cases h : i < n / 2
    · have h1 : ¬ (n / 2 ≤ i ∧ i < n / 2 + (n - n / 2) ∧ i < n) := by omega
      have h2 : 0 ≤ i ∧ i < 0 + (n / 2 - 0) ∧ i < n := by omega
      rw [if_neg h1, if_pos h2]
    · have h1 : n / 2 ≤ i ∧ i < n / 2 + (n - n / 2) ∧ i < n := by omega
      rw [if_pos h1]

theorem line_data_getD (xs : List Nat) (i : Nat) (hi : i < xs.length) :
    (line_data xs).getD i default = ⟨(xs.getD i 0 : ℚ), 0⟩ := by
  unfold line_data
  rw [List.getD_eq_getElem?_getD, List.getElem?_map, List.getElem?_eq_getElem hi,
    List.getD_eq_getElem _ _ hi]
  rfl

theorem split_clusters_length (n m : Nat) (hm : m ≤ n) : (split_clusters n m).length = n := by
  simp [split_clusters]; omega

theorem split_clusters_getD (n m i : Nat) (hi : i < n) :
    (split_clusters n m).getD i 0 = if i < m then 0 else 1 := by
  unfold split_clusters
  simp only [List.getD_eq_getElem?_getD]
  by_cases h : i < m
  · rw [List.getElem?_append_left (by simpa using h), if_pos h]
    simp [List.getElem?_replicate, h]
  · rw [List.getElem?_append_right (by simpa using h), if_neg h]
    have : i - m < n - m := by omega
    simp [List.getElem?_replicate, this]

theorem sorted_getD (xs : List Nat) (hs : xs.Pairwise (· ≤ ·)) (i j : Nat) (hij : i ≤ j)
    (hj : j < xs.length) : xs.getD i 0 ≤ xs.getD j 0 := by
  rcases Nat.eq_or_lt_of_le hij with e | l
  · subst e; exact le_refl _
  · rw [List.getD_eq_getElem _ _ (by omega), List.getD_eq_getElem _ _ hj]
    exact List.pairwise_iff_getElem.1 hs i j (by omega) hj l

theorem head_sum_succ (xs : List Nat) (i : Nat) (hi : i < xs.length) :
    head_sum xs (i + 1) = head_sum xs i + xs.getD i 0 := by
  unfold head_sum
  rw [List.take_succ, List.sum_append, List.getD_eq_getElem _ _ hi,
    List.getElem?_eq_getElem hi]
  simp

theorem head_sum_zero (xs : List Nat) : head_sum xs 0 = 0 := by
  simp [head_sum]

theorem local_step_split (xs : List Nat) (m i : Nat) (hi : i < xs.length) (s0 s1 : Point)
    (n0 n1 : Nat) :
    local_step (line_data xs) (split_clusters xs.length m) i (some ⟨[s0, s1], [n0, n1]⟩) =
      some (if i < m then ⟨[⟨s0.x + (xs.getD i 0 : ℚ), s0.y + 0⟩, s1], [n0 + 1, n1]⟩
        else ⟨[s0, ⟨s1.x + (xs.getD i 0 : ℚ), s1.y + 0⟩], [n0, n1 + 1]⟩) := by
  unfold local_step
  rw [Option.some_bind, split_clusters_getD _ _ _ hi, line_data_getD _ _ hi]
  by_cases h : i < m
  · simp only [h, if_true]
    rfl
  · simp only [h, if_false]
    rfl

/-- The local pass of a worker over `[a, a + len)` when the first `m` points are in
cluster 0 and the others in cluster 1. -/
theorem local_accumulate_split (xs : List Nat) (m : Nat) :
    ∀ (len a : Nat), a + len ≤ xs.length →
      (List.range' a len).foldl
          (fun acc i => local_step (line_data xs) (split_clusters xs.length m) i acc)
          (some ⟨[⟨0, 0⟩, ⟨0, 0⟩], [0, 0]⟩) =
        some ⟨[⟨(head_sum xs (min (a + len) m) : ℚ) - (head_sum xs (min a m) : ℚ), 0⟩,
            ⟨(head_sum xs (max (a + len) m) : ℚ) - (head_sum xs (max a m) : ℚ), 0⟩],
          [min (a + len) m - min a m, max (a + len) m - max a m]⟩ := by
  intro len
  induction len with
  | zero =>
    intro a _
    simp
  | succ len ih =>
    intro a ha
    rw [List.range'_1_concat, List.foldl_append, ih a (by omega), List.foldl_cons,
      List.foldl_nil, local_step_split _ _ _ (by omega)]
    by_cases h : a + len < m
    · rw [if_pos h]
      have e1 : min (a + len) m = a + len := by omega
      have e2 : min (a + (len + 1)) m = a + len + 1 := by omega
      have e3 : max (a + len) m = m := by omega
      have e4 : max (a + (len + 1)) m = m := by omega
      have e5 : min a m = a := by omega
      rw [e1, e2, e3, e4, e5, head_sum_succ _ _ (by omega)]
      have e6 : a + len + 1 - a = a + len - a + 1 := by omega
      rw [e6]
      congr 3
      · congr 1
        · push_cast; ring
        · ring
    · rw [if_neg h]
      have e1 : min (a + len) m = m := by omega
      have e2 : min (a + (len + 1)) m = m := by omega
      have e3 : max (a + len) m = a + len := by omega
      have e4 : max (a + (len + 1)) m = a + len + 1 := by omega
      rw [e1, e2, e3, e4, head_sum_succ _ _ (by omega)]
      have e6 : a + len + 1 - max a m = a + len - max a m + 1 := by omega
      rw [e6]
      congr 3
      · congr 2
        · push_cast; ring
        · ring

theorem reset_mk (n : Nat) (data : List Point) (a b : Point) (cl : List Int) (p q : Nat) :
    reset ⟨n, 2, data, [a, b], cl, [p, q]⟩ = ⟨n, 2, data, [⟨0, 0⟩, ⟨0, 0⟩], cl, [0, 0]⟩ := rfl

theorem merge_mk (n : Nat) (data : List Point) (a b s0 s1 : Point) (cl : List Int)
    (p q n0 n1 : Nat) :
    merge ⟨n, 2, data, [a, b], cl, [p, q]⟩ ⟨[s0, s1], [n0, n1]⟩ =
      ⟨n, 2, data, [⟨a.x + s0.x, a.y + s0.y⟩, ⟨b.x + s1.x, b.y + s1.y⟩], cl,
        [p + n0, q + n1]⟩ := rfl

theorem update_phase_unfold (g : Globals) :
    update_phase g =
      (Pthread.update_centroids g (chunk_start g.n 0) (chunk_end g.n 0)).bind fun st =>
        Pthread.update_centroids st (chunk_start st.n 1) (chunk_end st.n 1) := rfl

theorem divide_mk (n : Nat) (data : List Point) (a b : ℚ) (cl : List Int) (n0 n1 : Nat)
    (h0 : n0 ≠ 0) (h1 : n1 ≠ 0) :
    divide ⟨n, 2, data, [⟨a, 0⟩, ⟨b, 0⟩], cl, [n0, n1]⟩ =
      some ⟨n, 2, data, [⟨a / (n0 : ℚ), 0⟩, ⟨b / (n1 : ℚ), 0⟩], cl, [n0, n1]⟩ := by
  have r0 : row_div ⟨a, 0⟩ n0 = some ⟨a / (n0 : ℚ), 0⟩ := by
    simp [row_div, d, List.range_succ, fdiv, h0, Point.coord, Point.setCoord]
  have r1 : row_div ⟨b, 0⟩ n1 = some ⟨b / (n1 : ℚ), 0⟩ := by
    simp [row_div, d, List.range_succ, fdiv, h1, Point.coord, Point.setCoord]
  have hunfold : divide ⟨n, 2, data, [⟨a, 0⟩, ⟨b, 0⟩], cl, [n0, n1]⟩ =
      (((row_div ⟨a, 0⟩ n0).map fun row => ([⟨a, 0⟩, ⟨b, 0⟩] : List Point).set 0 row).bind
        fun cs => (row_div (cs.getD 1 default) n1).map fun row => cs.set 1 row).map
      fun cs => (⟨n, 2, data, cs, cl, [n0, n1]⟩ : Globals) := rfl
  rw [hunfold, r0]
  simp only [Option.map_some', Option.some_bind]
  have : (([⟨a, 0⟩, ⟨b, 0⟩] : List Point).set 0 ⟨a / (n0 : ℚ), 0⟩).getD 1 default = ⟨b, 0⟩ := rfl
  rw [this, r1]
  rfl

theorem pthread_update_split (xs : List Nat) (m a b : Nat) (hab : a ≤ b)
    (hb : b ≤ xs.length) (c0 c1 : Point) (p q : Nat) :
    Pthread.update_centroids
        ⟨xs.length, 2, line_data xs, [c0, c1], split_clusters xs.length m, [p, q]⟩ a b =
      some ⟨xs.length, 2, line_data xs,
        [⟨c0.x + ((head_sum xs (min b m) : ℚ) - (head_sum xs (min a m) : ℚ)), c0.y + 0⟩,
          ⟨c1.x + ((head_sum xs (max b m) : ℚ) - (head_sum xs (max a m) : ℚ)), c1.y + 0⟩],
        split_clusters xs.length m, [p + (min b m - min a m), q + (max b m - max a m)]⟩ := by
  have h := local_accumulate_split xs m (b - a) a (by omega)
  have hab2 : a + (b - a) = b := by omega
  rw [hab2] at h
  have hl : local_accumulate
      ⟨xs.length, 2, line_data xs, [c0, c1], split_clusters xs.length m, [p, q]⟩ a b =
      some ⟨[⟨(head_sum xs (min b m) : ℚ) - (head_sum xs (min a m) : ℚ), 0⟩,
            ⟨(head_sum xs (max b m) : ℚ) - (head_sum xs (max a m) : ℚ), 0⟩],
          [min b m - min a m, max b m - max a m]⟩ := h
  unfold Pthread.update_centroids
  rw [hl, Option.map_some', merge_mk]

/-- The reduction phase when the first `m` points are in cluster 0 and the others in
cluster 1: the sums and counts of the two clusters. -/
theorem update_phase_split (xs : List Nat) (m : Nat) (hm : m ≤ xs.length) :
    update_phase
        ⟨xs.length, 2, line_data xs, [⟨0, 0⟩, ⟨0, 0⟩], split_clusters xs.length m, [0, 0]⟩ =
      some ⟨xs.length, 2, line_data xs,
        [⟨(head_sum xs m : ℚ), 0⟩,
          ⟨(head_sum xs xs.length : ℚ) - (head_sum xs m : ℚ), 0⟩],
        split_clusters xs.length m, [m, xs.length - m]⟩ := by
  obtain ⟨e1, e2, e3, e4⟩ := chunks_cover xs.length
  rw [update_phase_unfold]
  simp only [e1, e2]
  rw [pthread_update_split xs m 0 (xs.length / 2) (by omega) (by omega),
    Option.some_bind]
  simp only [e3, e4]
  rw [pthread_update_split xs m (xs.length / 2) xs.length (by omega) (le_refl _)]
  have f1 : min 0 m = 0 := by omega
  have f2 : min xs.length m = m := by omega
  have f3 : max 0 m = m := by omega
  have f4 : max xs.length m = xs.length := by omega
  have f5 : 0 + (min (xs.length / 2) m - min 0 m) + (min xs.length m - min (xs.length / 2) m)
      = m := by omega
  have f6 : 0 + (max (xs.length / 2) m - max 0 m) + (max xs.length m - max (xs.length / 2) m)
      = xs.length - m := by omega
  rw [f5, f6, f1, f2, f3, f4, head_sum_zero]
  congr 3
  · congr 1
    · push_cast; ring
    · ring
  · congr 2
    · ring
    · ring

/-- The assignment phase on a sorted one-dimensional input with centroids
`(c0, 0)`, `(c1, 0)`, `c0 < c1`, whose midpoint separates the first `m` points from the
others. -/
theorem assign_phase_line (xs : List Nat) (hs : xs.Pairwise (· ≤ ·)) (bound : Nat)
    (hbound : ((bound : ℚ)) * (bound : ℚ) < DBL_MAX * DBL_MAX) (hxs : ∀ i < xs.length, xs.getD i 0 ≤ bound)
    (c0 c1 : ℚ) (h0 : 0 ≤ c0) (h0b : c0 ≤ (bound : ℚ)) (h01 : c0 < c1) (m : Nat)
    (hm0 : 0 < m) (hmn : m < xs.length)
    (hlo : 2 * (xs.getD (m - 1) 0 : ℚ) ≤ c0 + c1) (hhi : c0 + c1 < 2 * (xs.getD m 0 : ℚ))
    (cl : List Int) (hcl : cl.length = xs.length) (pp : List Nat) :
    assign_phase ⟨xs.length, 2, line_data xs, [⟨c0, 0⟩, ⟨c1, 0⟩], cl, pp⟩ =
      ⟨xs.length, 2, line_data xs, [⟨c0, 0⟩, ⟨c1, 0⟩], split_clusters xs.length m, pp⟩ := by
  rw [assign_phase_mk _ _ _ _ _ _ hcl]
  congr 1
  apply list_eq_of_getD 0
  · rw [split_clusters_length _ _ (by omega)]; simp
  · intro i hi
    have hi2 : i < xs.length := by simpa using hi
    have hmap : ((List.range xs.length).map
        (fun i => (assign_point ((line_data xs).getD i default) [⟨c0, 0⟩, ⟨c1, 0⟩] 2).2)).getD i 0
        = (assign_point ((line_data xs).getD i default) [⟨c0, 0⟩, ⟨c1, 0⟩] 2).2 := by
      simp [List.getD_eq_getElem?_getD, List.getElem?_map, List.getElem?_range hi2]
    have hx0 : (0 : ℚ) ≤ (xs.getD i 0 : ℚ) := by exact_mod_cast Nat.zero_le _
    have hxb : (xs.getD i 0 : ℚ) ≤ (bound : ℚ) := by exact_mod_cast hxs i hi2
    have hb : ((xs.getD i 0 : ℚ) - c0) * ((xs.getD i 0 : ℚ) - c0) < DBL_MAX * DBL_MAX := by
      have hbb : (0 : ℚ) ≤ (bound : ℚ) := le_trans h0 h0b
      nlinarith
    rw [hmap, line_data_getD _ _ hi2, assign_point_line _ _ _ h01 hb,
      split_clusters_getD _ _ _ hi2]
    by_cases him : i < m
    · have hle : xs.getD i 0 ≤ xs.getD (m - 1) 0 := sorted_getD xs hs i (m - 1) (by omega) (by omega)
      have hle2 : (xs.getD i 0 : ℚ) ≤ (xs.getD (m - 1) 0 : ℚ) := by exact_mod_cast hle
      rw [if_pos him, if_neg (by linarith)]
    · have hle : xs.getD m 0 ≤ xs.getD i 0 := sorted_getD xs hs m i (by omega) hi2
      have hle2 : (xs.getD m 0 : ℚ) ≤ (xs.getD i 0 : ℚ) := by exact_mod_cast hle
      rw [if_neg him, if_pos (by linarith)]

/-- One iteration of the thread-pool loop on a sorted one-dimensional input whose
centroids separate the first `m` points from the others. -/
theorem main_iteration_line (xs : List Nat) (hs : xs.Pairwise (· ≤ ·)) (bound : Nat)
    (hbound : ((bound : ℚ)) * (bound : ℚ) < DBL_MAX * DBL_MAX)
    (hxs : ∀ i < xs.length, xs.getD i 0 ≤ bound) (c0 c1 : ℚ) (m : Nat)
    (hsep : separates xs bound c0 c1 m = true)
    (cl : List Int) (hcl : cl.length = xs.length) (p q : Nat) :
    main_iteration ⟨xs.length, 2, line_data xs, [⟨c0, 0⟩, ⟨c1, 0⟩], cl, [p, q]⟩ =
      some (split_state xs m,
        check_convergence_from (split_state xs m).centroids [⟨c0, 0⟩, ⟨c1, 0⟩] 2 0) := by
  unfold separates at hsep
  simp only [Bool.and_eq_true, decide_eq_true_eq] at hsep
  obtain ⟨⟨⟨⟨⟨⟨h0, h0b⟩, h01⟩, hm0⟩, hmn⟩, hlo⟩, hhi⟩ := hsep
  unfold main_iteration
  simp only []
  rw [assign_phase_line xs hs bound hbound hxs c0 c1 h0 h0b h01 m hm0 hmn hlo hhi cl hcl,
    reset_mk, update_phase_split xs m (by omega), Option.some_bind,
    divide_mk _ _ _ _ _ _ _ (by omega) (by omega), Option.map_some']
  rfl

theorem main_iteration_creeps (xs : List Nat) (hs : xs.Pairwise (· ≤ ·)) (bound : Nat)
    (hbound : ((bound : ℚ)) * (bound : ℚ) < DBL_MAX * DBL_MAX)
    (hxs : ∀ i < xs.length, xs.getD i 0 ≤ bound) (m : Nat) (hm : m ≤ xs.length)
    (hc : creeps xs bound m = true) :
    main_iteration (split_state xs m) = some (split_state xs (m + 1), 0) := by
  unfold creeps at hc
  simp only [Bool.and_eq_true, decide_eq_true_eq] at hc
  obtain ⟨hsep, hflag⟩ := hc
  have h := main_iteration_line xs hs bound hbound hxs _ _ (m + 1) hsep
    (split_clusters xs.length m) (split_clusters_length _ _ hm) m (xs.length - m)
  rw [← hflag]
  exact h

theorem main_loop_succ (fuel iters : Nat) (g : Globals) :
    main_loop (fuel + 1) iters g =
      match main_iteration g with
      | none => Run.faulted (iters + 1)
      | some (g4, converged) =>
        if converged ≠ 0 then Run.stopped (iters + 1) g4 else main_loop fuel (iters + 1) g4 :=
  rfl

/-- While the split point creeps, the loop of `main` keeps running: `cnt` iterations
from `split_state xs m` lead to `split_state xs (m + cnt)` without stopping. -/
theorem main_loop_creeps (xs : List Nat) (hs : xs.Pairwise (· ≤ ·)) (bound : Nat)
    (hbound : ((bound : ℚ)) * (bound : ℚ) < DBL_MAX * DBL_MAX)
    (hxs : ∀ i < xs.length, xs.getD i 0 ≤ bound) :
    ∀ (cnt m iters fuel : Nat), m + cnt ≤ xs.length → creeps_from xs bound cnt m = true →
      main_loop (cnt + fuel) iters (split_state xs m) =
        main_loop fuel (iters + cnt) (split_state xs (m + cnt)) := by
  intro cnt
  induction cnt with
  | zero => intro m iters fuel _ _; simp
  | succ cnt ih =>
    intro m iters fuel hm hc
    unfold creeps_from at hc
    rw [Bool.and_eq_true] at hc
    have hstep := main_iteration_creeps xs hs bound hbound hxs m (by omega) hc.1
    have e : cnt + 1 + fuel = (cnt + fuel) + 1 := by omega
    rw [e, main_loop_succ, hstep]
    simp only [ne_eq, not_true_eq_false, if_false]
    rw [ih (m + 1) (iters + 1) fuel (by omega) hc.2]
    have e2 : iters + 1 + cnt = iters + (cnt + 1) := by omega
    have e3 : m + 1 + cnt = m + (cnt + 1) := by omega
    rw [e2, e3]

theorem slow_xs_sorted : slow_xs.Pairwise (· ≤ ·) := by decide!

theorem slow_xs_bounded : ∀ i < slow_xs.length, slow_xs.getD i 0 ≤ 1000000 := by decide!

theorem slow_bound : ((1000000 : Nat) : ℚ) * ((1000000 : Nat) : ℚ) < DBL_MAX * DBL_MAX := by
  decide!

theorem slow_first_iteration :
    main_iteration slow_input = some (split_state slow_xs 41, 0) := by
  have h := main_iteration_line slow_xs slow_xs_sorted 1000000 slow_bound slow_xs_bounded
    0 636656 41 (by decide!) (List.replicate 183 0) (by decide!) 0 0
  have hflag : check_convergence_from (split_state slow_xs 41).centroids
      [⟨0, 0⟩, ⟨636656, 0⟩] 2 0 = 0 := by decide!
  rw [hflag] at h
  exact h

theorem slow_creeps : creeps_from slow_xs 1000000 102 41 = true := by decide!

theorem creeps_from_le (xs : List Nat) (bound : Nat) :
    ∀ (cnt cnt' m : Nat), cnt' ≤ cnt → creeps_from xs bound cnt m = true →
      creeps_from xs bound cnt' m = true := by
  intro cnt
  induction cnt with
  | zero =>
    intro cnt' m h _
    have : cnt' = 0 := by omega
    subst this; rfl
  | succ cnt ih =>
    intro cnt' m h hc
    cases cnt' with
    | zero => rfl
    | succ c =>
      unfold creeps_from at hc ⊢
      rw [Bool.and_eq_true] at hc ⊢
      exact ⟨hc.1, ih c (m + 1) (by omega) hc.2⟩

theorem slow_last_iteration :
    main_iteration (split_state slow_xs 143) = some (split_state slow_xs 143, 1) := by
  have h := main_iteration_line slow_xs slow_xs_sorted 1000000 slow_bound slow_xs_bounded
    _ _ 143 (by decide! :
      separates slow_xs 1000000 (((split_state slow_xs 143).centroids.getD 0 default).x)
        (((split_state slow_xs 143).centroids.getD 1 default).x) 143 = true)
    (split_clusters slow_xs.length 143) (by decide!) 143 (slow_xs.length - 143)
  have hflag : check_convergence_from (split_state slow_xs 143).centroids
      (split_state slow_xs 143).centroids 2 0 = 1 := by decide!
  rw [← hflag]
  exact h

/-! ## The loop of the thread-pool `main` -/

theorem after_iterations_succ (t : Nat) (g : Globals) :
    after_iterations (t + 1) g = (main_iteration g).bind fun r => after_iterations t r.1 := rfl

/-- The loop of `main` from any iteration counter stops at iteration `t` with globals
`g'` exactly when iteration `t` is within the fuel, `check_convergence` returns nonzero
at iteration `t`, and returns 0 at every earlier iteration. -/
theorem main_loop_stopped_iff (g' : Globals) (t : Nat) :
    ∀ (fuel iters : Nat) (g : Globals),
      main_loop fuel iters g = Run.stopped t g' ↔
        iters < t ∧ t ≤ iters + fuel ∧
        ∃ (g1 : Globals) (c : Int),
          after_iterations (t - 1 - iters) g = some g1 ∧
          main_iteration g1 = some (g', c) ∧ c ≠ 0 ∧
          ∀ u < t - 1 - iters, ∃ (gu r : Globals),
            after_iterations u g = some gu ∧ main_iteration gu = some (r, 0) := by
  intro fuel
  induction fuel with
  | zero =>
    intro iters g
    constructor
    · intro h; exact absurd h (by simp [main_loop])
    · rintro ⟨h1, h2, -⟩; omega
  | succ fuel ih =>
    intro iters g
    rw [main_loop_succ]
    cases hit : main_iteration g with
    | none =>
      constructor
      · intro h; exact absurd h (by simp)
      · rintro ⟨h1, h2, g1, c, ha, hm, -, -⟩
        cases hk : t - 1 - iters with
        | zero =>
          rw [hk] at ha
          have : g1 = g := by
            simp only [after_iterations, Option.some.injEq] at ha
            exact ha.symm
          subst this
          rw [hit] at hm
          exact absurd hm (by simp)
        | succ k =>
          rw [hk, after_iterations_succ, hit] at ha
          exact absurd ha (by simp)
    | some r =>
      obtain ⟨g4, c4⟩ := r
      by_cases hc : c4 = 0
      · subst hc
        simp only [ne_eq, not_true_eq_false, if_false]
        rw [ih (iters + 1) g4]
        constructor
        · rintro ⟨h1, h2, g1, c, ha, hm, hcne, hall⟩
          have hk : t - 1 - iters = (t - 1 - (iters + 1)) + 1 := by omega
          refine ⟨by omega, by omega, g1, c, ?_, hm, hcne, ?_⟩
          · rw [hk, after_iterations_succ, hit]
            exact ha
          · intro u hu
            cases u with
            | zero => exact ⟨g, g4, rfl, hit⟩
            | succ u =>
              obtain ⟨gu, r, h3, h4⟩ := hall u (by omega)
              refine ⟨gu, r, ?_, h4⟩
              rw [after_iterations_succ, hit]
              exact h3
        · rintro ⟨h1, h2, g1, c, ha, hm, hcne, hall⟩
          cases hk : t - 1 - iters with
          | zero =>
            rw [hk] at ha
            have : g1 = g := by
              simp only [after_iterations, Option.some.injEq] at ha
              exact ha.symm
            subst this
            rw [hit] at hm
            simp only [Option.some.injEq, Prod.mk.injEq] at hm
            exact absurd hm.2.symm hcne
          | succ k =>
            have hk2 : t - 1 - (iters + 1) = k := by omega
            rw [hk, after_iterations_succ, hit] at ha
            refine ⟨by omega, by omega, g1, c, ?_, hm, hcne, ?_⟩
            · rw [hk2]; exact ha
            · intro u hu
              obtain ⟨gu, r, h3, h4⟩ := hall (u + 1) (by omega)
              rw [after_iterations_succ, hit] at h3
              exact ⟨gu, r, h3, h4⟩
      · simp only [ne_eq, hc, not_false_eq_true, if_true]
        constructor
        · intro h
          simp only [Run.stopped.injEq] at h
          obtain ⟨h1, h2⟩ := h
          subst h1 h2
          have hk : iters + 1 - 1 - iters = 0 := by omega
          refine ⟨by omega, by omega, g, c4, ?_, hit, hc, ?_⟩
          · rw [hk]; rfl
          · intro u hu; omega
        · rintro ⟨h1, h2, g1, c, ha, hm, hcne, hall⟩
          cases hk : t - 1 - iters with
          | zero =>
            rw [hk] at ha
            have : g1 = g := by
              simp only [after_iterations, Option.some.injEq] at ha
              exact ha.symm
            subst this
            rw [hit] at hm
            simp only [Option.some.injEq, Prod.mk.injEq] at hm
            have : t = iters + 1 := by omega
            rw [this, hm.1]
          | succ k =>
            obtain ⟨gu, r, h3, h4⟩ := hall 0 (by omega)
            have : gu = g := by
              simp only [after_iterations, Option.some.injEq] at h3
              exact h3.symm
            subst this
            rw [hit] at h4
            simp only [Option.some.injEq, Prod.mk.injEq] at h4
            exact absurd h4.2 hc

/-! ## Agreement of the two assignment scans -/

theorem pthread_distance_eq (p c : Point) :
    Pthread.euclidean_distance p c d = euclidean_distance p c := by
  have h : (Pthread.euclidean_distance p c d).radicand = (euclidean_distance p c).radicand := by
    rw [pthread_distance_radicand]
    show _ = (p.x - c.x) ^ 2 + (p.y - c.y) ^ 2
    ring
  cases hp : Pthread.euclidean_distance p c d with
  | mk r1 =>
    cases hs : euclidean_distance p c with
    | mk r2 =>
      rw [hp, hs] at h
      exact congrArg SqrtQ.mk h

theorem cuda_distance_eq (p c : Point) :
    Cuda.euclidean_distance p c = euclidean_distance p c := by
  show SqrtQ.mk _ = SqrtQ.mk _
  congr 1
  ring

/-- The thread-pool scan and the sequential scan stay in step once they hold the same
minimum: the same distance, and the same index up to the coercion to `int`. -/
theorem assign_folds_agree (p : Point) (cs : List Point) :
    ∀ (l : List Nat) (acc : SqrtQ × Nat),
      l.foldl (fun a j => assign_points_step p cs j a) (acc.1, (acc.2 : Int)) =
        ((l.foldl (fun a j => assign_step p cs j a) acc).1,
          ((l.foldl (fun a j => assign_step p cs j a) acc).2 : Int)) := by
  intro l
  induction l with
  | nil => intro acc; rfl
  | cons j l ih =>
    intro acc
    simp only [List.foldl_cons]
    have hstep : assign_points_step p cs j (acc.1, (acc.2 : Int)) =
        ((assign_step p cs j acc).1, ((assign_step p cs j acc).2 : Int)) := by
      unfold assign_points_step assign_step
      simp only [pthread_distance_eq]
      by_cases h : euclidean_distance p (cs.getD j default) < acc.1
      · rw [if_pos h, if_pos h]
      · rw [if_neg h, if_neg h]
    rw [hstep, ih]

theorem assign_point_eq_scan (p : Point) (cs : List Point) (k : Nat) (hk : 1 ≤ k)
    (h0 : (euclidean_distance p (cs.getD 0 default)).radicand < DBL_MAX * DBL_MAX) :
    (assign_point p cs k).2 = ((assign_scan p cs k).2 : Int) := by
  have hr : List.range k = 0 :: List.range' 1 (k - 1) := by
    rw [List.range_eq_range']
    have : k = (k - 1) + 1 := by omega
    rw [this, List.range'_succ]
    simp
  unfold assign_point assign_scan
  rw [hr, List.foldl_cons]
  have hfirst : assign_points_step p cs 0 (SqrtQ.ofRat DBL_MAX, -1) =
      ((euclidean_distance p (cs.getD 0 default), 0).1,
        (((euclidean_distance p (cs.getD 0 default), 0) : SqrtQ × Nat).2 : Int)) := by
    unfold assign_points_step
    simp only [pthread_distance_eq]
    have h0' : euclidean_distance p (cs.getD 0 default) < SqrtQ.ofRat DBL_MAX := h0
    rw [if_pos h0']
  rw [hfirst, assign_folds_agree]

/-! ## One pass of the sequential loop, in closed form -/

/-- One pass of the `k_means` loop: the new centroids are the `finalized` values of the
accumulators of the new assignment, and the flag is the convergence test against the
centroids the pass started from. -/
theorem k_means_pass_closed (s : State) (n k : Nat) (hcen : s.centroids.length = k) :
    ∃ cs' : List Point,
      cs'.length = k ∧
      (∀ c < k, cs'.getD c default =
        finalized (accumulate s.data (assign_clusters s n k).clusters n k) s.centroids c) ∧
      pass_state s n k = ⟨s.data, cs', (assign_clusters s n k).clusters⟩ ∧
      pass_flag s n k = converged (snapshot s.centroids k) cs' k := by
  obtain ⟨cs', h1, h2, h3⟩ := update_centroids_spec (assign_clusters s n k) n k hcen
  have hp : k_means_pass s n k = some ({ assign_clusters s n k with centroids := cs' },
      converged (snapshot (assign_clusters s n k).centroids k) cs' k) := by
    unfold k_means_pass
    simp only [h1, Option.map_some']
  refine ⟨cs', h2, h3, ?_, ?_⟩
  · unfold pass_state
    rw [hp]
    rfl
  · unfold pass_flag
    rw [hp]
    rfl

theorem after_passes_succ_last (n k : Nat) :
    ∀ (t : Nat) (s : State),
      after_passes n k (t + 1) s = pass_state (after_passes n k t s) n k := by
  intro t
  induction t with
  | zero => intro s; rfl
  | succ t ih =>
    intro s
    rw [after_passes_succ, ih (pass_state s n k)]
    rfl

/-- Running `update_centroids` again on the memory a pass has left, with the same
assignment, changes no centroid. -/
theorem update_after_pass_fixed (s0 : State) (n k : Nat) (hcen : s0.centroids.length = k)
    (hstable : (assign_clusters (pass_state s0 n k) n k).clusters = (pass_state s0 n k).clusters) :
    update_centroids (assign_clusters (pass_state s0 n k) n k) n k =
      some (assign_clusters (pass_state s0 n k) n k) := by
  obtain ⟨cs', h1, h2, h3, -⟩ := k_means_pass_closed s0 n k hcen
  have hcen' : (assign_clusters (pass_state s0 n k) n k).centroids.length = k := by
    show (pass_state s0 n k).centroids.length = k
    rw [h3]; exact h1
  obtain ⟨cs'', a1, a2, a3⟩ :=
    update_centroids_spec (assign_clusters (pass_state s0 n k) n k) n k hcen'
  rw [a1]
  have hdata : (assign_clusters (pass_state s0 n k) n k).data = s0.data := by
    show (pass_state s0 n k).data = s0.data
    rw [h3]
  have hcl : (assign_clusters (pass_state s0 n k) n k).clusters =
      (assign_clusters s0 n k).clusters := by
    rw [hstable, h3]
  have hcs : (assign_clusters (pass_state s0 n k) n k).centroids = cs' := by
    show (pass_state s0 n k).centroids = cs'
    rw [h3]
  have heq : cs'' = cs' := by
    apply list_eq_of_getD default
    · rw [a2, h1]
    · intro c hc
      rw [a2] at hc
      rw [a3 c hc, hdata, hcl, hcs]
      unfold finalized
      by_cases hpos : 0 < (accumulate s0.data (assign_clusters s0 n k).clusters n k).counts.getD c 0
      · rw [if_pos hpos, h2 c hc]
        unfold finalized
        rw [if_pos hpos]
      · rw [if_neg hpos]
  rw [heq]
  congr 1
  cases hst : assign_clusters (pass_state s0 n k) n k with
  | mk dd cc ll =>
    rw [hst] at hcs
    simp only at hcs
    rw [hcs]

theorem converged_self (cs : List Point) (k : Nat) : converged cs cs k = true := by
  unfold converged
  rw [converged_from_iff]
  intro j _ _
  show ¬ TOL * TOL < ((cs.getD j default).x - (cs.getD j default).x) ^ 2 +
    ((cs.getD j default).y - (cs.getD j default).y) ^ 2
  simp only [sub_self, ne_eq, OfNat.ofNat_ne_zero, not_false_eq_true, zero_pow, add_zero, not_lt]
  unfold TOL
  norm_num

/-! ## Means lie between the extremes -/

theorem sum_ge_of_all_ge (f : Nat → ℚ) (lo : ℚ) :
    ∀ l : List Nat, (∀ u ∈ l, lo ≤ f u) → lo * (l.length : ℚ) ≤ (l.map f).sum := by
  intro l
  induction l with
  | nil => intro _; simp
  | cons a l ih =>
    intro h
    have h1 := ih (fun u hu => h u (List.mem_cons_of_mem a hu))
    have h2 := h a (List.mem_cons_self a l)
    simp only [List.length_cons, List.map_cons, List.sum_cons]
    push_cast
    linarith

theorem sum_le_of_all_le (f : Nat → ℚ) (hi : ℚ) :
    ∀ l : List Nat, (∀ u ∈ l, f u ≤ hi) → (l.map f).sum ≤ hi * (l.length : ℚ) := by
  intro l
  induction l with
  | nil => intro _; simp
  | cons a l ih =>
    intro h
    have h1 := ih (fun u hu => h u (List.mem_cons_of_mem a hu))
    have h2 := h a (List.mem_cons_self a l)
    simp only [List.length_cons, List.map_cons, List.sum_cons]
    push_cast
    linarith

theorem mean_between (f : Nat → ℚ) (l : List Nat) (hl : 0 < l.length) (lo hi : ℚ)
    (hlo : ∀ u ∈ l, lo ≤ f u) (hhi : ∀ u ∈ l, f u ≤ hi) :
    lo ≤ (l.map f).sum / (l.length : ℚ) ∧ (l.map f).sum / (l.length : ℚ) ≤ hi := by
  have hpos : (0 : ℚ) < (l.length : ℚ) := by exact_mod_cast hl
  constructor
  · rw [le_div_iff₀ hpos]
    exact sum_ge_of_all_ge f lo l hlo
  · rw [div_le_iff₀ hpos]
    exact sum_le_of_all_le f hi l hhi

theorem exists_least_value (f : Nat → ℚ) :
    ∀ l : List Nat, l ≠ [] → ∃ i ∈ l, ∀ u ∈ l, f i ≤ f u := by
  intro l
  induction l with
  | nil => intro h; exact absurd rfl h
  | cons a l ih =>
    intro _
    by_cases hl : l = []
    · subst hl
      exact ⟨a, List.mem_cons_self a [], fun u hu => by
        rw [List.mem_singleton] at hu; rw [hu]⟩
    · obtain ⟨i, hi, hmin⟩ := ih hl
      by_cases hai : f a ≤ f i
      · refine ⟨a, List.mem_cons_self a l, fun u hu => ?_⟩
        rcases List.mem_cons.1 hu with e | e
        · rw [e]
        · exact le_trans hai (hmin u e)
      · refine ⟨i, List.mem_cons_of_mem a hi, fun u hu => ?_⟩
        rcases List.mem_cons.1 hu with e | e
        · rw [e]; exact le_of_lt (not_le.1 hai)
        · exact hmin u e

theorem exists_greatest_value (f : Nat → ℚ) (l : List Nat) (hl : l ≠ []) :
    ∃ j ∈ l, ∀ u ∈ l, f u ≤ f j := by
  obtain ⟨j, hj, h⟩ := exists_least_value (fun u => - f u) l hl
  exact ⟨j, hj, fun u hu => by have := h u hu; linarith⟩

/-! ## The single-cluster case -/

theorem k_means_from_succ (n k r iter : Nat) (s : State) :
    k_means_from n k (r + 1) iter s =
      if pass_flag s n k = true then some (Outcome.CONVERGED (iter + 1), pass_state s n k)
      else k_means_from n k r (iter + 1) (pass_state s n k) := by
  conv_lhs => unfold k_means_from
  rw [k_means_pass_some]
  cases pass_flag s n k <;> simp

theorem members_all (clusters : List Nat) (n c : Nat) (h : ∀ i < n, clusters.getD i 0 = c) :
    members clusters n c = List.range n := by
  unfold members
  rw [List.filter_eq_self]
  intro i hi
  exact decide_eq_true (h i (List.mem_range.1 hi))

/-- One pass of the `k_means` loop with `k = 1` on `n ≥ 1` points: the centroid becomes
the mean of the `n` points. -/
theorem pass_single_cluster (s : State) (n : Nat) (hn : 1 ≤ n) (hcl : s.clusters.length = n)
    (hcen : s.centroids.length = 1) :
    (pass_state s n 1).data = s.data ∧
    (pass_state s n 1).clusters.length = n ∧
    (pass_state s n 1).centroids =
      [⟨((List.range n).map fun i => (s.data.getD i default).x).sum / (n : ℚ),
        ((List.range n).map fun i => (s.data.getD i default).y).sum / (n : ℚ)⟩] ∧
    pass_flag s n 1 = converged (snapshot s.centroids 1)
      [⟨((List.range n).map fun i => (s.data.getD i default).x).sum / (n : ℚ),
        ((List.range n).map fun i => (s.data.getD i default).y).sum / (n : ℚ)⟩] 1 := by
  obtain ⟨cs', h1, h2, h3, h4⟩ := k_means_pass_closed s n 1 hcen
  have hzero : ∀ i < n, (assign_clusters s n 1).clusters.getD i 0 = 0 := by
    intro i hi
    rw [assign_clusters_getD s n 1 i hcl hi]
    rfl
  have hmem := members_all _ n 0 hzero
  obtain ⟨a1, a2⟩ := accumulate_spec s.data (assign_clusters s n 1).clusters n 1 0 (by decide)
  have hcount : cluster_count (assign_clusters s n 1).clusters n 0 = n := by
    unfold cluster_count
    rw [hmem, List.length_range]
  have hcs : cs' =
      [⟨((List.range n).map fun i => (s.data.getD i default).x).sum / (n : ℚ),
        ((List.range n).map fun i => (s.data.getD i default).y).sum / (n : ℚ)⟩] := by
    have h0 := h2 0 (by decide)
    unfold finalized at h0
    rw [a1, a2, hcount, if_pos (by omega)] at h0
    unfold cluster_sum_x cluster_sum_y at h0
    rw [hmem] at h0
    match cs', h1, h0 with
    | [a], _, h0 =>
      have : a = _ := h0
      rw [this]
  refine ⟨by rw [h3], ?_, by rw [h3, hcs], by rw [h4, hcs]⟩
  rw [h3]
  show (assign_clusters s n 1).clusters.length = n
  rw [assign_clusters_length, hcl]

/-! ## Thread-pool reduction against the sequential accumulation -/

theorem getD_map_ofNat (clusters : List Nat) (i : Nat) :
    (clusters.map Int.ofNat).getD i 0 = ((clusters.getD i 0 : Nat) : Int) := by
  simp only [List.getD_eq_getElem?_getD, List.getElem?_map]
  cases clusters[i]? <;> rfl

/-- On an in-range cluster index the local step of a worker is the sequential
accumulation step. -/
theorem local_step_eq (data : List Point) (clusters : List Nat) (i : Nat) (a : Accum)
    (h : clusters.getD i 0 < NB_CLUSTERS) :
    local_step data (clusters.map Int.ofNat) i (some a) =
      some (accumulate_step data clusters i a) := by
  unfold local_step
  rw [Option.some_bind, getD_map_ofNat]
  have hc : (0 : Int) ≤ ((clusters.getD i 0 : Nat) : Int) ∧
      ((clusters.getD i 0 : Nat) : Int) < (NB_CLUSTERS : Int) :=
    ⟨Int.ofNat_nonneg _, by exact_mod_cast h⟩
  simp only [hc, and_self, if_true, Int.toNat_ofNat]
  rfl

theorem local_fold_eq (data : List Point) (clusters : List Nat) :
    ∀ (idxs : List Nat) (a : Accum), (∀ i ∈ idxs, clusters.getD i 0 < NB_CLUSTERS) →
      idxs.foldl (fun acc i => local_step data (clusters.map Int.ofNat) i acc) (some a) =
        some (idxs.foldl (fun a i => accumulate_step data clusters i a) a) := by
  intro idxs
  induction idxs with
  | nil => intro a _; rfl
  | cons i idxs ih =>
    intro a h
    simp only [List.foldl_cons]
    rw [local_step_eq data clusters i a (h i (List.mem_cons_self i idxs)),
      ih _ (fun j hj => h j (List.mem_cons_of_mem i hj))]

theorem part_members_cons (clusters : List Nat) (i : Nat) (idxs : List Nat) (c : Nat) :
    part_members clusters (i :: idxs) c =
      (if clusters.getD i 0 = c then [i] else []) ++ part_members clusters idxs c := by
  unfold part_members
  by_cases h : clusters.getD i 0 = c
  · have hd : decide (clusters.getD i 0 = c) = true := decide_eq_true h
    rw [if_pos h]
    simp only [List.filter, hd]
    rfl
  · have hd : decide (clusters.getD i 0 = c) = false := decide_eq_false h
    rw [if_neg h]
    simp only [List.filter, hd]
    rfl

theorem part_sum_x_cons (data : List Point) (clusters : List Nat) (i : Nat) (idxs : List Nat)
    (c : Nat) :
    part_sum_x data clusters (i :: idxs) c =
      (if clusters.getD i 0 = c then (data.getD i default).x else 0) +
        part_sum_x data clusters idxs c := by
  unfold part_sum_x
  rw [part_members_cons]
  by_cases h : clusters.getD i 0 = c
  · rw [if_pos h, if_pos h]; simp
  · rw [if_neg h, if_neg h]; simp

theorem part_sum_y_cons (data : List Point) (clusters : List Nat) (i : Nat) (idxs : List Nat)
    (c : Nat) :
    part_sum_y data clusters (i :: idxs) c =
      (if clusters.getD i 0 = c then (data.getD i default).y else 0) +
        part_sum_y data clusters idxs c := by
  unfold part_sum_y
  rw [part_members_cons]
  by_cases h : clusters.getD i 0 = c
  · rw [if_pos h, if_pos h]; simp
  · rw [if_neg h, if_neg h]; simp

theorem part_count_cons (clusters : List Nat) (i : Nat) (idxs : List Nat) (c : Nat) :
    part_count clusters (i :: idxs) c =
      (if clusters.getD i 0 = c then 1 else 0) + part_count clusters idxs c := by
  unfold part_count
  rw [part_members_cons]
  by_cases h : clusters.getD i 0 = c
  · rw [if_pos h, if_pos h]; simp; omega
  · rw [if_neg h, if_neg h]; simp

/-- The accumulation loop over any list of point indices, from any accumulators with `K`
entries: each entry grows by the sum and the count of its cluster over the list. -/
theorem accumulate_list (data : List Point) (clusters : List Nat) (K : Nat) :
    ∀ (idxs : List Nat) (a : Accum), a.sums.length = K → a.counts.length = K →
      (idxs.foldl (fun a i => accumulate_step data clusters i a) a).sums.length = K ∧
      (idxs.foldl (fun a i => accumulate_step data clusters i a) a).counts.length = K ∧
      ∀ c < K,
        (idxs.foldl (fun a i => accumulate_step data clusters i a) a).sums.getD c default =
          ⟨(a.sums.getD c default).x + part_sum_x data clusters idxs c,
            (a.sums.getD c default).y + part_sum_y data clusters idxs c⟩ ∧
        (idxs.foldl (fun a i => accumulate_step data clusters i a) a).counts.getD c 0 =
          a.counts.getD c 0 + part_count clusters idxs c := by
  intro idxs
  induction idxs with
  | nil =>
    intro a hs hc
    refine ⟨hs, hc, fun c _ => ?_⟩
    simp [part_sum_x, part_sum_y, part_count, part_members]
  | cons i idxs ih =>
    intro a hs hc
    simp only [List.foldl_cons]
    obtain ⟨h1, h2, h3⟩ := ih (accumulate_step data clusters i a)
      (by rw [accumulate_step_sums_length, hs]) (by rw [accumulate_step_counts_length, hc])
    refine ⟨h1, h2, fun c hcK => ?_⟩
    obtain ⟨b1, b2⟩ := h3 c hcK
    rw [b1, b2, accumulate_step_sums _ _ _ _ _ (by rw [hs]; exact hcK),
      accumulate_step_counts _ _ _ _ _ (by rw [hc]; exact hcK),
      part_sum_x_cons, part_sum_y_cons, part_count_cons]
    by_cases h : clusters.getD i 0 = c
    · simp only [h, if_true]
      refine ⟨?_, by omega⟩
      congr 1 <;> ring
    · simp only [h, if_false, zero_add, and_self]

theorem foldl_modify_length {α : Type} (F : Nat → α → α) (dflt : α) :
    ∀ (len a : Nat) (l : List α),
      ((List.range' a len).foldl (fun cs j => cs.set j (F j (cs.getD j dflt))) l).length =
        l.length := by
  intro len
  induction len with
  | zero => intro a l; rfl
  | succ m ih =>
    intro a l
    simp only [List.range'_succ, List.foldl_cons]
    rw [ih, List.length_set]

/-- A loop that rewrites cell `j` from its own content at step `j` has rewritten, at the
end, every cell of its range once, from the cell's initial content. -/
theorem foldl_modify_getD {α : Type} (F : Nat → α → α) (dflt : α) :
    ∀ (len a : Nat) (l : List α) (i : Nat),
      ((List.range' a len).foldl (fun cs j => cs.set j (F j (cs.getD j dflt))) l).getD i dflt =
        if a ≤ i ∧ i < a + len ∧ i < l.length then F i (l.getD i dflt) else l.getD i dflt := by
  intro len
  induction len with
  | zero =>
    intro a l i
    have h : ¬ (a ≤ i ∧ i < a + 0 ∧ i < l.length) := by omega
    rw [if_neg h]
    rfl
  | succ m ih =>
    intro a l i
    simp only [List.range'_succ, List.foldl_cons]
    rw [ih, List.length_set]
    by_cases hai : a = i
    · subst hai
      have h1 : ¬ (a + 1 ≤ a ∧ a < a + 1 + m ∧ a < l.length) := by omega
      rw [if_neg h1, getD_set]
      by_cases hl : a < l.length
      · rw [if_pos ⟨rfl, hl⟩, if_pos ⟨le_refl a, by omega, hl⟩]
      · rw [if_neg (fun hh => hl hh.2), if_neg (fun hh => hl hh.2.2)]
    · have hg : (l.set a (F a (l.getD a dflt))).getD i dflt = l.getD i dflt := by
        rw [getD_set, if_neg (fun hh => hai hh.1)]
      rw [hg]
      by_cases h1 : a + 1 ≤ i ∧ i < a + 1 + m ∧ i < l.length
      · have h2 : a ≤ i ∧ i < a + (m + 1) ∧ i < l.length := by omega
        rw [if_pos h1, if_pos h2]
      · have h2 : ¬ (a ≤ i ∧ i < a + (m + 1) ∧ i < l.length) := by omega
        rw [if_neg h1, if_neg h2]

theorem merge_centroids_getD (g : Globals) (a : Accum) (j : Nat) :
    (merge g a).centroids.getD j default =
      if j < g.k ∧ j < g.centroids.length then
        row_add (g.centroids.getD j default) (a.sums.getD j default)
      else g.centroids.getD j default := by
  show ((List.range g.k).foldl _ g.centroids).getD j default = _
  rw [List.range_eq_range',
    foldl_modify_getD (fun j r => row_add r (a.sums.getD j default)) default]
  by_cases h : j < g.k ∧ j < g.centroids.length
  · rw [if_pos h, if_pos ⟨Nat.zero_le j, by omega, h.2⟩]
  · rw [if_neg h, if_neg (by omega)]

theorem merge_counts_getD (g : Globals) (a : Accum) (j : Nat) :
    (merge g a).points_per_thread.getD j 0 =
      if j < g.k ∧ j < g.points_per_thread.length then
        g.points_per_thread.getD j 0 + a.counts.getD j 0
      else g.points_per_thread.getD j 0 := by
  show ((List.range g.k).foldl _ g.points_per_thread).getD j 0 = _
  rw [List.range_eq_range',
    foldl_modify_getD (fun j r => r + a.counts.getD j 0) 0]
  by_cases h : j < g.k ∧ j < g.points_per_thread.length
  · rw [if_pos h, if_pos ⟨Nat.zero_le j, by omega, h.2⟩]
  · rw [if_neg h, if_neg (by omega)]

theorem merge_lengths (g : Globals) (a : Accum) :
    (merge g a).centroids.length = g.centroids.length ∧
    (merge g a).points_per_thread.length = g.points_per_thread.length := by
  constructor
  · show ((List.range g.k).foldl _ g.centroids).length = _
    rw [List.range_eq_range',
      foldl_modify_length (fun j r => row_add r (a.sums.getD j default)) default]
  · show ((List.range g.k).foldl _ g.points_per_thread).length = _
    rw [List.range_eq_range', foldl_modify_length (fun j r => r + a.counts.getD j 0) 0]

/-- One worker of the reduction phase on an in-range assignment: it faults on no index
and adds to every centroid and count the sum and count of its range. -/
theorem worker_closed (data : List Point) (clusters : List Nat) (n k : Nat)
    (hk : k ≤ NB_CLUSTERS) (hrange : ∀ i < n, clusters.getD i 0 < k) (a b : Nat) (hb : b ≤ n)
    (cen : List Point) (pp : List Nat) (hcen : cen.length = k) (hpp : k ≤ pp.length) :
    ∃ (cen' : List Point) (pp' : List Nat),
      Pthread.update_centroids ⟨n, k, data, cen, clusters.map Int.ofNat, pp⟩ a b =
        some ⟨n, k, data, cen', clusters.map Int.ofNat, pp'⟩ ∧
      cen'.length = k ∧ pp'.length = pp.length ∧
      ∀ c < k,
        cen'.getD c default =
          ⟨(cen.getD c default).x + part_sum_x data clusters (List.range' a (b - a)) c,
            (cen.getD c default).y + part_sum_y data clusters (List.range' a (b - a)) c⟩ ∧
        pp'.getD c 0 = pp.getD c 0 + part_count clusters (List.range' a (b - a)) c := by
  have hin : ∀ i ∈ List.range' a (b - a), clusters.getD i 0 < NB_CLUSTERS := by
    intro i hi
    rw [List.mem_range'_1] at hi
    exact lt_of_lt_of_le (hrange i (by omega)) hk
  have hloc : local_accumulate ⟨n, k, data, cen, clusters.map Int.ofNat, pp⟩ a b =
      some ((List.range' a (b - a)).foldl (fun a i => accumulate_step data clusters i a)
        ⟨List.replicate NB_CLUSTERS ⟨0, 0⟩, List.replicate NB_CLUSTERS 0⟩) :=
    local_fold_eq data clusters _ _ hin
  obtain ⟨-, -, h3⟩ := accumulate_list data clusters NB_CLUSTERS (List.range' a (b - a))
    ⟨List.replicate NB_CLUSTERS ⟨0, 0⟩, List.replicate NB_CLUSTERS 0⟩ (by simp) (by simp)
  generalize (List.range' a (b - a)).foldl (fun a i => accumulate_step data clusters i a)
    ⟨List.replicate NB_CLUSTERS ⟨0, 0⟩, List.replicate NB_CLUSTERS 0⟩ = A at hloc h3
  have hu : Pthread.update_centroids ⟨n, k, data, cen, clusters.map Int.ofNat, pp⟩ a b =
      some (merge ⟨n, k, data, cen, clusters.map Int.ofNat, pp⟩ A) := by
    unfold Pthread.update_centroids
    rw [hloc, Option.map_some']
  obtain ⟨m1, m2⟩ := merge_lengths ⟨n, k, data, cen, clusters.map Int.ofNat, pp⟩ A
  refine ⟨(merge ⟨n, k, data, cen, clusters.map Int.ofNat, pp⟩ A).centroids,
    (merge ⟨n, k, data, cen, clusters.map Int.ofNat, pp⟩ A).points_per_thread, hu,
    by rw [m1]; exact hcen, m2, fun c hc => ?_⟩
  obtain ⟨s1, s2⟩ := h3 c (lt_of_lt_of_le hc hk)
  have z1 : (List.replicate NB_CLUSTERS (⟨0, 0⟩ : Point)).getD c default = ⟨0, 0⟩ := by
    simp [List.getD_eq_getElem?_getD, List.getElem?_replicate, lt_of_lt_of_le hc hk]
  have z2 : (List.replicate NB_CLUSTERS 0).getD c 0 = 0 := by
    simp [List.getD_eq_getElem?_getD, List.getElem?_replicate, lt_of_lt_of_le hc hk]
  constructor
  · rw [merge_centroids_getD, if_pos ⟨hc, by rw [hcen]; exact hc⟩, row_add_eq, s1]
    simp only [z1, zero_add]
  · rw [merge_counts_getD, if_pos ⟨hc, lt_of_lt_of_le hc hpp⟩, s2]
    simp only [z2, zero_add]

/-! ## Sums over a split of the index range -/

theorem sum_filter_map {M : Type} [AddCommMonoid M] (p : Nat → Bool) (f : Nat → M) :
    ∀ l : List Nat, ((l.filter p).map f).sum = (l.map fun i => if p i = true then f i else 0).sum := by
  intro l
  induction l with
  | nil => rfl
  | cons a l ih =>
    cases hp : p a
    · simp only [List.filter, hp, List.map_cons, List.sum_cons, Bool.false_eq_true, if_false,
        zero_add]
      exact ih
    · simp only [List.filter, hp, List.map_cons, List.sum_cons, if_true]
      rw [ih]

theorem length_filter_sum (p : Nat → Bool) :
    ∀ l : List Nat, (l.filter p).length = (l.map fun i => if p i = true then 1 else 0).sum := by
  intro l
  induction l with
  | nil => rfl
  | cons a l ih =>
    cases hp : p a
    · simp only [List.filter, hp, List.map_cons, List.sum_cons, Bool.false_eq_true, if_false,
        zero_add]
      exact ih
    · simp only [List.filter, hp, List.map_cons, List.sum_cons, if_true, List.length_cons]
      rw [ih]
      omega

theorem sum_map_add_list {M : Type} [AddCommMonoid M] (f g : Nat → M) :
    ∀ l : List Nat, (l.map fun i => f i + g i).sum = (l.map f).sum + (l.map g).sum := by
  intro l
  induction l with
  | nil => simp
  | cons a l ih =>
    simp only [List.map_cons, List.sum_cons]
    rw [ih]
    abel

theorem sum_map_zero_list {M : Type} [AddCommMonoid M] :
    ∀ l : List Nat, (l.map fun _ => (0 : M)).sum = 0 := by
  intro l
  induction l with
  | nil => rfl
  | cons a l ih => simp only [List.map_cons, List.sum_cons, ih, add_zero]

/-- The sum of `w` over the contiguous range `[a, b)`, as a sum over `[0, n)` that keeps
the indices of the range. -/
theorem sum_range_ite {M : Type} [AddCommMonoid M] (w : Nat → M) (a b : Nat) :
    ∀ n : Nat,
      ((List.range n).map fun i => if a ≤ i ∧ i < b then w i else 0).sum =
        ((List.range' a (min n b - a)).map w).sum := by
  intro n
  induction n with
  | zero =>
    have : min 0 b - a = 0 := by omega
    rw [this]
    rfl
  | succ n ih =>
    rw [List.range_succ, List.map_append, List.sum_append, ih]
    simp only [List.map_cons, List.map_nil, List.sum_cons, List.sum_nil, add_zero]
    by_cases h : a ≤ n ∧ n < b
    · rw [if_pos h]
      have e1 : min (n + 1) b - a = (min n b - a) + 1 := by omega
      have e2 : a + (min n b - a) = n := by omega
      rw [e1, List.range'_1_concat, List.map_append, List.sum_append, e2]
      simp
    · rw [if_neg h, add_zero]
      have e1 : min (n + 1) b - a = min n b - a := by omega
      rw [e1]

theorem sum_swap_range {M : Type} [AddCommMonoid M] (G : Nat × Nat → Nat → M) (n : Nat) :
    ∀ chunks : List (Nat × Nat),
      (chunks.map fun c => ((List.range n).map fun i => G c i).sum).sum =
        ((List.range n).map fun i => (chunks.map fun c => G c i).sum).sum := by
  intro chunks
  induction chunks with
  | nil =>
    simp only [List.map_nil, List.sum_nil]
    rw [sum_map_zero_list]
  | cons c chunks ih =>
    simp only [List.map_cons, List.sum_cons]
    rw [ih, ← sum_map_add_list]

theorem sum_ite_countP {M : Type} [AddCommMonoid M] (q : Nat × Nat → Bool) (v : M) :
    ∀ chunks : List (Nat × Nat),
      (chunks.map fun c => if q c = true then v else 0).sum = chunks.countP q • v := by
  intro chunks
  induction chunks with
  | nil => simp
  | cons c chunks ih =>
    simp only [List.map_cons, List.sum_cons, List.countP_cons]
    rw [ih]
    cases hq : q c
    · simp
    · simp only [if_true]
      rw [add_comm, succ_nsmul]

/-- Over a split of `[0, n)` the sums of `w` over the ranges add up to the sum of `w`
over `[0, n)`, whatever the order of the ranges. -/
theorem sum_over_split {M : Type} [AddCommMonoid M] (w : Nat → M) (n : Nat)
    (chunks : List (Nat × Nat)) (hsplit : is_split n chunks) :
    (chunks.map fun c => ((List.range' c.1 (c.2 - c.1)).map w).sum).sum =
      ((List.range n).map w).sum := by
  obtain ⟨hin, hone⟩ := hsplit
  have h1 : (chunks.map fun c => ((List.range' c.1 (c.2 - c.1)).map w).sum) =
      chunks.map fun c =>
        ((List.range n).map fun i => if c.1 ≤ i ∧ i < c.2 then w i else 0).sum := by
    apply List.map_congr_left
    intro c hc
    rw [sum_range_ite w c.1 c.2 n]
    have : min n c.2 = c.2 := by have := hin c hc; omega
    rw [this]
  rw [h1, sum_swap_range (fun c i => if c.1 ≤ i ∧ i < c.2 then w i else 0) n chunks]
  congr 1
  apply List.map_congr_left
  intro i hi
  have h2 := sum_ite_countP (fun c => decide (c.1 ≤ i ∧ i < c.2)) (w i) chunks
  simp only [decide_eq_true_eq] at h2
  rw [h2, hone i (List.mem_range.1 hi), one_nsmul]

theorem part_sum_x_split (data : List Point) (clusters : List Nat) (n c : Nat)
    (chunks : List (Nat × Nat)) (hsplit : is_split n chunks) :
    (chunks.map fun ch => part_sum_x data clusters (List.range' ch.1 (ch.2 - ch.1)) c).sum =
      cluster_sum_x data clusters n c := by
  have hc : cluster_sum_x data clusters n c = part_sum_x data clusters (List.range n) c := rfl
  rw [hc]
  unfold part_sum_x part_members
  simp only [sum_filter_map]
  exact sum_over_split _ n chunks hsplit

theorem part_sum_y_split (data : List Point) (clusters : List Nat) (n c : Nat)
    (chunks : List (Nat × Nat)) (hsplit : is_split n chunks) :
    (chunks.map fun ch => part_sum_y data clusters (List.range' ch.1 (ch.2 - ch.1)) c).sum =
      cluster_sum_y data clusters n c := by
  have hc : cluster_sum_y data clusters n c = part_sum_y data clusters (List.range n) c := rfl
  rw [hc]
  unfold part_sum_y part_members
  simp only [sum_filter_map]
  exact sum_over_split _ n chunks hsplit

theorem part_count_split (clusters : List Nat) (n c : Nat)
    (chunks : List (Nat × Nat)) (hsplit : is_split n chunks) :
    (chunks.map fun ch => part_count clusters (List.range' ch.1 (ch.2 - ch.1)) c).sum =
      cluster_count clusters n c := by
  have hc : cluster_count clusters n c = part_count clusters (List.range n) c := rfl
  rw [hc]
  unfold part_count part_members
  simp only [length_filter_sum]
  exact sum_over_split _ n chunks hsplit

/-- The reduction phase over any table of worker ranges that end within `n`, on an
in-range assignment: no worker faults, and every centroid and count has grown by the
sums and counts of the ranges. -/
theorem update_phase_chunks_closed (data : List Point) (clusters : List Nat) (n k : Nat)
    (hk : k ≤ NB_CLUSTERS) (hrange : ∀ i < n, clusters.getD i 0 < k) :
    ∀ (chunks : List (Nat × Nat)) (cen : List Point) (pp : List Nat),
      (∀ c ∈ chunks, c.2 ≤ n) → cen.length = k → k ≤ pp.length →
      ∃ (cen' : List Point) (pp' : List Nat),
        update_phase_chunks ⟨n, k, data, cen, clusters.map Int.ofNat, pp⟩ chunks =
          some ⟨n, k, data, cen', clusters.map Int.ofNat, pp'⟩ ∧
        cen'.length = k ∧ pp'.length = pp.length ∧
        ∀ c < k,
          cen'.getD c default =
            ⟨(cen.getD c default).x +
                (chunks.map fun ch =>
                  part_sum_x data clusters (List.range' ch.1 (ch.2 - ch.1)) c).sum,
              (cen.getD c default).y +
                (chunks.map fun ch =>
                  part_sum_y data clusters (List.range' ch.1 (ch.2 - ch.1)) c).sum⟩ ∧
          pp'.getD c 0 = pp.getD c 0 +
            (chunks.map fun ch => part_count clusters (List.range' ch.1 (ch.2 - ch.1)) c).sum := by
  intro chunks
  induction chunks with
  | nil =>
    intro cen pp _ hcen _
    refine ⟨cen, pp, rfl, hcen, rfl, fun c _ => ?_⟩
    simp
  | cons ch chunks ih =>
    intro cen pp hin hcen hpp
    obtain ⟨cen1, pp1, w1, w2, w3, w4⟩ :=
      worker_closed data clusters n k hk hrange ch.1 ch.2 (hin ch (List.mem_cons_self ch chunks))
        cen pp hcen hpp
    obtain ⟨cen2, pp2, v1, v2, v3, v4⟩ :=
      ih cen1 pp1 (fun c hc => hin c (List.mem_cons_of_mem ch hc)) w2 (by rw [w3]; exact hpp)
    have hstep : update_phase_chunks ⟨n, k, data, cen, clusters.map Int.ofNat, pp⟩
        (ch :: chunks) =
        update_phase_chunks ⟨n, k, data, cen1, clusters.map Int.ofNat, pp1⟩ chunks := by
      unfold update_phase_chunks
      rw [List.foldl_cons, Option.some_bind, w1]
    refine ⟨cen2, pp2, by rw [hstep, v1], v2, by rw [v3, w3], fun c hc => ?_⟩
    obtain ⟨x1, x2⟩ := w4 c hc
    obtain ⟨y1, y2⟩ := v4 c hc
    rw [y1, y2, x1, x2]
    simp only [List.map_cons, List.sum_cons]
    refine ⟨?_, by omega⟩
    congr 1 <;> ring

theorem reset_closed (n k : Nat) (data cen : List Point) (cl : List Int) (pp : List Nat)
    (hcen : cen.length = k) :
    ∃ (cen' : List Point) (pp' : List Nat),
      reset ⟨n, k, data, cen, cl, pp⟩ = ⟨n, k, data, cen', cl, pp'⟩ ∧
      cen'.length = k ∧ pp'.length = pp.length ∧
      ∀ c < k, cen'.getD c default = ⟨0, 0⟩ ∧ pp'.getD c 0 = 0 := by
  have e : List.range k = List.range' 0 k := List.range_eq_range' ..
  refine ⟨(reset ⟨n, k, data, cen, cl, pp⟩).centroids,
    (reset ⟨n, k, data, cen, cl, pp⟩).points_per_thread, rfl, ?_, ?_, fun c hc => ⟨?_, ?_⟩⟩
  · show ((List.range k).foldl _ cen).length = k
    rw [e, foldl_modify_length
      (fun _ (r : Point) => (List.range d).foldl (fun row j => row.setCoord j 0) r) default, hcen]
  · show ((List.range k).foldl _ pp).length = pp.length
    rw [e, foldl_set_length (fun _ => 0)]
  · show ((List.range k).foldl _ cen).getD c default = _
    rw [e, foldl_modify_getD
      (fun _ (r : Point) => (List.range d).foldl (fun row j => row.setCoord j 0) r) default,
      if_pos ⟨Nat.zero_le c, by omega, by rw [hcen]; exact hc⟩]
    rfl
  · show ((List.range k).foldl _ pp).getD c 0 = _
    rw [e, foldl_set_getD (fun _ => 0) 0]
    by_cases h : 0 ≤ c ∧ c < 0 + k ∧ c < pp.length
    · rw [if_pos h]
    · rw [if_neg h]
      exact getD_of_length_le pp c 0 (by omega)

theorem main_chunks_eq (n : Nat) : main_chunks n = [(0, n / 2), (n / 2, n)] := by
  obtain ⟨e1, e2, e3, e4⟩ := chunks_cover n
  have h : main_chunks n =
      [(chunk_start n 0, chunk_end n 0), (chunk_start n 1, chunk_end n 1)] := rfl
  rw [h, e1, e2, e3, e4]

/-- The ranges that `main` gives to its workers split `[0, n)`. -/
theorem main_chunks_split (n : Nat) : is_split n (main_chunks n) := by
  rw [main_chunks_eq]
  constructor
  · intro c hc
    simp only [List.mem_cons, List.mem_singleton, List.not_mem_nil, or_false] at hc
    rcases hc with h | h <;> subst h <;> simp only <;> omega
  · intro i hi
    simp only [List.countP_cons, List.countP_nil, decide_eq_true_eq, zero_add]
    by_cases h : i < n / 2
    · have h1 : (0 ≤ i ∧ i < n / 2) := ⟨Nat.zero_le i, h⟩
      have h2 : ¬ (n / 2 ≤ i ∧ i < n) := by omega
      rw [if_pos h1, if_neg h2]
    · have h1 : ¬ (0 ≤ i ∧ i < n / 2) := by omega
      have h2 : (n / 2 ≤ i ∧ i < n) := by omega
      rw [if_neg h1, if_pos h2]

theorem is_split_perm (n : Nat) (chunks order : List (Nat × Nat)) (hperm : order.Perm chunks)
    (hsplit : is_split n chunks) : is_split n order := by
  obtain ⟨h1, h2⟩ := hsplit
  constructor
  · intro c hc
    exact h1 c (hperm.mem_iff.1 hc)
  · intro i hi
    rw [hperm.countP_eq]
    exact h2 i hi

theorem pthread_update_keeps_n (g g' : Globals) (a b : Nat)
    (h : Pthread.update_centroids g a b = some g') : g'.n = g.n := by
  unfold Pthread.update_centroids at h
  cases hl : local_accumulate g a b with
  | none => rw [hl] at h; exact absurd h (by simp)
  | some A =>
    rw [hl, Option.map_some'] at h
    simp only [Option.some.injEq] at h
    rw [← h]
    rfl

/-- The reduction phase of `main` is the reduction phase over the ranges of `main`, the
workers taking the lock in the order of their creation. -/
theorem update_phase_eq_chunks (g : Globals) :
    update_phase g = update_phase_chunks g (main_chunks g.n) := by
  rw [update_phase_unfold]
  have h : update_phase_chunks g (main_chunks g.n) =
      (Pthread.update_centroids g (chunk_start g.n 0) (chunk_end g.n 0)).bind fun st =>
        Pthread.update_centroids st (chunk_start g.n 1) (chunk_end g.n 1) := rfl
  rw [h]
  cases hw : Pthread.update_centroids g (chunk_start g.n 0) (chunk_end g.n 0) with
  | none => rfl
  | some g1 =>
    rw [Option.some_bind, Option.some_bind, pthread_update_keeps_n g g1 _ _ hw]

/-- After the reset, the reduction phase over a split of `[0, n)`, merged in any order,
leaves in every centroid and count the sum and count of the sequential accumulation. -/
theorem reduction_closed (n k : Nat) (data cen : List Point) (clusters : List Nat)
    (pp : List Nat) (order : List (Nat × Nat)) (hk : k ≤ NB_CLUSTERS)
    (hrange : ∀ i < n, clusters.getD i 0 < k) (hcen : cen.length = k) (hpp : k ≤ pp.length)
    (hsplit : is_split n order) :
    ∃ (cen' : List Point) (pp' : List Nat),
      update_phase_chunks (reset ⟨n, k, data, cen, clusters.map Int.ofNat, pp⟩) order =
        some ⟨n, k, data, cen', clusters.map Int.ofNat, pp'⟩ ∧
      cen'.length = k ∧ pp'.length = pp.length ∧
      ∀ c < k,
        cen'.getD c default = (accumulate data clusters n k).sums.getD c default ∧
        pp'.getD c 0 = (accumulate data clusters n k).counts.getD c 0 := by
  obtain ⟨cen0, pp0, r1, r2, r3, r4⟩ := reset_closed n k data cen (clusters.map Int.ofNat) pp hcen
  obtain ⟨cen', pp', u1, u2, u3, u4⟩ :=
    update_phase_chunks_closed data clusters n k hk hrange order cen0 pp0 hsplit.1 r2
      (by rw [r3]; exact hpp)
  refine ⟨cen', pp', by rw [r1, u1], u2, by rw [u3, r3], fun c hc => ?_⟩
  obtain ⟨a1, a2⟩ := accumulate_spec data clusters n k c hc
  obtain ⟨z1, z2⟩ := r4 c hc
  obtain ⟨v1, v2⟩ := u4 c hc
  rw [v1, v2, a1, a2, z1, z2, part_sum_x_split data clusters n c order hsplit,
    part_sum_y_split data clusters n c order hsplit, part_count_split clusters n c order hsplit]
  simp only [zero_add, and_self]

theorem row_div_some (row : Point) (c : Nat) (hc : c ≠ 0) :
    row_div row c = some ⟨row.x / (c : ℚ), row.y / (c : ℚ)⟩ := by
  have h : row_div row c =
      ((some row).bind fun r => (fdiv (r.coord 0) c).map fun v => r.setCoord 0 v).bind
        fun r => (fdiv (r.coord 1) c).map fun v => r.setCoord 1 v := rfl
  rw [h]
  simp [fdiv, hc, Point.coord, Point.setCoord]

/-- The division loop of the thread-pool `main` after the first `m` clusters, when none of
their counts is zero: the first `m` rows are divided, the others untouched. -/
theorem divide_upto (pp : List Nat) (cs : List Point) :
    ∀ m : Nat, (∀ i < m, pp.getD i 0 ≠ 0) → m ≤ cs.length → ∃ cs' : List Point,
      (List.range m).foldl
        (fun (r : Option (List Point)) i => r.bind fun r =>
          (row_div (r.getD i default) (pp.getD i 0)).map fun row => r.set i row)
        (some cs) = some cs' ∧
      cs'.length = cs.length ∧
      ∀ c < cs.length, cs'.getD c default =
        if c < m then
          ⟨(cs.getD c default).x / (pp.getD c 0 : ℚ), (cs.getD c default).y / (pp.getD c 0 : ℚ)⟩
        else cs.getD c default := by
  intro m
  induction m with
  | zero => exact fun _ _ => ⟨cs, rfl, rfl, fun c _ => by simp⟩
  | succ m ih =>
    intro hpp hm
    obtain ⟨cs1, h1, h2, h3⟩ := ih (fun i hi => hpp i (by omega)) (by omega)
    simp only [List.range_succ, List.foldl_append, List.foldl_cons, List.foldl_nil, h1]
    rw [Option.some_bind, row_div_some _ _ (hpp m (by omega)), Option.map_some']
    refine ⟨_, rfl, by rw [List.length_set, h2], fun c hc => ?_⟩
    rw [getD_set]
    by_cases hmc : m = c
    · subst hmc
      have hlt : m < cs1.length := by omega
      rw [if_pos ⟨rfl, hlt⟩, if_pos (Nat.lt_succ_self m), h3 m hc, if_neg (Nat.lt_irrefl m)]
    · have hn : ¬ (m = c ∧ m < cs1.length) := fun h => hmc h.1
      rw [if_neg hn, h3 c hc]
      by_cases hcm : c < m
      · rw [if_pos hcm, if_pos (by omega)]
      · rw [if_neg hcm, if_neg (by omega)]

theorem divide_closed (n k : Nat) (data cen : List Point) (cl : List Int) (pp : List Nat)
    (hcen : cen.length = k) (hpp : ∀ i < k, pp.getD i 0 ≠ 0) :
    ∃ cs' : List Point,
      divide ⟨n, k, data, cen, cl, pp⟩ = some ⟨n, k, data, cs', cl, pp⟩ ∧ cs'.length = k ∧
      ∀ c < k, cs'.getD c default =
        ⟨(cen.getD c default).x / (pp.getD c 0 : ℚ), (cen.getD c default).y / (pp.getD c 0 : ℚ)⟩ := by
  obtain ⟨cs', h1, h2, h3⟩ := divide_upto pp cen k hpp (by omega)
  refine ⟨cs', ?_, by rw [h2, hcen], fun c hc => ?_⟩
  · unfold divide
    simp only
    rw [h1]
    rfl
  · rw [h3 c (by omega), if_pos hc]

/-- The assignment `assign_clusters` writes, as a list. -/
theorem assign_clusters_closed (data cen : List Point) (mem : List Nat) (n k : Nat)
    (hmem : mem.length = n) :
    (assign_clusters ⟨data, cen, mem⟩ n k).clusters =
      (List.range n).map fun i => (assign_scan (data.getD i default) cen k).2 := by
  apply list_eq_of_getD 0
  · rw [assign_clusters_length, List.length_map, List.length_range]
    exact hmem
  · intro i hi
    rw [assign_clusters_length] at hi
    have hi' : i < n := by rw [← hmem]; exact hi
    rw [assign_clusters_getD _ n k i hmem hi']
    simp [List.getD_eq_getElem?_getD, List.getElem?_map, List.getElem?_range hi']

/-- One iteration of the thread-pool loop, in closed form, when `1 ≤ k ≤ NB_CLUSTERS`,
every point is at a distance below `DBL_MAX` from the first centroid and the assignment
leaves no cluster empty: the assignment is that of the sequential `assign_clusters` and
the new centroids are those of the sequential `update_centroids`. -/
theorem main_iteration_closed (n k : Nat) (data cen : List Point) (mem : List Nat)
    (memI : List Int) (pp : List Nat) (hk1 : 1 ≤ k) (hk : k ≤ NB_CLUSTERS)
    (hcen : cen.length = k) (hmem : mem.length = n) (hmemI : memI.length = n)
    (hpp : k ≤ pp.length)
    (hfar : ∀ i < n,
      (euclidean_distance (data.getD i default) (cen.getD 0 default)).radicand <
        DBL_MAX * DBL_MAX)
    (hfull : ∀ c < k, cluster_count (assign_clusters ⟨data, cen, mem⟩ n k).clusters n c ≠ 0) :
    ∃ (cs' : List Point) (pp' : List Nat),
      main_iteration ⟨n, k, data, cen, memI, pp⟩ =
        some (⟨n, k, data, cs', (assign_clusters ⟨data, cen, mem⟩ n k).clusters.map Int.ofNat,
          pp'⟩, check_convergence_from cs' (snapshot cen k) k 0) ∧
      cs'.length = k ∧ pp'.length = pp.length ∧
      ∀ c < k, cs'.getD c default =
        finalized (accumulate data (assign_clusters ⟨data, cen, mem⟩ n k).clusters n k) cen c := by
  have hcl := assign_clusters_closed data cen mem n k hmem
  have hclI : (List.range n).map (fun i => (assign_point (data.getD i default) cen k).2) =
      (assign_clusters ⟨data, cen, mem⟩ n k).clusters.map Int.ofNat := by
    rw [hcl, List.map_map]
    apply List.map_congr_left
    intro i hi
    rw [List.mem_range] at hi
    rw [assign_point_eq_scan _ _ _ hk1 (hfar i hi)]
    rfl
  have hrange : ∀ i < n, (assign_clusters ⟨data, cen, mem⟩ n k).clusters.getD i 0 < k := by
    intro i hi
    rw [assign_clusters_getD _ n k i hmem hi]
    exact (assign_scan_spec _ _ k hk1).1
  generalize (assign_clusters ⟨data, cen, mem⟩ n k).clusters = cl at hclI hrange hfull ⊢
  obtain ⟨cen1, pp1, u1, u2, u3, u4⟩ :=
    reduction_closed n k data cen cl pp (main_chunks n) hk hrange hcen hpp (main_chunks_split n)
  have hne : ∀ i < k, pp1.getD i 0 ≠ 0 := by
    intro i hi
    rw [(u4 i hi).2, (accumulate_spec data cl n k i hi).2]
    exact hfull i hi
  obtain ⟨cs', d1, d2, d3⟩ := divide_closed n k data cen1 (cl.map Int.ofNat) pp1 u2 hne
  refine ⟨cs', pp1, ?_, d2, u3, fun c hc => ?_⟩
  · unfold main_iteration
    simp only
    rw [assign_phase_mk n k data cen memI pp hmemI, hclI, update_phase_eq_chunks]
    have hn : (reset ⟨n, k, data, cen, cl.map Int.ofNat, pp⟩).n = n := rfl
    rw [hn, u1, Option.some_bind, d1, Option.map_some']
    rfl
  · have hpos : 0 < (accumulate data cl n k).counts.getD c 0 := by
      rw [← (u4 c hc).2]
      exact Nat.pos_of_ne_zero (hne c hc)
    rw [d3 c hc, (u4 c hc).1, (u4 c hc).2]
    unfold finalized
    rw [if_pos hpos]

/-! ## The data-parallel iteration, in closed form -/

theorem foldl_congr_mem {α β : Type} (f g : α → β → α) :
    ∀ (l : List β) (a : α), (∀ a, ∀ x ∈ l, f a x = g a x) → l.foldl f a = l.foldl g a := by
  intro l
  induction l with
  | nil => intro a _; rfl
  | cons x l ih =>
    intro a h
    simp only [List.foldl_cons]
    rw [h a x (List.mem_cons_self x l)]
    exact ih _ fun a y hy => h a y (List.mem_cons_of_mem x hy)

theorem foldl_id_mem {α β : Type} (f : α → β → α) :
    ∀ (l : List β) (a : α), (∀ a, ∀ x ∈ l, f a x = a) → l.foldl f a = a := by
  intro l
  induction l with
  | nil => intro a _; rfl
  | cons x l ih =>
    intro a h
    simp only [List.foldl_cons]
    rw [h a x (List.mem_cons_self x l)]
    exact ih _ fun a y hy => h a y (List.mem_cons_of_mem x hy)

/-- A launch runs the thread function once for every global index below
`num_blocks * threads_per_block`, in increasing order. -/
theorem launch_flat (thread : Nat → Device → Device) (m : Device) :
    ∀ nb : Nat, launch nb thread m =
      (List.range (nb * threads_per_block)).foldl (fun m idx => thread idx m) m := by
  intro nb
  unfold launch
  induction nb with
  | zero => simp
  | succ nb ih =>
    rw [List.range_succ, List.foldl_append, ih, Nat.succ_mul, List.range_add, List.foldl_append,
      List.foldl_map]
    simp only [List.foldl_cons, List.foldl_nil]

theorem num_blocks_cover (n : Nat) : n ≤ num_blocks n * threads_per_block := by
  unfold num_blocks threads_per_block
  omega

/-- A launch of a kernel whose threads do nothing at the indices `idx ≥ n` runs the
thread function once for every index below `n`. -/
theorem launch_guarded (thread : Nat → Device → Device) (n : Nat) (m : Device)
    (hguard : ∀ idx m, n ≤ idx → thread idx m = m) :
    launch (num_blocks n) thread m = (List.range n).foldl (fun m idx => thread idx m) m := by
  rw [launch_flat]
  obtain ⟨e, he⟩ := Nat.exists_eq_add_of_le (num_blocks_cover n)
  rw [he, List.range_add, List.foldl_append, List.foldl_map]
  exact foldl_id_mem _ _ _ fun a x _ => hguard _ a (Nat.le_add_right n x)

theorem kernel_scan_eq (p : Point) (cs : List Point) (k : Nat) :
    (List.range' 1 (k - 1)).foldl (fun acc j => assign_kernel_step p cs j acc)
      (Cuda.euclidean_distance p (cs.getD 0 default), 0) = assign_scan p cs k := by
  unfold assign_scan
  rw [cuda_distance_eq]
  apply foldl_congr_mem
  intro a j _
  unfold assign_kernel_step assign_step
  rw [cuda_distance_eq]

theorem assign_kernel_fold (n k : Nat) :
    ∀ (l : List Nat) (m : Device), (∀ i ∈ l, i < n) →
      l.foldl (fun m idx => Cuda.assign_clusters n k idx m) m =
        { m with
          clusters := l.foldl
            (fun cl i => cl.set i (assign_scan (m.data.getD i default) m.centroids k).2)
            m.clusters } := by
  intro l
  induction l with
  | nil => intro m _; rfl
  | cons i l ih =>
    intro m h
    simp only [List.foldl_cons]
    have hi : i < n := h i (List.mem_cons_self i l)
    have hstep : Cuda.assign_clusters n k i m =
        { m with
          clusters := m.clusters.set i (assign_scan (m.data.getD i default) m.centroids k).2 } := by
      unfold Cuda.assign_clusters
      rw [if_pos hi, kernel_scan_eq]
    rw [hstep, ih _ fun j hj => h j (List.mem_cons_of_mem i hj)]

theorem update_kernel_fold (n : Nat) :
    ∀ (l : List Nat) (m : Device), (∀ i ∈ l, i < n) →
      l.foldl (fun m idx => Cuda.update_centroids n idx m) m =
        { m with
          sums := (l.foldl (fun a i => accumulate_step m.data m.clusters i a)
            ⟨m.sums, m.counts⟩).sums
          counts := (l.foldl (fun a i => accumulate_step m.data m.clusters i a)
            ⟨m.sums, m.counts⟩).counts } := by
  intro l
  induction l with
  | nil => intro m _; rfl
  | cons i l ih =>
    intro m h
    simp only [List.foldl_cons]
    have hi : i < n := h i (List.mem_cons_self i l)
    have hstep : Cuda.update_centroids n i m =
        { m with
          sums := (accumulate_step m.data m.clusters i ⟨m.sums, m.counts⟩).sums
          counts := (accumulate_step m.data m.clusters i ⟨m.sums, m.counts⟩).counts } := by
      unfold Cuda.update_centroids
      rw [if_pos hi]
      rfl
    rw [hstep, ih _ fun j hj => h j (List.mem_cons_of_mem i hj)]

/-- One iteration of the data-parallel loop, in closed form: the assignment is that of
the sequential `assign_clusters`, the sums and counts those of the sequential
accumulation, and the new centroids those of the sequential `update_centroids`. -/
theorem cuda_iteration_closed (n k : Nat) (data cen : List Point) (mem : List Nat)
    (sums : List Point) (counts : List Nat) (hcen : cen.length = k) :
    ∃ (cs' : List Point) (mc : ℚ),
      cuda_iteration ⟨data, cen, mem, sums, counts⟩ n k =
        some (⟨data, cs', (assign_clusters ⟨data, cen, mem⟩ n k).clusters,
          (accumulate data (assign_clusters ⟨data, cen, mem⟩ n k).clusters n k).sums,
          (accumulate data (assign_clusters ⟨data, cen, mem⟩ n k).clusters n k).counts⟩,
          decide (mc < TOL)) ∧
      cs'.length = k ∧
      ∀ c < k, cs'.getD c default =
        finalized (accumulate data (assign_clusters ⟨data, cen, mem⟩ n k).clusters n k) cen c := by
  have hmem_range : ∀ i ∈ List.range n, i < n := fun i hi => List.mem_range.1 hi
  have h2 : launch (num_blocks n) (Cuda.assign_clusters n k)
      ⟨data, cen, mem, List.replicate k ⟨0, 0⟩, List.replicate k 0⟩ =
      ⟨data, cen, (assign_clusters ⟨data, cen, mem⟩ n k).clusters, List.replicate k ⟨0, 0⟩,
        List.replicate k 0⟩ := by
    rw [launch_guarded _ n _ (fun idx m hidx => by
      unfold Cuda.assign_clusters
      rw [if_neg (by omega)]), assign_kernel_fold n k _ _ hmem_range]
    rfl
  generalize (assign_clusters ⟨data, cen, mem⟩ n k).clusters = cl at h2 ⊢
  have h3 : launch (num_blocks n) (Cuda.update_centroids n)
      ⟨data, cen, cl, List.replicate k ⟨0, 0⟩, List.replicate k 0⟩ =
      ⟨data, cen, cl, (accumulate data cl n k).sums, (accumulate data cl n k).counts⟩ := by
    rw [launch_guarded _ n _ (fun idx m hidx => by
      unfold Cuda.update_centroids
      rw [if_neg (by omega)]), update_kernel_fold n _ _ hmem_range]
    rfl
  obtain ⟨cs', mc, f1, f2, f3, -⟩ :=
    host_finalize_upto (accumulate data cl n k).sums (accumulate data cl n k).counts cen k
      (by omega)
  refine ⟨cs', mc, ?_, by rw [f2, hcen], fun c hc => ?_⟩
  · unfold cuda_iteration
    simp only
    rw [h2, h3]
    simp only
    unfold host_finalize
    rw [f1]
    rfl
  · rw [f3 c (by omega), if_pos hc]

/-! ## The three loop bodies compute the same thing -/

/-- One execution of each of the three loop bodies from the same points and centroids
gives the same assignment and the same new centroids, when `1 ≤ k ≤ NB_CLUSTERS`, every
point is at a distance below `DBL_MAX` from the first centroid and the assignment leaves
no cluster empty. -/
theorem iteration_agrees (n k : Nat) (data cen : List Point) (mem : List Nat)
    (memI : List Int) (pp : List Nat) (sums : List Point) (counts : List Nat)
    (hk1 : 1 ≤ k) (hk : k ≤ NB_CLUSTERS) (hcen : cen.length = k) (hmem : mem.length = n)
    (hmemI : memI.length = n) (hpp : k ≤ pp.length)
    (hfar : ∀ i < n,
      (euclidean_distance (data.getD i default) (cen.getD 0 default)).radicand <
        DBL_MAX * DBL_MAX)
    (hfull : ∀ c < k, cluster_count (assign_clusters ⟨data, cen, mem⟩ n k).clusters n c ≠ 0) :
    ∃ (cs' : List Point) (cl' : List Nat) (pp' : List Nat) (b2 : Int) (sums' : List Point)
      (counts' : List Nat) (b3 : Bool),
      pass_state ⟨data, cen, mem⟩ n k = ⟨data, cs', cl'⟩ ∧
      main_iteration ⟨n, k, data, cen, memI, pp⟩ =
        some (⟨n, k, data, cs', cl'.map Int.ofNat, pp'⟩, b2) ∧
      cuda_iteration ⟨data, cen, mem, sums, counts⟩ n k =
        some (⟨data, cs', cl', sums', counts'⟩, b3) ∧
      cs'.length = k ∧ cl'.length = n ∧ pp'.length = pp.length := by
  obtain ⟨cs0, s1, s2, s3, -⟩ := k_means_pass_closed ⟨data, cen, mem⟩ n k hcen
  obtain ⟨cs1, pp1, p1, p2, p3, p4⟩ :=
    main_iteration_closed n k data cen mem memI pp hk1 hk hcen hmem hmemI hpp hfar hfull
  obtain ⟨cs2, mc, c1, c2, c3⟩ := cuda_iteration_closed n k data cen mem sums counts hcen
  have e1 : cs1 = cs0 := by
    apply list_eq_of_getD default
    · rw [p2, s1]
    · intro i hi
      rw [p2] at hi
      rw [p4 i hi, s2 i hi]
  have e2 : cs2 = cs0 := by
    apply list_eq_of_getD default
    · rw [c2, s1]
    · intro i hi
      rw [c2] at hi
      rw [c3 i hi, s2 i hi]
  rw [e1] at p1
  rw [e2] at c1
  exact ⟨cs0, _, pp1, _, _, _, _, s3, p1, c1, s1,
    by rw [assign_clusters_length]; exact hmem, p3⟩

/-- The inductive form of the agreement of the loop bodies: `t` executions of each. -/
theorem iterations_agree (n k : Nat) (data : List Point) (hk1 : 1 ≤ k)
    (hk : k ≤ NB_CLUSTERS) :
    ∀ (t : Nat) (cen : List Point) (mem : List Nat) (memI : List Int) (pp : List Nat)
      (sums : List Point) (counts : List Nat),
      cen.length = k → mem.length = n → memI.length = n → k ≤ pp.length →
      (∀ j < t,
        (∀ i < n,
          (euclidean_distance (data.getD i default)
            ((after_passes n k j ⟨data, cen, mem⟩).centroids.getD 0 default)).radicand <
            DBL_MAX * DBL_MAX) ∧
        ∀ c < k,
          cluster_count (assign_clusters (after_passes n k j ⟨data, cen, mem⟩) n k).clusters
            n c ≠ 0) →
      ∃ (cs' : List Point) (cl' : List Nat) (clI : List Int) (pp' : List Nat)
        (sums' : List Point) (counts' : List Nat),
        after_passes n k t ⟨data, cen, mem⟩ = ⟨data, cs', cl'⟩ ∧
        after_iterations t ⟨n, k, data, cen, memI, pp⟩ = some ⟨n, k, data, cs', clI, pp'⟩ ∧
        cuda_after_iterations n k t ⟨data, cen, mem, sums, counts⟩ =
          some ⟨data, cs', cl', sums', counts'⟩ ∧
        ((memI = mem.map Int.ofNat ∨ 0 < t) → clI = cl'.map Int.ofNat) := by
  intro t
  induction t with
  | zero =>
    intro cen mem memI pp sums counts _ _ _ _ _
    exact ⟨cen, mem, memI, pp, sums, counts, rfl, rfl, rfl,
      fun h => h.elim id fun h0 => absurd h0 (Nat.lt_irrefl 0)⟩
  | succ t ih =>
    intro cen mem memI pp sums counts hcen hmem hmemI hpp hgood
    obtain ⟨hfar, hfull⟩ := hgood 0 (Nat.succ_pos t)
    obtain ⟨cs1, cl1, pp1, b2, sums1, counts1, b3, a1, a2, a3, a4, a5, a6⟩ :=
      iteration_agrees n k data cen mem memI pp sums counts hk1 hk hcen hmem hmemI hpp hfar hfull
    obtain ⟨cs', cl', clI, pp', sums', counts', r1, r2, r3, r4⟩ :=
      ih cs1 cl1 (cl1.map Int.ofNat) pp1 sums1 counts1 a4 a5
        (by rw [List.length_map]; exact a5) (by rw [a6]; exact hpp)
        (fun j hj => by
          have h := hgood (j + 1) (Nat.succ_lt_succ hj)
          rw [after_passes_succ, a1] at h
          exact h)
    refine ⟨cs', cl', clI, pp', sums', counts', ?_, ?_, ?_, fun _ => r4 (Or.inl rfl)⟩
    · rw [after_passes_succ, a1, r1]
    · rw [after_iterations_succ, a2, Option.some_bind, r2]
    · have h : cuda_after_iterations n k (t + 1) ⟨data, cen, mem, sums, counts⟩ =
          (cuda_iteration ⟨data, cen, mem, sums, counts⟩ n k).bind
            fun r => cuda_after_iterations n k t r.1 := rfl
      rw [h, a3, Option.some_bind, r3]

/-! ## The first two phases of a thread-pool iteration, in closed form -/

theorem DBL_MAX_lt_sq : DBL_MAX < DBL_MAX * DBL_MAX := by
  decide!

/-- The assignment phase and the reduction phase of one iteration of the thread-pool
loop, when `1 ≤ k ≤ NB_CLUSTERS` and every point is at a distance below `DBL_MAX` from
the first centroid: every point gets the cluster index the sequential `assign_clusters`
gives it, and the reduction leaves in every centroid and count the sums and the count of
the points of its cluster. -/
theorem first_phases_closed (n k : Nat) (data cen : List Point) (mem : List Nat)
    (memI : List Int) (pp : List Nat) (hk1 : 1 ≤ k) (hk : k ≤ NB_CLUSTERS)
    (hcen : cen.length = k) (hmem : mem.length = n) (hmemI : memI.length = n)
    (hpp : k ≤ pp.length)
    (hfar : ∀ i < n,
      (euclidean_distance (data.getD i default) (cen.getD 0 default)).radicand <
        DBL_MAX * DBL_MAX) :
    ∃ (cen1 : List Point) (pp1 : List Nat),
      assign_phase ⟨n, k, data, cen, memI, pp⟩ =
        ⟨n, k, data, cen, (assign_clusters ⟨data, cen, mem⟩ n k).clusters.map Int.ofNat, pp⟩ ∧
      update_phase (reset (assign_phase ⟨n, k, data, cen, memI, pp⟩)) =
        some ⟨n, k, data, cen1, (assign_clusters ⟨data, cen, mem⟩ n k).clusters.map Int.ofNat,
          pp1⟩ ∧
      (∀ i < n, (assign_clusters ⟨data, cen, mem⟩ n k).clusters.getD i 0 < k) ∧
      ∀ c < k,
        cen1.getD c default =
          ⟨cluster_sum_x data (assign_clusters ⟨data, cen, mem⟩ n k).clusters n c,
            cluster_sum_y data (assign_clusters ⟨data, cen, mem⟩ n k).clusters n c⟩ ∧
        pp1.getD c 0 = cluster_count (assign_clusters ⟨data, cen, mem⟩ n k).clusters n c := by
  have hcl := assign_clusters_closed data cen mem n k hmem
  have hclI : (List.range n).map (fun i => (assign_point (data.getD i default) cen k).2) =
      (assign_clusters ⟨data, cen, mem⟩ n k).clusters.map Int.ofNat := by
    rw [hcl, List.map_map]
    apply List.map_congr_left
    intro i hi
    rw [List.mem_range] at hi
    rw [assign_point_eq_scan _ _ _ hk1 (hfar i hi)]
    rfl
  have hrange : ∀ i < n, (assign_clusters ⟨data, cen, mem⟩ n k).clusters.getD i 0 < k := by
    intro i hi
    rw [assign_clusters_getD _ n k i hmem hi]
    exact (assign_scan_spec _ _ k hk1).1
  generalize (assign_clusters ⟨data, cen, mem⟩ n k).clusters = cl at hclI hrange ⊢
  obtain ⟨cen1, pp1, u1, -, -, u4⟩ :=
    reduction_closed n k data cen cl pp (main_chunks n) hk hrange hcen hpp (main_chunks_split n)
  have ha : assign_phase ⟨n, k, data, cen, memI, pp⟩ =
      ⟨n, k, data, cen, cl.map Int.ofNat, pp⟩ := by
    rw [assign_phase_mk n k data cen memI pp hmemI, hclI]
  refine ⟨cen1, pp1, ha, ?_, hrange, fun c hc => ?_⟩
  · rw [ha, update_phase_eq_chunks]
    have hn : (reset ⟨n, k, data, cen, cl.map Int.ofNat, pp⟩).n = n := rfl
    rw [hn, u1]
  · obtain ⟨a1, a2⟩ := accumulate_spec data cl n k c hc
    rw [(u4 c hc).1, (u4 c hc).2, a1, a2]
    exact ⟨rfl, rfl⟩

/-! ## Agreement of the two assignment scans within the range of `double` -/

/-- The point (2^700, 0) and the centroid (0, 0): the distance `2^700` is below
`DBL_MAX`, but the square `2^1400` of the coordinate difference is not. Within the range
of `double` the distance computed is `+inf`, which is not below the initial minimum
`DBL_MAX`: `assign_points` leaves -1, while `assign_clusters` gives 0. On unbounded
rationals both scans give 0. -/
theorem ranged_scan_at_overflow :
    euclidean_distance ⟨((2 ^ 700 : Nat) : ℚ), 0⟩ ⟨0, 0⟩ < SqrtQ.ofRat DBL_MAX ∧
    Ranged.Pthread.euclidean_distance ⟨((2 ^ 700 : Nat) : ℚ), 0⟩ ⟨0, 0⟩ d = none ∧
    (Ranged.assign_point ⟨((2 ^ 700 : Nat) : ℚ), 0⟩ [⟨0, 0⟩] 1).2 = -1 ∧
    (Ranged.assign_scan ⟨((2 ^ 700 : Nat) : ℚ), 0⟩ [⟨0, 0⟩] 1).2 = 0 ∧
    (assign_point ⟨((2 ^ 700 : Nat) : ℚ), 0⟩ [⟨0, 0⟩] 1).2 = 0 := by
  decide!

/-! ## Rounding: every rounded value is a significand times a power of two -/

theorem pow2_eq_zpow (e : Int) : pow2 e = (2 : ℚ) ^ e := by
  unfold pow2
  by_cases h : 0 ≤ e
  · rw [if_pos h]
    obtain ⟨n, rfl⟩ := Int.eq_ofNat_of_zero_le h
    simp
  · rw [if_neg h]
    obtain ⟨n, hn⟩ := Int.eq_ofNat_of_zero_le (show 0 ≤ -e by omega)
    have he : e = -(n : Int) := by omega
    subst he
    simp

theorem pow2_pos (e : Int) : 0 < pow2 e := by
  rw [pow2_eq_zpow]
  positivity

theorem bit_length_zero (fuel : Nat) : bit_length fuel 0 = 0 := by
  cases fuel <;> simp [bit_length]

theorem bit_length_spec :
    ∀ (fuel n : Nat), n ≤ fuel →
      n < 2 ^ bit_length fuel n ∧ (n ≠ 0 → 2 ^ (bit_length fuel n - 1) ≤ n) := by
  intro fuel
  induction fuel with
  | zero =>
    intro n hn
    have : n = 0 := by omega
    subst this
    exact ⟨by simp [bit_length], fun h => absurd rfl h⟩
  | succ fuel ih =>
    intro n hn
    by_cases h0 : n = 0
    · subst h0
      exact ⟨by simp [bit_length], fun h => absurd rfl h⟩
    · have hb : bit_length (fuel + 1) n = bit_length fuel (n / 2) + 1 := by
        simp [bit_length, h0]
      rw [hb]
      obtain ⟨u, l⟩ := ih (n / 2) (by omega)
      constructor
      · rw [pow_succ]
        omega
      · intro _
        rw [Nat.add_sub_cancel]
        by_cases h2 : n / 2 = 0
        · rw [h2, bit_length_zero]
          simp
          omega
        · have l' := l h2
          have hpos : 1 ≤ bit_length fuel (n / 2) := by
            by_contra hc
            have : bit_length fuel (n / 2) = 0 := by omega
            rw [this] at u
            simp at u
            exact h2 u
          have e : bit_length fuel (n / 2) = (bit_length fuel (n / 2) - 1) + 1 := by omega
          rw [e, pow_succ]
          omega


theorem ilog2_upper (q : ℚ) (hq : 0 < q) : q < pow2 (ilog2 q + 1) := by
  unfold ilog2
  simp only
  by_cases h : pow2 ((bit_length q.num.natAbs q.num.natAbs : Int) - (bit_length q.den q.den : Int)) ≤ q
  · rw [if_pos h]
    have hN := (bit_length_spec q.num.natAbs q.num.natAbs (le_refl _)).1
    have hD := (bit_length_spec q.den q.den (le_refl _)).2 q.den_nz
    have hDpos : 1 ≤ bit_length q.den q.den := by
      by_contra hc
      have h0 : bit_length q.den q.den = 0 := by omega
      have := (bit_length_spec q.den q.den (le_refl _)).1
      rw [h0] at this
      have := q.den_pos
      omega
    have hnum : (0 : Int) < q.num := Rat.num_pos.2 hq
    have hqe : q = (q.num.natAbs : ℚ) / (q.den : ℚ) := by
      rw [← Int.cast_natCast, Int.natAbs_of_nonneg hnum.le]
      exact (Rat.num_div_den q).symm
    have hden : (0 : ℚ) < (q.den : ℚ) := by exact_mod_cast q.den_pos
    rw [pow2_eq_zpow]
    have hNq : (q.num.natAbs : ℚ) < (2 : ℚ) ^ (bit_length q.num.natAbs q.num.natAbs : Int) := by
      rw [zpow_natCast]
      exact_mod_cast hN
    have hDq : (2 : ℚ) ^ ((bit_length q.den q.den : Int) - 1) ≤ (q.den : ℚ) := by
      have e : ((bit_length q.den q.den : Int) - 1) = ((bit_length q.den q.den - 1 : Nat) : Int) := by
        omega
      rw [e, zpow_natCast]
      exact_mod_cast hD
    have hsplit : (2 : ℚ) ^ ((bit_length q.num.natAbs q.num.natAbs : Int) -
        (bit_length q.den q.den : Int) + 1) * (2 : ℚ) ^ ((bit_length q.den q.den : Int) - 1) =
        (2 : ℚ) ^ (bit_length q.num.natAbs q.num.natAbs : Int) := by
      rw [← zpow_add₀ (by norm_num : (2 : ℚ) ≠ 0)]
      congr 1
      ring
    have hpos : (0 : ℚ) < (2 : ℚ) ^ ((bit_length q.num.natAbs q.num.natAbs : Int) -
        (bit_length q.den q.den : Int) + 1) := by positivity
    have hlt : (q.num.natAbs : ℚ) / (q.den : ℚ) <
        (2 : ℚ) ^ ((bit_length q.num.natAbs q.num.natAbs : Int) -
          (bit_length q.den q.den : Int) + 1) := by
      rw [div_lt_iff₀ hden]
      calc (q.num.natAbs : ℚ) < (2 : ℚ) ^ (bit_length q.num.natAbs q.num.natAbs : Int) := hNq
        _ = _ := hsplit.symm
        _ ≤ _ := mul_le_mul_of_nonneg_left hDq hpos.le
    exact lt_of_eq_of_lt hqe hlt
  · rw [if_neg h]
    have e : (bit_length q.num.natAbs q.num.natAbs : Int) - (bit_length q.den q.den : Int) - 1 + 1 =
        (bit_length q.num.natAbs q.num.natAbs : Int) - (bit_length q.den q.den : Int) := by ring
    rw [e]
    exact not_le.1 h

theorem round_half_even_le (s : ℚ) (hs : 0 ≤ s) (M : Nat) (hM : s < (M : ℚ)) :
    round_half_even s ≤ M := by
  have hnum : (0 : Int) ≤ s.num := Rat.num_nonneg.2 hs
  have hfloor : ((s.num.natAbs / s.den : Nat) : ℚ) ≤ s := by
    have hse : s = (s.num.natAbs : ℚ) / (s.den : ℚ) := by
      rw [← Int.cast_natCast, Int.natAbs_of_nonneg hnum]
      exact (Rat.num_div_den s).symm
    calc ((s.num.natAbs / s.den : Nat) : ℚ) ≤ (s.num.natAbs : ℚ) / (s.den : ℚ) := Nat.cast_div_le
      _ = s := hse.symm
  have hlt : s.num.natAbs / s.den < M := by
    have : ((s.num.natAbs / s.den : Nat) : ℚ) < (M : ℚ) := lt_of_le_of_lt hfloor hM
    exact_mod_cast this
  unfold round_half_even
  simp only
  split_ifs <;> omega

/-- Every value of the format is a significand of at most `2 ^ p` times a power of two. -/
theorem round_nearest_form (p : Nat) (emin : Int) (q : ℚ) :
    ∃ (m : Nat) (e : Int), m ≤ 2 ^ p ∧ |round_nearest p emin q| = (m : ℚ) * (2 : ℚ) ^ e := by
  unfold round_nearest
  by_cases h0 : q = 0
  · rw [if_pos h0]
    exact ⟨0, 0, Nat.zero_le _, by simp⟩
  · rw [if_neg h0]
    simp only
    have habs : 0 < |q| := abs_pos.2 h0
    refine ⟨round_half_even (|q| / pow2 (max (ilog2 |q| - ((p : Int) - 1)) emin)),
      max (ilog2 |q| - ((p : Int) - 1)) emin, ?_, ?_⟩
    · apply round_half_even_le _ (div_nonneg habs.le (pow2_pos _).le)
      rw [div_lt_iff₀ (pow2_pos _)]
      have hu := ilog2_upper |q| habs
      have hmono : pow2 (ilog2 |q| - ((p : Int) - 1)) ≤
          pow2 (max (ilog2 |q| - ((p : Int) - 1)) emin) := by
        rw [pow2_eq_zpow, pow2_eq_zpow]
        exact zpow_le_zpow_right₀ (by norm_num) (le_max_left _ _)
      have hsplit : ((2 ^ p : Nat) : ℚ) * pow2 (ilog2 |q| - ((p : Int) - 1)) =
          pow2 (ilog2 |q| + 1) := by
        rw [pow2_eq_zpow, pow2_eq_zpow, Nat.cast_pow, Nat.cast_ofNat, ← zpow_natCast,
          ← zpow_add₀ (by norm_num : (2 : ℚ) ≠ 0)]
        congr 1
        ring
      calc |q| < pow2 (ilog2 |q| + 1) := hu
        _ = ((2 ^ p : Nat) : ℚ) * pow2 (ilog2 |q| - ((p : Int) - 1)) := hsplit.symm
        _ ≤ _ := mul_le_mul_of_nonneg_left hmono (by positivity)
    · have hs : |(if q < 0 then (-1 : ℚ) else 1)| = 1 := by
        split_ifs <;> simp
      rw [abs_mul, abs_mul, hs, one_mul, Nat.abs_cast, abs_of_pos (pow2_pos _), pow2_eq_zpow]


theorem binary64_TOL : binary64 TOL = 7378697629483821 / 73786976294838206464 := by
  decide!

/-- No `float` lies strictly between 13743895 / 2^37 and 13743896 / 2^37, the two
neighbours of `1e-4`. -/
theorem binary32_gap (m : Nat) (e : Int) (hm : m ≤ 2 ^ 24) :
    (m : ℚ) * (2 : ℚ) ^ e ≤ 13743895 / 137438953472 ∨
      13743896 / 137438953472 ≤ (m : ℚ) * (2 : ℚ) ^ e := by
  by_cases he : -37 ≤ e
  · obtain ⟨j, hj⟩ := Int.eq_ofNat_of_zero_le (show 0 ≤ e + 37 by omega)
    have e1 : e = (j : Int) + (-37) := by omega
    have hval : (m : ℚ) * (2 : ℚ) ^ e = ((m * 2 ^ j : Nat) : ℚ) / 137438953472 := by
      rw [e1, zpow_add₀ (by norm_num : (2 : ℚ) ≠ 0), zpow_natCast]
      push_cast
      norm_num
      ring
    rw [hval]
    rcases Nat.lt_or_ge (m * 2 ^ j) 13743896 with h | h
    · left
      have h' : m * 2 ^ j ≤ 13743895 := by omega
      have : ((m * 2 ^ j : Nat) : ℚ) ≤ 13743895 := by exact_mod_cast h'
      exact div_le_div_of_nonneg_right this (by norm_num)
    · right
      have : (13743896 : ℚ) ≤ ((m * 2 ^ j : Nat) : ℚ) := by exact_mod_cast h
      exact div_le_div_of_nonneg_right this (by norm_num)
  · left
    have hle : (2 : ℚ) ^ e ≤ (2 : ℚ) ^ (-38 : Int) :=
      zpow_le_zpow_right₀ (by norm_num) (by omega)
    have hm' : (m : ℚ) ≤ 16777216 := by exact_mod_cast hm
    calc (m : ℚ) * (2 : ℚ) ^ e ≤ 16777216 * (2 : ℚ) ^ (-38 : Int) :=
          mul_le_mul hm' hle (by positivity) (by norm_num)
      _ ≤ 13743895 / 137438953472 := by norm_num

/-- On a `float`, the test `< TOL` with the `double` constant `TOL` of the program and
the test `≤ 1e-4` with the real number agree. -/
theorem binary32_lt_TOL_iff (q : ℚ) : |binary32 q| < binary64 TOL ↔ |binary32 q| ≤ TOL := by
  obtain ⟨m, e, hm, hf⟩ := round_nearest_form 24 (-149) q
  have hf' : |binary32 q| = (m : ℚ) * (2 : ℚ) ^ e := hf
  rw [binary64_TOL, hf']
  have hT : TOL = 1 / 10000 := rfl
  rw [hT]
  rcases binary32_gap m e hm with h | h
  · constructor
    · intro _
      exact le_trans h (by norm_num)
    · intro _
      exact lt_of_le_of_lt h (by norm_num)
  · constructor
    · intro h1
      exact absurd (lt_of_le_of_lt h h1) (by norm_num)
    · intro h1
      exact absurd (le_trans h h1) (by norm_num)

theorem round_nearest_zero (p : Nat) (emin : Int) : round_nearest p emin 0 = 0 := by
  unfold round_nearest
  rw [if_pos rfl]

/-! ## The host loop of `tpcuda.c` in `float` arithmetic -/

theorem float_host_step (sums : List Point) (counts : List Nat) (i : Nat) (cs : List Point)
    (mc : ℚ) :
    Binary32.host_finalize_step sums counts i (cs, mc) =
      if 0 < counts.getD i 0 then
        (cs.set i (Binary32.finalized sums counts cs i),
          max (max mc |binary32 ((Binary32.finalized sums counts cs i).x -
              (cs.getD i default).x)|)
            |binary32 ((Binary32.finalized sums counts cs i).y - (cs.getD i default).y)|)
      else (cs, mc) := by
  unfold Binary32.host_finalize_step Binary32.finalized
  by_cases h : 0 < counts.getD i 0
  · simp only [gt_iff_lt, h, if_true]
  · simp only [gt_iff_lt, h, if_false]

theorem float_finalized_congr (sums : List Point) (counts : List Nat) (cs cs1 : List Point)
    (i : Nat) (h : cs1.getD i default = cs.getD i default) :
    Binary32.finalized sums counts cs1 i = Binary32.finalized sums counts cs i := by
  unfold Binary32.finalized
  rw [h]

/-- The host loop in `float` arithmetic after the first `m ≤ length` clusters: the first
`m` centroids are final, the others untouched, and `max_change` is below a bound exactly
when the bound is positive and every computed coordinate move of the first `m` centroids
is below it. -/
theorem float_host_finalize_upto (sums : List Point) (counts : List Nat) (cs : List Point) :
    ∀ m : Nat, m ≤ cs.length → ∃ (cs' : List Point) (mc : ℚ),
      (List.range m).foldl (fun st i => Binary32.host_finalize_step sums counts i st) (cs, 0) =
        (cs', mc) ∧
      cs'.length = cs.length ∧
      (∀ c < cs.length, cs'.getD c default =
        if c < m then Binary32.finalized sums counts cs c else cs.getD c default) ∧
      ∀ t : ℚ, mc < t ↔ 0 < t ∧ ∀ i < m,
        |binary32 ((Binary32.finalized sums counts cs i).x - (cs.getD i default).x)| < t ∧
        |binary32 ((Binary32.finalized sums counts cs i).y - (cs.getD i default).y)| < t := by
  intro m
  induction m with
  | zero =>
    intro _
    refine ⟨cs, 0, rfl, rfl, fun c _ => by simp, fun t => ?_⟩
    constructor
    · intro h; exact ⟨h, fun i hi => absurd hi (Nat.not_lt_zero i)⟩
    · intro h; exact h.1
  | succ m ih =>
    intro hm
    obtain ⟨cs1, mc1, h1, h2, h3, h4⟩ := ih (by omega)
    simp only [List.range_succ, List.foldl_append, List.foldl_cons, List.foldl_nil, h1]
    rw [float_host_step]
    have hmlen : m < cs.length := by omega
    have hold : cs1.getD m default = cs.getD m default := by
      rw [h3 m hmlen, if_neg (Nat.lt_irrefl m)]
    have hfin : Binary32.finalized sums counts cs1 m = Binary32.finalized sums counts cs m :=
      float_finalized_congr _ _ _ _ _ hold
    by_cases hpos : 0 < counts.getD m 0
    · rw [if_pos hpos, hfin, hold]
      refine ⟨_, _, rfl, by simp [h2], fun c hc => ?_, fun t => ?_⟩
      · rw [getD_set, h2]
        by_cases hmc : m = c
        · subst hmc
          rw [if_pos ⟨rfl, hmlen⟩, if_pos (Nat.lt_succ_self m)]
        · have hiff : c < m + 1 ↔ c < m := by omega
          rw [if_neg (fun hh => hmc hh.1), h3 c hc]
          simp only [hiff]
      · rw [max_lt_iff, max_lt_iff, h4 t]
        constructor
        · rintro ⟨⟨⟨ht, hall⟩, hx⟩, hy⟩
          refine ⟨ht, fun i hi => ?_⟩
          rcases Nat.lt_succ_iff_lt_or_eq.1 hi with h | h
          · exact hall i h
          · subst h; exact ⟨hx, hy⟩
        · rintro ⟨ht, hall⟩
          exact ⟨⟨⟨ht, fun i hi => hall i (by omega)⟩, (hall m (by omega)).1⟩,
            (hall m (by omega)).2⟩
    · rw [if_neg hpos]
      refine ⟨cs1, mc1, rfl, h2, fun c hc => ?_, fun t => ?_⟩
      · rw [h3 c hc]
        by_cases hmc : c = m
        · subst hmc
          rw [if_neg (Nat.lt_irrefl c), if_pos (Nat.lt_succ_self c)]
          unfold Binary32.finalized
          rw [if_neg hpos]
        · have hiff : c < m + 1 ↔ c < m := by omega
          simp only [hiff]
      · rw [h4 t]
        have hz : Binary32.finalized sums counts cs m = cs.getD m default := by
          unfold Binary32.finalized
          rw [if_neg hpos]
        have hb : binary32 0 = 0 := round_nearest_zero 24 (-149)
        constructor
        · rintro ⟨ht, hall⟩
          refine ⟨ht, fun i hi => ?_⟩
          rcases Nat.lt_succ_iff_lt_or_eq.1 hi with h | h
          · exact hall i h
          · subst h
            rw [hz, sub_self, sub_self, hb, abs_zero]
            exact ⟨ht, ht⟩
        · rintro ⟨ht, hall⟩
          exact ⟨ht, fun i hi => hall i (by omega)⟩

/-- The sums (500, 0) and the count 5000000 of 5000000 points at (1e-4, 0), with the
centroid at (0, 0): the `float` quotient is 13743895 / 2^37 = 9.99999975e-05, below the
`double` constant `TOL`, so the loop breaks. -/
theorem float_host_finalize_example :
    Binary32.host_finalize [⟨500, 0⟩] [5000000] [⟨0, 0⟩] 1 =
      ([⟨13743895 / 137438953472, 0⟩], 13743895 / 137438953472) ∧
    Binary32.breaks (Binary32.host_finalize [⟨500, 0⟩] [5000000] [⟨0, 0⟩] 1).2 = true := by
  decide!

/-! ## Theorems for the claims -/

/-- C1: sequential `assign_clusters` leaves `data` and `centroids` unchanged and, for
arrays `data` and `clusters` of length `n`, `k ≥ 1` centroids and every `i < n`, writes into `clusters[i]` an
index below `k` whose centroid is at minimal Euclidean distance from `data[i]` among the
`k` centroids, every smaller index being at strictly greater distance (argmin, ties to
the lowest index). -/
theorem C1_assign_clusters_argmin (s : State) (n k i : Nat) (_hdata : s.data.length = n)
    (_hcen : s.centroids.length = k) (hcl : s.clusters.length = n) (hk : 1 ≤ k) (hi : i < n) :
    (assign_clusters s n k).data = s.data ∧
    (assign_clusters s n k).centroids = s.centroids ∧
    (assign_clusters s n k).clusters.getD i 0 < k ∧
    (∀ j < k,
      Real.sqrt ((euclidean_distance (s.data.getD i default)
          (s.centroids.getD ((assign_clusters s n k).clusters.getD i 0) default)).radicand : ℝ) ≤
        Real.sqrt ((euclidean_distance (s.data.getD i default)
          (s.centroids.getD j default)).radicand : ℝ)) ∧
    (∀ j < (assign_clusters s n k).clusters.getD i 0,
      Real.sqrt ((euclidean_distance (s.data.getD i default)
          (s.centroids.getD ((assign_clusters s n k).clusters.getD i 0) default)).radicand : ℝ) <
        Real.sqrt ((euclidean_distance (s.data.getD i default)
          (s.centroids.getD j default)).radicand : ℝ)) := by
  rw [assign_clusters_getD s n k i hcl hi]
  obtain ⟨h1, h2, h3⟩ := assign_scan_spec (s.data.getD i default) s.centroids k hk
  refine ⟨rfl, rfl, h1, fun j hj => sqrt_le_of_radicand_le (h2 j hj), fun j hj => ?_⟩
  exact sqrt_lt_of_radicand_lt (euclidean_distance_radicand_nonneg _ _) (h3 j hj)

/-- Witness for C1 on the four points of the concrete scenario, at point index 2. -/
theorem C1_assign_clusters_argmin_witness :
    (assign_clusters ⟨[⟨0, 0⟩, ⟨0, 1⟩, ⟨10, 10⟩, ⟨10, 11⟩], [⟨0, 0⟩, ⟨10, 10⟩], [0, 0, 0, 0]⟩
      4 2).clusters.getD 2 0 < 2 :=
  (C1_assign_clusters_argmin
    ⟨[⟨0, 0⟩, ⟨0, 1⟩, ⟨10, 10⟩, ⟨10, 11⟩], [⟨0, 0⟩, ⟨10, 10⟩], [0, 0, 0, 0]⟩ 4 2 2 rfl rfl rfl
    (by decide) (by decide)).2.2.1

/-- C2: sequential `update_centroids`, for an assignment with all entries in `[0, k)` and
`k` centroids, performs no division by a zero count (it returns `some`), leaves `data`
and `clusters` unchanged, and for every cluster `c < k` sets `centroids[c]` to
(sum of x / count, sum of y / count) of the points assigned to `c` when there is at
least one, and leaves `centroids[c]` unchanged when there is none. -/
theorem C2_update_centroids_means (s : State) (n k : Nat) (hcen : s.centroids.length = k)
    (_hrange : ∀ i < n, s.clusters.getD i 0 < k) :
    ∃ s' : State,
      update_centroids s n k = some s' ∧ s'.data = s.data ∧ s'.clusters = s.clusters ∧
      s'.centroids.length = k ∧
      ∀ c < k,
        (0 < cluster_count s.clusters n c →
          s'.centroids.getD c default =
            ⟨cluster_sum_x s.data s.clusters n c / (cluster_count s.clusters n c : ℚ),
              cluster_sum_y s.data s.clusters n c / (cluster_count s.clusters n c : ℚ)⟩) ∧
        (cluster_count s.clusters n c = 0 →
          s'.centroids.getD c default = s.centroids.getD c default) := by
  obtain ⟨cs', h1, h2, h3⟩ := update_centroids_spec s n k hcen
  refine ⟨{ s with centroids := cs' }, h1, rfl, rfl, h2, fun c hc => ?_⟩
  obtain ⟨a1, a2⟩ := accumulate_spec s.data s.clusters n k c hc
  have h := h3 c hc
  unfold finalized at h
  rw [a1, a2] at h
  constructor
  · intro hpos
    show cs'.getD c default = _
    rw [h, if_pos hpos]
  · intro hzero
    show cs'.getD c default = _
    rw [h, if_neg (by omega)]

/-- Witness for C2: the four points of the concrete scenario with assignment `[0,0,1,1]`. -/
theorem C2_update_centroids_means_witness :
    ∃ s' : State,
      update_centroids
        ⟨[⟨0, 0⟩, ⟨0, 1⟩, ⟨10, 10⟩, ⟨10, 11⟩], [⟨0, 0⟩, ⟨10, 10⟩], [0, 0, 1, 1]⟩ 4 2 = some s' ∧
      s'.centroids.length = 2 :=
  let ⟨s', h1, _, _, h4, _⟩ :=
    C2_update_centroids_means
      ⟨[⟨0, 0⟩, ⟨0, 1⟩, ⟨10, 10⟩, ⟨10, 11⟩], [⟨0, 0⟩, ⟨10, 10⟩], [0, 0, 1, 1]⟩ 4 2 rfl
      (by decide)
  ⟨s', h1, h4⟩

/-- C3 (the code at the failing input): thread-pool `main` with `n = 2`, `k = 2`, points
(0,0), (1,0) and centroids (0,0), (10,10). Both points go to cluster 0, so cluster 1 gets
no point; after the reset and the merges its centroid is (0,0), not the (10,10) it had,
and its count is 0; the unguarded division loop then divides by that zero count. -/
theorem C3_thread_pool_divides_by_zero_count :
    (assign_phase ⟨2, 2, [⟨0, 0⟩, ⟨1, 0⟩], [⟨0, 0⟩, ⟨10, 10⟩], [0, 0], [0, 0]⟩).clusters =
      [0, 0] ∧
    update_phase (reset (assign_phase
        ⟨2, 2, [⟨0, 0⟩, ⟨1, 0⟩], [⟨0, 0⟩, ⟨10, 10⟩], [0, 0], [0, 0]⟩)) =
      some ⟨2, 2, [⟨0, 0⟩, ⟨1, 0⟩], [⟨1, 0⟩, ⟨0, 0⟩], [0, 0], [2, 0]⟩ ∧
    row_div ⟨0, 0⟩ 0 = none ∧
    divide ⟨2, 2, [⟨0, 0⟩, ⟨1, 0⟩], [⟨1, 0⟩, ⟨0, 0⟩], [0, 0], [2, 0]⟩ = none ∧
    main_iteration ⟨2, 2, [⟨0, 0⟩, ⟨1, 0⟩], [⟨0, 0⟩, ⟨10, 10⟩], [0, 0], [0, 0]⟩ = none := by
  decide!

/-- C4 (the code at the failing input): thread-pool `assign_points` with `n = 1`,
`k = 1`, the point (1e308, 0) and the centroid (-1e308, 0). The distance 2e308 is not
below `DBL_MAX`, so `best_cluster` keeps its initial value and `clusters[0]` is `-1`; the
local pass of `update_centroids` then indexes `local_sums` out of bounds. -/
theorem C4_assign_points_leaves_sentinel :
    (assign_points
        ⟨1, 1, [⟨((10 ^ 308 : Nat) : ℚ), 0⟩], [⟨-((10 ^ 308 : Nat) : ℚ), 0⟩], [0], [0, 0]⟩
        (chunk_start 1 1) (chunk_end 1 1)).clusters = [-1] ∧
    (assign_phase
        ⟨1, 1, [⟨((10 ^ 308 : Nat) : ℚ), 0⟩], [⟨-((10 ^ 308 : Nat) : ℚ), 0⟩], [0],
          [0, 0]⟩).clusters = [-1] ∧
    update_phase (reset (assign_phase
        ⟨1, 1, [⟨((10 ^ 308 : Nat) : ℚ), 0⟩], [⟨-((10 ^ 308 : Nat) : ℚ), 0⟩], [0],
          [0, 0]⟩)) = none := by
  decide!

/-- C5: the convergence loop of sequential `k_means` leaves `converged` true if and only
if for every cluster index `i < k` the Euclidean distance between `old_centroids[i]` and
`centroids[i]` is at most `TOL = 1e-4`; the `break` does not change the result. -/
theorem C5_converged_iff (old cur : List Point) (k : Nat) :
    converged old cur k = true ↔
      ∀ i < k,
        Real.sqrt ((euclidean_distance (old.getD i default) (cur.getD i default)).radicand : ℝ)
          ≤ ((TOL : ℚ) : ℝ) := by
  unfold converged
  rw [converged_from_iff]
  constructor
  · intro h i hi
    have := h i (Nat.zero_le i) (by omega)
    rw [show euclidean_distance (old.getD i default) (cur.getD i default) =
      SqrtQ.sqrt (euclidean_distance (old.getD i default) (cur.getD i default)).radicand from rfl,
      TOL_lt_iff] at this
    exact not_lt.1 this
  · intro h j _ hj
    rw [show euclidean_distance (old.getD j default) (cur.getD j default) =
      SqrtQ.sqrt (euclidean_distance (old.getD j default) (cur.getD j default)).radicand from rfl,
      TOL_lt_iff]
    exact not_lt.2 (h j (by omega))

/-- C6: the host loop of data-parallel `main` in `float` arithmetic, on `k` centroids.
The test `max_change < TOL` signals convergence (the loop breaks) if and only if for every
cluster index both per-coordinate absolute differences between the old and the new
centroid, as the program computes them, are at most `1e-4`. (`max_change` is a `float`
and `TOL` the `double` nearest to `1e-4`, which no `float` equals: on the values the
program can hold, `< TOL` and `≤ 1e-4` are the same test.) -/
theorem C6_break_iff_all_moves_at_most_TOL (sums : List Point) (counts : List Nat)
    (centroids : List Point) (k : Nat) (hcen : centroids.length = k) :
    Binary32.breaks (Binary32.host_finalize sums counts centroids k).2 = true ↔
      ∀ i < k,
        |binary32 (((Binary32.host_finalize sums counts centroids k).1.getD i default).x -
          (centroids.getD i default).x)| ≤ TOL ∧
        |binary32 (((Binary32.host_finalize sums counts centroids k).1.getD i default).y -
          (centroids.getD i default).y)| ≤ TOL := by
  obtain ⟨cs', mc, h1, -, h3, h4⟩ :=
    float_host_finalize_upto sums counts centroids k (by omega)
  have hfold : Binary32.host_finalize sums counts centroids k = (cs', mc) := h1
  rw [hfold]
  unfold Binary32.breaks
  rw [decide_eq_true_iff, h4 (binary64 TOL)]
  have hT : (0 : ℚ) < binary64 TOL := by
    rw [binary64_TOL]
    norm_num
  constructor
  · rintro ⟨-, hall⟩ i hi
    rw [h3 i (by omega), if_pos hi]
    exact ⟨(binary32_lt_TOL_iff _).1 (hall i hi).1, (binary32_lt_TOL_iff _).1 (hall i hi).2⟩
  · intro hall
    refine ⟨hT, fun i hi => ?_⟩
    have h := hall i hi
    rw [h3 i (by omega), if_pos hi] at h
    exact ⟨(binary32_lt_TOL_iff _).2 h.1, (binary32_lt_TOL_iff _).2 h.2⟩

/-- Witness for C6: the sums (500, 0) and the count 5000000 of 5000000 points at
(1e-4, 0), with the centroid at (0, 0). -/
theorem C6_break_iff_all_moves_at_most_TOL_witness :
    Binary32.breaks (Binary32.host_finalize [⟨500, 0⟩] [5000000] [⟨0, 0⟩] 1).2 = true ↔
      ∀ i < 1,
        |binary32 (((Binary32.host_finalize [⟨500, 0⟩] [5000000] [⟨0, 0⟩] 1).1.getD i
          default).x - (([⟨0, 0⟩] : List Point).getD i default).x)| ≤ TOL ∧
        |binary32 (((Binary32.host_finalize [⟨500, 0⟩] [5000000] [⟨0, 0⟩] 1).1.getD i
          default).y - (([⟨0, 0⟩] : List Point).getD i default).y)| ≤ TOL :=
  C6_break_iff_all_moves_at_most_TOL [⟨500, 0⟩] [5000000] [⟨0, 0⟩] 1 rfl

/-- C7 (the claim as stated fails): with `k = 1`, old centroid (0, 0) and new centroid
(8e-5, 8e-5), the Euclidean distance is above `1e-4`, so the sequential test says not
converged, while both coordinates moved by less than `1e-4` and the thread-pool
`check_convergence` returns 1. -/
theorem C7_counterexample :
    converged [⟨0, 0⟩] [⟨8 / 100000, 8 / 100000⟩] 1 = false ∧
    check_convergence
      ⟨1, 1, [⟨0, 0⟩], [⟨8 / 100000, 8 / 100000⟩], [0], [0, 0]⟩ [⟨0, 0⟩] = 1 := by
  decide!

/-- C7 (amended): whenever the sequential Euclidean-distance test on the old and new
centroids says converged, the thread-pool `check_convergence` on the same old and new
centroids returns 1. -/
theorem C7_euclidean_test_implies_check_convergence (g : Globals) (old_centroids : List Point)
    (h : converged old_centroids g.centroids g.k = true) :
    check_convergence g old_centroids = 1 := by
  unfold check_convergence
  unfold converged at h
  rw [converged_from_iff] at h
  rw [check_convergence_from_iff]
  intro j h1 h2 l hl
  have hj := h j h1 h2
  have hT : (0 : ℚ) ≤ TOL := by unfold TOL; norm_num
  obtain ⟨hx, hy⟩ := abs_le_of_sq_sum_le _ _ TOL hT hj
  have hTOL : (1 / 10000 : ℚ) = TOL := rfl
  rw [hTOL]
  unfold d at hl
  have hl2 : l = 0 ∨ l = 1 := by omega
  rcases hl2 with e | e
  · subst e
    rw [abs_sub_comm]
    exact hx
  · subst e
    rw [abs_sub_comm]
    exact hy

/-- Witness for C7 (amended): unchanged centroids pass both tests. -/
theorem C7_euclidean_test_implies_check_convergence_witness :
    check_convergence ⟨1, 1, [⟨0, 0⟩], [⟨3, 4⟩], [0], [0, 0]⟩ [⟨3, 4⟩] = 1 :=
  C7_euclidean_test_implies_check_convergence
    ⟨1, 1, [⟨0, 0⟩], [⟨3, 4⟩], [0], [0, 0]⟩ [⟨3, 4⟩] (by decide!)

/-- C8: sequential `k_means` on `k ≥ 1` centroids always ends with an outcome and a
centroid sequence of length `k`. Outcome `CONVERGED t` has `1 ≤ t ≤ 100`, the test of
pass `t` true, the tests of all earlier passes false, and the memory is the one after `t`
passes; outcome `MAX_ITERS_REACHED` comes with the tests of all 100 passes false and the
memory after exactly 100 passes. -/
theorem C8_k_means_terminates (s : State) (n k : Nat) (_hk : 1 ≤ k)
    (hcen : s.centroids.length = k) :
    ∃ (out : Outcome) (s' : State),
      k_means s n k = some (out, s') ∧ s'.centroids.length = k ∧
      match out with
      | Outcome.CONVERGED t =>
        1 ≤ t ∧ t ≤ 100 ∧
        pass_flag (after_passes n k (t - 1) s) n k = true ∧
        (∀ u < t - 1, pass_flag (after_passes n k u s) n k = false) ∧
        s' = after_passes n k t s
      | Outcome.MAX_ITERS_REACHED =>
        (∀ u < 100, pass_flag (after_passes n k u s) n k = false) ∧
        s' = after_passes n k 100 s := by
  obtain ⟨out, s', h1, h2⟩ := k_means_from_spec n k MAX_ITERS 0 s
  refine ⟨out, s', h1, ?_, ?_⟩
  · cases out with
    | CONVERGED t =>
      rw [h2.2.2.2.2]
      exact after_passes_centroids_length n k _ s hcen
    | MAX_ITERS_REACHED =>
      rw [h2.2]
      exact after_passes_centroids_length n k _ s hcen
  · cases out with
    | CONVERGED t =>
      obtain ⟨a1, a2, a3, a4, a5⟩ := h2
      exact ⟨a1, by simpa [MAX_ITERS] using a2, a3, a4, a5⟩
    | MAX_ITERS_REACHED => exact h2

/-- Witness for C8: the concrete scenario ends with an outcome and two centroids. -/
theorem C8_k_means_terminates_witness :
    ∃ (out : Outcome) (s' : State),
      k_means ⟨[⟨0, 0⟩, ⟨0, 1⟩, ⟨10, 10⟩, ⟨10, 11⟩], [⟨0, 0⟩, ⟨10, 10⟩], [0, 0, 0, 0]⟩ 4 2 =
        some (out, s') ∧ s'.centroids.length = 2 :=
  let ⟨out, s', h1, h2, _⟩ :=
    C8_k_means_terminates
      ⟨[⟨0, 0⟩, ⟨0, 1⟩, ⟨10, 10⟩, ⟨10, 11⟩], [⟨0, 0⟩, ⟨10, 10⟩], [0, 0, 0, 0]⟩ 4 2
      (by decide) rfl
  ⟨out, s', h1, h2⟩

/-- C9 (code defect): the loop of the thread-pool `main` is `while (!converged)`; it has
no iteration counter and lacks the bound `iter < MAX_ITERS` that the loops of
`tpSequentiel.c` and `tpcuda.c` have. On the slow input (183 sorted points on a line,
`k = 2`) it is still running after 100 iterations, with 103 of the points in cluster 0
and neither count zero, no iteration having divided by a zero count; it stops only at
iteration 104. -/
theorem C9_thread_pool_loop_exceeds_100_iterations :
    main_loop 100 0 slow_input = Run.still_running (split_state slow_xs 140) ∧
    main_loop 104 0 slow_input = Run.stopped 104 (split_state slow_xs 143) := by
  constructor
  · rw [show (100 : Nat) = 99 + 1 from rfl, main_loop_succ, slow_first_iteration]
    simp only [ne_eq, not_true_eq_false, if_false]
    have h := main_loop_creeps slow_xs slow_xs_sorted 1000000 slow_bound slow_xs_bounded
      99 41 (0 + 1) 0 (by decide!) (creeps_from_le _ _ 102 99 41 (by decide) slow_creeps)
    exact h
  · rw [show (104 : Nat) = 103 + 1 from rfl, main_loop_succ, slow_first_iteration]
    simp only [ne_eq, not_true_eq_false, if_false]
    have h := main_loop_creeps slow_xs slow_xs_sorted 1000000 slow_bound slow_xs_bounded
      102 41 (0 + 1) 1 (by decide!) slow_creeps
    rw [show (103 : Nat) = 102 + 1 from rfl, h, main_loop_succ, slow_last_iteration]
    rfl

/-- C10: the concrete scenario on sequential `k_means`. With points (0,0), (0,1),
(10,10), (10,11), `k = 2` and initial centroids (0,0), (10,10): the first pass assigns
points 0, 1 to cluster 0 and points 2, 3 to cluster 1, yields centroids (0, 1/2) and
(10, 21/2), and its convergence test fails; the second pass gives the same assignment and
the same centroids, and its test succeeds; `k_means` reports convergence at iteration 2. -/
theorem C10_concrete_scenario :
    (assign_clusters
        ⟨[⟨0, 0⟩, ⟨0, 1⟩, ⟨10, 10⟩, ⟨10, 11⟩], [⟨0, 0⟩, ⟨10, 10⟩], [0, 0, 0, 0]⟩ 4 2).clusters =
      [0, 0, 1, 1] ∧
    k_means_pass ⟨[⟨0, 0⟩, ⟨0, 1⟩, ⟨10, 10⟩, ⟨10, 11⟩], [⟨0, 0⟩, ⟨10, 10⟩], [0, 0, 0, 0]⟩ 4 2 =
      some (⟨[⟨0, 0⟩, ⟨0, 1⟩, ⟨10, 10⟩, ⟨10, 11⟩], [⟨0, 1 / 2⟩, ⟨10, 21 / 2⟩], [0, 0, 1, 1]⟩,
        false) ∧
    k_means_pass
        ⟨[⟨0, 0⟩, ⟨0, 1⟩, ⟨10, 10⟩, ⟨10, 11⟩], [⟨0, 1 / 2⟩, ⟨10, 21 / 2⟩], [0, 0, 1, 1]⟩ 4 2 =
      some (⟨[⟨0, 0⟩, ⟨0, 1⟩, ⟨10, 10⟩, ⟨10, 11⟩], [⟨0, 1 / 2⟩, ⟨10, 21 / 2⟩], [0, 0, 1, 1]⟩,
        true) ∧
    k_means ⟨[⟨0, 0⟩, ⟨0, 1⟩, ⟨10, 10⟩, ⟨10, 11⟩], [⟨0, 0⟩, ⟨10, 10⟩], [0, 0, 0, 0]⟩ 4 2 =
      some (Outcome.CONVERGED 2,
        ⟨[⟨0, 0⟩, ⟨0, 1⟩, ⟨10, 10⟩, ⟨10, 11⟩], [⟨0, 1 / 2⟩, ⟨10, 21 / 2⟩], [0, 0, 1, 1]⟩) := by
  decide!

/-- C11 (the claim as stated fails): sequential `k_means` on the points (-1, 0), (1, 0),
(4.99999, 0), (15.00001, 0) with `k = 2` and initial centroids (-0.00005, 0), (10, 0)
stops with CONVERGED at iteration 1, leaving the centroids (0, 0) and (10, 0). One more
`assign_clusters` moves the third point to cluster 0, and `update_centroids` then yields
centroids (499999/300000, 0) and (1500001/100000, 0), each farther than `1e-4` from the
centroid it replaces. -/
theorem C11_counterexample :
    k_means
        ⟨[⟨-1, 0⟩, ⟨1, 0⟩, ⟨499999 / 100000, 0⟩, ⟨1500001 / 100000, 0⟩],
          [⟨-1 / 20000, 0⟩, ⟨10, 0⟩], [0, 0, 0, 0]⟩ 4 2 =
      some (Outcome.CONVERGED 1,
        ⟨[⟨-1, 0⟩, ⟨1, 0⟩, ⟨499999 / 100000, 0⟩, ⟨1500001 / 100000, 0⟩],
          [⟨0, 0⟩, ⟨10, 0⟩], [0, 0, 1, 1]⟩) ∧
    update_centroids
        (assign_clusters
          ⟨[⟨-1, 0⟩, ⟨1, 0⟩, ⟨499999 / 100000, 0⟩, ⟨1500001 / 100000, 0⟩],
            [⟨0, 0⟩, ⟨10, 0⟩], [0, 0, 1, 1]⟩ 4 2) 4 2 =
      some ⟨[⟨-1, 0⟩, ⟨1, 0⟩, ⟨499999 / 100000, 0⟩, ⟨1500001 / 100000, 0⟩],
        [⟨499999 / 300000, 0⟩, ⟨1500001 / 100000, 0⟩], [0, 0, 0, 1]⟩ ∧
    SqrtQ.ofRat TOL < euclidean_distance ⟨0, 0⟩ ⟨499999 / 300000, 0⟩ ∧
    SqrtQ.ofRat TOL < euclidean_distance ⟨10, 0⟩ ⟨1500001 / 100000, 0⟩ := by
  decide!

/-- C11 (amended): for every input on which sequential `k_means` stops with CONVERGED,
if one more `assign_clusters` on the resulting centroids gives the assignment `k_means`
left, then the following `update_centroids` divides by no zero count and yields exactly
the centroids it was given, so each is within Euclidean distance `1e-4` (indeed 0) of
the centroid it replaces. -/
theorem C11_fixed_point_when_assignment_stable (s s' : State) (n k t : Nat)
    (hcen : s.centroids.length = k)
    (hrun : k_means s n k = some (Outcome.CONVERGED t, s'))
    (hstable : (assign_clusters s' n k).clusters = s'.clusters) :
    ∃ s'' : State,
      update_centroids (assign_clusters s' n k) n k = some s'' ∧
      s''.centroids = s'.centroids ∧
      ∀ i < k,
        Real.sqrt ((euclidean_distance (s'.centroids.getD i default)
          (s''.centroids.getD i default)).radicand : ℝ) ≤ ((TOL : ℚ) : ℝ) := by
  obtain ⟨out, s1, h1, h2⟩ := k_means_from_spec n k MAX_ITERS 0 s
  have hk : k_means s n k = some (out, s1) := h1
  rw [hrun] at hk
  simp only [Option.some.injEq, Prod.mk.injEq] at hk
  obtain ⟨ho, hs⟩ := hk
  subst ho hs
  obtain ⟨a1, -, -, -, a5⟩ := h2
  have ht : t - 0 = (t - 1) + 1 := by omega
  rw [ht, after_passes_succ_last] at a5
  have hlen : (after_passes n k (t - 1) s).centroids.length = k :=
    after_passes_centroids_length n k _ s hcen
  rw [a5] at hstable ⊢
  refine ⟨_, update_after_pass_fixed _ n k hlen hstable, rfl, fun i _ => ?_⟩
  have hz : (euclidean_distance
      ((pass_state (after_passes n k (t - 1) s) n k).centroids.getD i default)
      ((assign_clusters (pass_state (after_passes n k (t - 1) s) n k) n k).centroids.getD i
        default)).radicand = 0 := by
    show (_ - _) ^ 2 + (_ - _) ^ 2 = (0 : ℚ)
    have e : (assign_clusters (pass_state (after_passes n k (t - 1) s) n k) n k).centroids =
        (pass_state (after_passes n k (t - 1) s) n k).centroids := rfl
    rw [e]
    simp
  rw [hz]
  have hT : (0 : ℚ) ≤ TOL := by unfold TOL; norm_num
  simp only [Rat.cast_zero, Real.sqrt_zero]
  exact_mod_cast hT

/-- Witness for C11 (amended): the concrete scenario, which converges at iteration 2
with a stable assignment. -/
theorem C11_fixed_point_when_assignment_stable_witness :
    ∃ s'' : State,
      update_centroids
        (assign_clusters
          ⟨[⟨0, 0⟩, ⟨0, 1⟩, ⟨10, 10⟩, ⟨10, 11⟩], [⟨0, 1 / 2⟩, ⟨10, 21 / 2⟩], [0, 0, 1, 1]⟩ 4 2)
        4 2 = some s'' ∧
      s''.centroids = [⟨0, 1 / 2⟩, ⟨10, 21 / 2⟩] :=
  let ⟨s'', h1, h2, _⟩ :=
    C11_fixed_point_when_assignment_stable
      ⟨[⟨0, 0⟩, ⟨0, 1⟩, ⟨10, 10⟩, ⟨10, 11⟩], [⟨0, 0⟩, ⟨10, 10⟩], [0, 0, 0, 0]⟩
      ⟨[⟨0, 0⟩, ⟨0, 1⟩, ⟨10, 10⟩, ⟨10, 11⟩], [⟨0, 1 / 2⟩, ⟨10, 21 / 2⟩], [0, 0, 1, 1]⟩
      4 2 2 rfl (by decide!) (by decide!)
  ⟨s'', h1, h2⟩

/-- C12 (the claim as stated fails): the stopping tests differ. On the points (-1, 0),
(1, 0), (4.99999, 0), (15.00001, 0) with `k = 2` and initial centroids
(-0.00008, -0.00008), (10, 0), the first iteration moves centroid 0 to (0, 0): by 0.00008
on each coordinate, by more than `1e-4` in Euclidean distance. The loop of the
thread-pool `main` stops after 1 iteration with the centroids (0, 0) and (10, 0);
sequential `k_means` goes on and reports CONVERGED at iteration 3 with the centroids
(499999/300000, 0) and (15.00001, 0). -/
theorem C12_counterexample :
    k_means
        ⟨[⟨-1, 0⟩, ⟨1, 0⟩, ⟨499999 / 100000, 0⟩, ⟨1500001 / 100000, 0⟩],
          [⟨-8 / 100000, -8 / 100000⟩, ⟨10, 0⟩], [0, 0, 0, 0]⟩ 4 2 =
      some (Outcome.CONVERGED 3,
        ⟨[⟨-1, 0⟩, ⟨1, 0⟩, ⟨499999 / 100000, 0⟩, ⟨1500001 / 100000, 0⟩],
          [⟨499999 / 300000, 0⟩, ⟨1500001 / 100000, 0⟩], [0, 0, 0, 1]⟩) ∧
    main_loop 100 0
        ⟨4, 2, [⟨-1, 0⟩, ⟨1, 0⟩, ⟨499999 / 100000, 0⟩, ⟨1500001 / 100000, 0⟩],
          [⟨-8 / 100000, -8 / 100000⟩, ⟨10, 0⟩], [0, 0, 0, 0], [0, 0]⟩ =
      Run.stopped 1
        ⟨4, 2, [⟨-1, 0⟩, ⟨1, 0⟩, ⟨499999 / 100000, 0⟩, ⟨1500001 / 100000, 0⟩],
          [⟨0, 0⟩, ⟨10, 0⟩], [0, 0, 1, 1], [2, 2]⟩ := by
  decide!

/-- C12 (amended): in exact arithmetic, for `1 ≤ k ≤ NB_CLUSTERS = 2`, the same points
and the same initial centroids, `t` executions of the body of the sequential `k_means`
loop, of the thread-pool `main` loop and of the data-parallel `main` loop all succeed and
leave the same centroid sequence, the data-parallel loop the same assignment as the
sequential one and, once `t ≥ 1`, the thread-pool loop that assignment too, provided
that at each of these iterations every point is at a distance below `DBL_MAX` from the
first centroid and the assignment leaves no cluster empty. The stopping tests of the
three loops are not compared. -/
theorem C12_loop_bodies_agree (n k t : Nat) (data cen : List Point) (mem : List Nat)
    (memI : List Int) (pp : List Nat) (sums : List Point) (counts : List Nat)
    (hk1 : 1 ≤ k) (hk : k ≤ NB_CLUSTERS) (hcen : cen.length = k) (hmem : mem.length = n)
    (hmemI : memI.length = n) (hpp : k ≤ pp.length)
    (hgood : ∀ j < t,
      (∀ i < n,
        euclidean_distance (data.getD i default)
          ((after_passes n k j ⟨data, cen, mem⟩).centroids.getD 0 default) <
          SqrtQ.ofRat DBL_MAX) ∧
      ∀ c < k,
        cluster_count (assign_clusters (after_passes n k j ⟨data, cen, mem⟩) n k).clusters
          n c ≠ 0) :
    ∃ (g' : Globals) (m' : Device),
      after_iterations t ⟨n, k, data, cen, memI, pp⟩ = some g' ∧
      cuda_after_iterations n k t ⟨data, cen, mem, sums, counts⟩ = some m' ∧
      g'.centroids = (after_passes n k t ⟨data, cen, mem⟩).centroids ∧
      m'.centroids = (after_passes n k t ⟨data, cen, mem⟩).centroids ∧
      m'.clusters = (after_passes n k t ⟨data, cen, mem⟩).clusters ∧
      (0 < t →
        g'.clusters = (after_passes n k t ⟨data, cen, mem⟩).clusters.map Int.ofNat) := by
  obtain ⟨cs', cl', clI, pp', sums', counts', r1, r2, r3, r4⟩ :=
    iterations_agree n k data hk1 hk t cen mem memI pp sums counts hcen hmem hmemI hpp hgood
  refine ⟨_, _, r2, r3, ?_, ?_, ?_, fun ht => ?_⟩
  · rw [r1]
  · rw [r1]
  · rw [r1]
  · rw [r1]
    exact r4 (Or.inr ht)

/-- Witness for C12 (amended): three iterations on the points (-1, 0), (1, 0),
(4.99999, 0), (15.00001, 0) from the centroids (-0.00008, -0.00008) and (10, 0). -/
theorem C12_loop_bodies_agree_witness :
    ∃ (g' : Globals) (m' : Device),
      after_iterations 3
          ⟨4, 2, [⟨-1, 0⟩, ⟨1, 0⟩, ⟨499999 / 100000, 0⟩, ⟨1500001 / 100000, 0⟩],
            [⟨-8 / 100000, -8 / 100000⟩, ⟨10, 0⟩], [0, 0, 0, 0], [0, 0]⟩ = some g' ∧
      cuda_after_iterations 4 2 3
          ⟨[⟨-1, 0⟩, ⟨1, 0⟩, ⟨499999 / 100000, 0⟩, ⟨1500001 / 100000, 0⟩],
            [⟨-8 / 100000, -8 / 100000⟩, ⟨10, 0⟩], [0, 0, 0, 0], [], []⟩ = some m' ∧
      g'.centroids =
        (after_passes 4 2 3
          ⟨[⟨-1, 0⟩, ⟨1, 0⟩, ⟨499999 / 100000, 0⟩, ⟨1500001 / 100000, 0⟩],
            [⟨-8 / 100000, -8 / 100000⟩, ⟨10, 0⟩], [0, 0, 0, 0]⟩).centroids ∧
      m'.centroids =
        (after_passes 4 2 3
          ⟨[⟨-1, 0⟩, ⟨1, 0⟩, ⟨499999 / 100000, 0⟩, ⟨1500001 / 100000, 0⟩],
            [⟨-8 / 100000, -8 / 100000⟩, ⟨10, 0⟩], [0, 0, 0, 0]⟩).centroids ∧
      m'.clusters =
        (after_passes 4 2 3
          ⟨[⟨-1, 0⟩, ⟨1, 0⟩, ⟨499999 / 100000, 0⟩, ⟨1500001 / 100000, 0⟩],
            [⟨-8 / 100000, -8 / 100000⟩, ⟨10, 0⟩], [0, 0, 0, 0]⟩).clusters ∧
      (0 < 3 →
        g'.clusters =
          (after_passes 4 2 3
            ⟨[⟨-1, 0⟩, ⟨1, 0⟩, ⟨499999 / 100000, 0⟩, ⟨1500001 / 100000, 0⟩],
              [⟨-8 / 100000, -8 / 100000⟩, ⟨10, 0⟩], [0, 0, 0, 0]⟩).clusters.map Int.ofNat) :=
  C12_loop_bodies_agree 4 2 3
    [⟨-1, 0⟩, ⟨1, 0⟩, ⟨499999 / 100000, 0⟩, ⟨1500001 / 100000, 0⟩]
    [⟨-8 / 100000, -8 / 100000⟩, ⟨10, 0⟩] [0, 0, 0, 0] [0, 0, 0, 0] [0, 0] [] []
    (by decide) (by decide) rfl rfl rfl (by decide) (by decide!)

/-- C13 (the claim as stated fails): the local arrays of a worker have `NB_CLUSTERS = 2`
entries. With `k = 3`, one point (1, 1) assigned to cluster 2 and the ranges of `main`,
which split `[0, 1)`, the worker indexes `local_sums` out of bounds, while the
sequential accumulation puts (1, 1) and the count 1 in cluster 2. -/
theorem C13_counterexample :
    is_split 1 (main_chunks 1) ∧
    update_phase_chunks
        (reset ⟨1, 3, [⟨1, 1⟩], [⟨0, 0⟩, ⟨0, 0⟩, ⟨0, 0⟩], [2], [0, 0]⟩) (main_chunks 1) =
      none ∧
    (accumulate [⟨1, 1⟩] [2] 1 3).sums.getD 2 default = ⟨1, 1⟩ ∧
    (accumulate [⟨1, 1⟩] [2] 1 3).counts.getD 2 0 = 1 :=
  ⟨main_chunks_split 1, by decide!, by decide!, by decide!⟩

/-- C13 (amended): in exact arithmetic, for `k ≤ NB_CLUSTERS = 2`, every assignment with
entries in `[0, k)` and every split of `[0, n)` into worker ranges, after the reset and
the merges of all the workers `update_centroids`, taken in any order, no worker has
faulted and the global sum of x, sum of y and count of every cluster `c < k` are those
of the single sequential accumulation pass over the same assignment. -/
theorem C13_merged_sums_equal_sequential (n k : Nat) (data cen : List Point)
    (clusters : List Nat) (pp : List Nat) (chunks order : List (Nat × Nat))
    (hk : k ≤ NB_CLUSTERS) (hrange : ∀ i < n, clusters.getD i 0 < k) (hcen : cen.length = k)
    (hpp : k ≤ pp.length) (hsplit : is_split n chunks) (horder : order.Perm chunks) :
    ∃ g' : Globals,
      update_phase_chunks (reset ⟨n, k, data, cen, clusters.map Int.ofNat, pp⟩) order =
        some g' ∧
      ∀ c < k,
        g'.centroids.getD c default = (accumulate data clusters n k).sums.getD c default ∧
        g'.points_per_thread.getD c 0 = (accumulate data clusters n k).counts.getD c 0 := by
  obtain ⟨cen', pp', h1, -, -, h4⟩ :=
    reduction_closed n k data cen clusters pp order hk hrange hcen hpp
      (is_split_perm n chunks order horder hsplit)
  exact ⟨_, h1, h4⟩

/-- Witness for C13 (amended): the concrete scenario, the second worker merging first. -/
theorem C13_merged_sums_equal_sequential_witness :
    ∃ g' : Globals,
      update_phase_chunks
        (reset ⟨4, 2, [⟨0, 0⟩, ⟨0, 1⟩, ⟨10, 10⟩, ⟨10, 11⟩], [⟨0, 0⟩, ⟨10, 10⟩],
          ([0, 0, 1, 1] : List Nat).map Int.ofNat, [0, 0]⟩) [(2, 4), (0, 2)] = some g' ∧
      ∀ c < 2,
        g'.centroids.getD c default =
          (accumulate [⟨0, 0⟩, ⟨0, 1⟩, ⟨10, 10⟩, ⟨10, 11⟩] [0, 0, 1, 1] 4 2).sums.getD c
            default ∧
        g'.points_per_thread.getD c 0 =
          (accumulate [⟨0, 0⟩, ⟨0, 1⟩, ⟨10, 10⟩, ⟨10, 11⟩] [0, 0, 1, 1] 4 2).counts.getD c 0 :=
  C13_merged_sums_equal_sequential 4 2 [⟨0, 0⟩, ⟨0, 1⟩, ⟨10, 10⟩, ⟨10, 11⟩]
    [⟨0, 0⟩, ⟨10, 10⟩] [0, 0, 1, 1] [0, 0] (main_chunks 4) [(2, 4), (0, 2)]
    (by decide) (by decide) rfl (by decide) (main_chunks_split 4)
    (by rw [main_chunks_eq]; exact List.Perm.swap _ _ _)

/-- C14 (the claim as stated fails): no `main` rejects a cluster count. With the single
point (3, 4), `k = 2 > n` and the centroids (0, 0), (1, 1) typed in, sequential `main`
calls `k_means`, whose passes put the point in cluster 1 and move centroid 1 to (3, 4),
and which reports convergence at iteration 2. Thread-pool `main` enters its loop, whose
first iteration executes the assignment (`clusters[0] = 1`) and the reduction (the sum
(3, 4) and the count 1 for cluster 1). -/
theorem C14_counterexample :
    Sequentiel.main (some [⟨3, 4⟩]) 2 [⟨0, 0⟩, ⟨1, 1⟩] [7] =
      some (Exit.done (Outcome.CONVERGED 2) ⟨[⟨3, 4⟩], [⟨0, 0⟩, ⟨3, 4⟩], [1]⟩) ∧
    Pthread.main 1 2 (some [⟨3, 4⟩]) [⟨0, 0⟩, ⟨1, 1⟩] 1 =
      some (ThreadExit.ran
        (main_loop 1 0 (Pthread.main_globals 1 2 [⟨3, 4⟩] [⟨0, 0⟩, ⟨1, 1⟩]))) ∧
    assign_phase (Pthread.main_globals 1 2 [⟨3, 4⟩] [⟨0, 0⟩, ⟨1, 1⟩]) =
      ⟨1, 2, [⟨3, 4⟩], [⟨0, 0⟩, ⟨1, 1⟩], [1], [0, 0]⟩ ∧
    update_phase (reset (assign_phase (Pthread.main_globals 1 2 [⟨3, 4⟩] [⟨0, 0⟩, ⟨1, 1⟩]))) =
      some ⟨1, 2, [⟨3, 4⟩], [⟨0, 0⟩, ⟨3, 4⟩], [1], [0, 1]⟩ := by
  decide!

/-- C14 (amended): the programs do not validate the cluster count. Sequential `main` ends
early only when the point file cannot be loaded; for every `k ≥ 1`, also `k > n`, it
calls `k_means`, which executes at least one pass of assignment and reduction.
Thread-pool `main` has no check either: for every `n ≤ NB_POINTS` and
`1 ≤ k ≤ NB_CLUSTERS`, also `k > n`, it enters its loop, and when the squared distance of
every point to the first centroid is within the range of `double`, the first iteration
gives every point a cluster index in `[0, k)` and its reduction phase accumulates, for
every cluster, the count and the coordinate sums of the points assigned to it. -/
theorem C14_no_check_on_cluster_count :
    (∀ (data : List Point) (k : Int) (seeds : List Point) (memory : List Nat), 1 ≤ k →
      ∃ (out : Outcome) (s' : State) (t : Nat),
        Sequentiel.main (some data) k seeds memory = some (Exit.done out s') ∧ 1 ≤ t ∧
        s' = after_passes data.length k.toNat t ⟨data, snapshot seeds k.toNat, memory⟩) ∧
    (∀ (n k : Int) (points seeds : List Point) (fuel : Nat),
      n ≤ (NB_POINTS : Int) → 1 ≤ k → k ≤ (NB_CLUSTERS : Int) →
      (∀ i < n.toNat,
        (euclidean_distance ((snapshot points n.toNat).getD i default)
          ((snapshot seeds k.toNat).getD 0 default)).radicand ≤ DBL_MAX) →
      Pthread.main n k (some points) seeds fuel =
        some (ThreadExit.ran (main_loop fuel 0 (Pthread.main_globals n k points seeds))) ∧
      ∃ (cl : List Nat) (g3 : Globals),
        (assign_phase (Pthread.main_globals n k points seeds)).clusters = cl.map Int.ofNat ∧
        (∀ i < n.toNat, cl.getD i 0 < k.toNat) ∧
        update_phase (reset (assign_phase (Pthread.main_globals n k points seeds))) =
          some g3 ∧
        ∀ c < k.toNat,
          g3.points_per_thread.getD c 0 = cluster_count cl n.toNat c ∧
          g3.centroids.getD c default =
            ⟨cluster_sum_x (snapshot points n.toNat) cl n.toNat c,
              cluster_sum_y (snapshot points n.toNat) cl n.toNat c⟩) := by
  constructor
  · intro data k seeds memory hk
    obtain ⟨out, s', h1, h2⟩ :=
      k_means_from_spec data.length k.toNat MAX_ITERS 0 ⟨data, snapshot seeds k.toNat, memory⟩
    have hk' : k_means ⟨data, snapshot seeds k.toNat, memory⟩ data.length k.toNat =
        some (out, s') := h1
    have hmain : Sequentiel.main (some data) k seeds memory = some (Exit.done out s') := by
      unfold Sequentiel.main
      simp only
      rw [if_neg (by omega), hk', Option.map_some']
    cases out with
    | CONVERGED t =>
      obtain ⟨a1, -, -, -, a5⟩ := h2
      exact ⟨_, s', t, hmain, by omega, a5⟩
    | MAX_ITERS_REACHED =>
      exact ⟨_, s', MAX_ITERS, hmain, by decide, h2.2⟩
  · intro n k points seeds fuel hn hk1 hk hfar
    constructor
    · unfold Pthread.main
      simp only
      rw [if_neg (by omega)]
    · have hk2 : k.toNat ≤ NB_CLUSTERS := by
        have : (NB_CLUSTERS : Int) = 2 := rfl
        have : NB_CLUSTERS = 2 := rfl
        omega
      obtain ⟨cen1, pp1, p1, p2, p3, p4⟩ :=
        first_phases_closed n.toNat k.toNat (snapshot points n.toNat)
          (snapshot seeds k.toNat) (List.replicate n.toNat 0) (List.replicate n.toNat 0)
          (List.replicate NB_THREADS 0) (by omega) hk2 (snapshot_length _ _)
          (List.length_replicate _ _) (List.length_replicate _ _)
          (by rw [List.length_replicate]; exact hk2)
          (fun i hi => lt_of_le_of_lt (hfar i hi) DBL_MAX_lt_sq)
      refine ⟨_, _, ?_, p3, p2, fun c hc => ⟨(p4 c hc).2, (p4 c hc).1⟩⟩
      show (assign_phase ⟨n.toNat, k.toNat, snapshot points n.toNat, snapshot seeds k.toNat,
        List.replicate n.toNat 0, List.replicate NB_THREADS 0⟩).clusters = _
      rw [p1]

/-- Witness for C14 (amended): one point and `k = 2 > n`, in both programs. -/
theorem C14_no_check_on_cluster_count_witness :
    (∃ (out : Outcome) (s' : State) (t : Nat),
      Sequentiel.main (some [⟨3, 4⟩]) 2 [⟨0, 0⟩, ⟨1, 1⟩] [7] = some (Exit.done out s') ∧
      1 ≤ t ∧
      s' = after_passes ([⟨3, 4⟩] : List Point).length (2 : Int).toNat t
        ⟨[⟨3, 4⟩], snapshot [⟨0, 0⟩, ⟨1, 1⟩] (2 : Int).toNat, [7]⟩) ∧
    (Pthread.main 1 2 (some [⟨3, 4⟩]) [⟨0, 0⟩, ⟨1, 1⟩] 1 =
        some (ThreadExit.ran
          (main_loop 1 0 (Pthread.main_globals 1 2 [⟨3, 4⟩] [⟨0, 0⟩, ⟨1, 1⟩]))) ∧
      ∃ (cl : List Nat) (g3 : Globals),
        (assign_phase (Pthread.main_globals 1 2 [⟨3, 4⟩] [⟨0, 0⟩, ⟨1, 1⟩])).clusters =
          cl.map Int.ofNat ∧
        (∀ i < (1 : Int).toNat, cl.getD i 0 < (2 : Int).toNat) ∧
        update_phase
            (reset (assign_phase (Pthread.main_globals 1 2 [⟨3, 4⟩] [⟨0, 0⟩, ⟨1, 1⟩]))) =
          some g3 ∧
        ∀ c < (2 : Int).toNat,
          g3.points_per_thread.getD c 0 = cluster_count cl (1 : Int).toNat c ∧
          g3.centroids.getD c default =
            ⟨cluster_sum_x (snapshot [⟨3, 4⟩] (1 : Int).toNat) cl (1 : Int).toNat c,
              cluster_sum_y (snapshot [⟨3, 4⟩] (1 : Int).toNat) cl (1 : Int).toNat c⟩) :=
  ⟨C14_no_check_on_cluster_count.1 [⟨3, 4⟩] 2 [⟨0, 0⟩, ⟨1, 1⟩] [7] (by decide),
    C14_no_check_on_cluster_count.2 1 2 [⟨3, 4⟩] [⟨0, 0⟩, ⟨1, 1⟩] 1 (by decide) (by decide)
      (by decide) (by decide!)⟩

/-- C15: the work partition of the thread-pool `main`. For every `n`, with
`chunk_size = n / NB_THREADS`, the ranges `[start_t, end_t)` of the `NB_THREADS` workers
start at 0, are contiguous (`end_t = start_{t+1}`), end at `n`, are pairwise disjoint,
and every index of `[0, n)` lies in exactly one of them, whatever the size of `n`. -/
theorem C15_chunks_split_range (n : Nat) :
    chunk_start n 0 = 0 ∧
    (∀ t, t + 1 < NB_THREADS → chunk_end n t = chunk_start n (t + 1)) ∧
    chunk_end n (NB_THREADS - 1) = n ∧
    (∀ t < NB_THREADS, chunk_start n t ≤ chunk_end n t ∧ chunk_end n t ≤ n) ∧
    (∀ t < NB_THREADS, ∀ u < NB_THREADS, ∀ i,
      chunk_start n t ≤ i → i < chunk_end n t → chunk_start n u ≤ i → i < chunk_end n u →
        t = u) ∧
    (∀ i < n, ∃! t, t < NB_THREADS ∧ chunk_start n t ≤ i ∧ i < chunk_end n t) := by
  have hc : ∀ t < NB_THREADS, t = 0 ∨ t = 1 := by
    intro t ht; unfold NB_THREADS at ht; omega
  obtain ⟨e1, e2, e3, e4⟩ := chunks_cover n
  refine ⟨e1, ?_, e4, ?_, ?_, ?_⟩
  · intro t ht
    have : t = 0 := by unfold NB_THREADS at ht; omega
    subst this
    rw [e2, e3]
  · intro t ht
    rcases hc t ht with h | h <;> subst h
    · rw [e1, e2]; omega
    · rw [e3, e4]; omega
  · intro t ht u hu i a1 a2 b1 b2
    rcases hc t ht with h | h <;> rcases hc u hu with h' | h' <;> subst h <;> subst h'
    · rfl
    · rw [e2] at a2; rw [e3] at b1; omega
    · rw [e3] at a1; rw [e2] at b2; omega
    · rfl
  · intro i hi
    by_cases h : i < n / 2
    · refine ⟨0, ⟨by decide, by rw [e1]; omega, by rw [e2]; exact h⟩, ?_⟩
      rintro u ⟨hu, b1, b2⟩
      rcases hc u hu with h' | h' <;> subst h'
      · rfl
      · rw [e3] at b1; omega
    · refine ⟨1, ⟨by decide, by rw [e3]; omega, by rw [e4]; exact hi⟩, ?_⟩
      rintro u ⟨hu, b1, b2⟩
      rcases hc u hu with h' | h' <;> subst h'
      · rw [e2] at b2; omega
      · rfl

/-- C17: the grid of the data-parallel kernels. For every `n` with `n + 511` within the
range of a 32-bit `int`, `num_blocks = (n + 511) / 512` is the least block count with
`num_blocks * 512 ≥ n`; every index of `[0, n)` is `blockIdx * 512 + threadIdx` for
exactly one launched thread; and a launched thread whose index is at least `n` writes no
assignment and adds to no accumulator. -/
theorem C17_grid_covers_points_once (n : Nat) (_hfit : n + 511 < 2 ^ 31) :
    n ≤ num_blocks n * threads_per_block ∧
    (∀ b, n ≤ b * threads_per_block → num_blocks n ≤ b) ∧
    (∀ i < n, ∃! bt : Nat × Nat,
      bt.1 < num_blocks n ∧ bt.2 < threads_per_block ∧ i = bt.1 * threads_per_block + bt.2) ∧
    (∀ (k idx : Nat) (m : Device), n ≤ idx →
      Cuda.assign_clusters n k idx m = m ∧ Cuda.update_centroids n idx m = m) := by
  unfold num_blocks threads_per_block
  refine ⟨by omega, fun b hb => by omega, fun i hi => ?_, fun k idx m hidx => ?_⟩
  · refine ⟨(i / 512, i % 512), ⟨by simp only; omega, by simp only; omega, by simp only; omega⟩, ?_⟩
    rintro ⟨b, t⟩ ⟨h1, h2, h3⟩
    simp only at h1 h2 h3
    have hb : b = i / 512 := by omega
    have ht : t = i % 512 := by omega
    rw [hb, ht]
  · constructor
    · unfold Cuda.assign_clusters
      rw [if_neg (by omega)]
    · unfold Cuda.update_centroids
      rw [if_neg (by omega)]

/-- Witness for C17: `n = 1000` needs 2 blocks. -/
theorem C17_grid_covers_points_once_witness :
    1000 ≤ num_blocks 1000 * threads_per_block :=
  (C17_grid_covers_points_once 1000 (by decide)).1

/-- C18 (the claim as stated fails): `update_centroids` in `double` arithmetic on three
points whose `x` is the `double` nearest to 0.1, all in cluster 0. The sum is rounded to
0.30000000000000004 and the quotient to 0.10000000000000002 = 7205759403792795 / 2^56,
which is above the `x` of every point of the cluster. -/
theorem C18_counterexample :
    binary64 (1 / 10) = 3602879701896397 / 36028797018963968 ∧
    Binary64.update_centroids
        ⟨[⟨3602879701896397 / 36028797018963968, 0⟩, ⟨3602879701896397 / 36028797018963968, 0⟩,
          ⟨3602879701896397 / 36028797018963968, 0⟩], [⟨0, 0⟩], [0, 0, 0]⟩ 3 1 =
      ⟨[⟨3602879701896397 / 36028797018963968, 0⟩, ⟨3602879701896397 / 36028797018963968, 0⟩,
          ⟨3602879701896397 / 36028797018963968, 0⟩],
        [⟨7205759403792795 / 72057594037927936, 0⟩], [0, 0, 0]⟩ ∧
    (3602879701896397 / 36028797018963968 : ℚ) < 7205759403792795 / 72057594037927936 := by
  decide!

/-- C18 (amended): in exact arithmetic (sums and quotients not rounded), after sequential
`update_centroids` (which divides by no zero count), for every cluster `c < k` with at
least one assigned point, the new `centroids[c].x` lies between the least and the
greatest `x` of the points assigned to `c`, and `centroids[c].y` between their least and
greatest `y`: some assigned points `i`, `j` carry the extreme values and the centroid
coordinate is between them. -/
theorem C18_centroid_in_bounding_box (s : State) (n k c : Nat) (hcen : s.centroids.length = k)
    (_hrange : ∀ i < n, s.clusters.getD i 0 < k) (hc : c < k)
    (hpos : 0 < cluster_count s.clusters n c) :
    ∃ s' : State,
      update_centroids s n k = some s' ∧
      (∃ i ∈ members s.clusters n c, ∃ j ∈ members s.clusters n c,
        (∀ u ∈ members s.clusters n c, (s.data.getD i default).x ≤ (s.data.getD u default).x) ∧
        (∀ u ∈ members s.clusters n c, (s.data.getD u default).x ≤ (s.data.getD j default).x) ∧
        (s.data.getD i default).x ≤ (s'.centroids.getD c default).x ∧
        (s'.centroids.getD c default).x ≤ (s.data.getD j default).x) ∧
      (∃ i ∈ members s.clusters n c, ∃ j ∈ members s.clusters n c,
        (∀ u ∈ members s.clusters n c, (s.data.getD i default).y ≤ (s.data.getD u default).y) ∧
        (∀ u ∈ members s.clusters n c, (s.data.getD u default).y ≤ (s.data.getD j default).y) ∧
        (s.data.getD i default).y ≤ (s'.centroids.getD c default).y ∧
        (s'.centroids.getD c default).y ≤ (s.data.getD j default).y) := by
  obtain ⟨cs', h1, -, h3⟩ := update_centroids_spec s n k hcen
  obtain ⟨a1, a2⟩ := accumulate_spec s.data s.clusters n k c hc
  have hnew : cs'.getD c default =
      ⟨cluster_sum_x s.data s.clusters n c / (cluster_count s.clusters n c : ℚ),
        cluster_sum_y s.data s.clusters n c / (cluster_count s.clusters n c : ℚ)⟩ := by
    rw [h3 c hc]
    unfold finalized
    rw [a1, a2, if_pos hpos]
  have hne : members s.clusters n c ≠ [] := by
    intro h
    unfold cluster_count at hpos
    rw [h] at hpos
    exact absurd hpos (by simp)
  refine ⟨{ s with centroids := cs' }, h1, ?_, ?_⟩
  · obtain ⟨i, hi, hmin⟩ := exists_least_value (fun u => (s.data.getD u default).x) _ hne
    obtain ⟨j, hj, hmax⟩ := exists_greatest_value (fun u => (s.data.getD u default).x) _ hne
    obtain ⟨b1, b2⟩ := mean_between (fun u => (s.data.getD u default).x) _ hpos _ _ hmin hmax
    refine ⟨i, hi, j, hj, hmin, hmax, ?_, ?_⟩
    · show _ ≤ (cs'.getD c default).x
      rw [hnew]
      exact b1
    · show (cs'.getD c default).x ≤ _
      rw [hnew]
      exact b2
  · obtain ⟨i, hi, hmin⟩ := exists_least_value (fun u => (s.data.getD u default).y) _ hne
    obtain ⟨j, hj, hmax⟩ := exists_greatest_value (fun u => (s.data.getD u default).y) _ hne
    obtain ⟨b1, b2⟩ := mean_between (fun u => (s.data.getD u default).y) _ hpos _ _ hmin hmax
    refine ⟨i, hi, j, hj, hmin, hmax, ?_, ?_⟩
    · show _ ≤ (cs'.getD c default).y
      rw [hnew]
      exact b1
    · show (cs'.getD c default).y ≤ _
      rw [hnew]
      exact b2

/-- Witness for C18 (amended): cluster 1 of the concrete scenario. -/
theorem C18_centroid_in_bounding_box_witness :
    ∃ s' : State,
      update_centroids
        ⟨[⟨0, 0⟩, ⟨0, 1⟩, ⟨10, 10⟩, ⟨10, 11⟩], [⟨0, 0⟩, ⟨10, 10⟩], [0, 0, 1, 1]⟩ 4 2 =
        some s' :=
  let ⟨s', h1, _, _⟩ :=
    C18_centroid_in_bounding_box
      ⟨[⟨0, 0⟩, ⟨0, 1⟩, ⟨10, 10⟩, ⟨10, 11⟩], [⟨0, 0⟩, ⟨10, 10⟩], [0, 0, 1, 1]⟩ 4 2 1 rfl
      (by decide) (by decide) (by decide)
  ⟨s', h1⟩

/-- C19: for every point set of `n ≥ 1` points, `k = 1` and every initial centroid,
sequential `k_means` reports convergence at iteration 1 or 2, and the final centroid is
the arithmetic mean of the `n` points. -/
theorem C19_single_cluster_converges (s : State) (n : Nat) (hn : 1 ≤ n)
    (_hdata : s.data.length = n) (hcl : s.clusters.length = n)
    (hcen : s.centroids.length = 1) :
    ∃ (t : Nat) (s' : State),
      k_means s n 1 = some (Outcome.CONVERGED t, s') ∧ 1 ≤ t ∧ t ≤ 2 ∧
      s'.centroids =
        [⟨((List.range n).map fun i => (s.data.getD i default).x).sum / (n : ℚ),
          ((List.range n).map fun i => (s.data.getD i default).y).sum / (n : ℚ)⟩] := by
  obtain ⟨b1, b2, b3, -⟩ := pass_single_cluster s n hn hcl hcen
  have hrun : k_means s n 1 = k_means_from n 1 (99 + 1) 0 s := rfl
  rw [hrun, k_means_from_succ]
  by_cases hflag : pass_flag s n 1 = true
  · rw [if_pos hflag]
    exact ⟨1, pass_state s n 1, rfl, by decide, by decide, b3⟩
  · rw [if_neg hflag]
    have hcen1 : (pass_state s n 1).centroids.length = 1 := by rw [b3]; rfl
    obtain ⟨d1, -, d3, d4⟩ := pass_single_cluster (pass_state s n 1) n hn b2 hcen1
    rw [b1] at d3 d4
    have hflag2 : pass_flag (pass_state s n 1) n 1 = true := by
      rw [d4, b3]
      exact converged_self _ 1
    rw [show (99 : Nat) = 98 + 1 from rfl, k_means_from_succ, if_pos hflag2]
    exact ⟨2, pass_state (pass_state s n 1) n 1, rfl, by decide, by decide, d3⟩

/-- Witness for C19: the three points (0, 0), (3, 0), (0, 3) from the centroid (5, 5). -/
theorem C19_single_cluster_converges_witness :
    ∃ (t : Nat) (s' : State),
      k_means ⟨[⟨0, 0⟩, ⟨3, 0⟩, ⟨0, 3⟩], [⟨5, 5⟩], [0, 0, 0]⟩ 3 1 =
        some (Outcome.CONVERGED t, s') ∧ 1 ≤ t ∧ t ≤ 2 :=
  let ⟨t, s', h1, h2, h3, _⟩ :=
    C19_single_cluster_converges ⟨[⟨0, 0⟩, ⟨3, 0⟩, ⟨0, 3⟩], [⟨5, 5⟩], [0, 0, 0]⟩ 3
      (by decide) rfl rfl rfl
  ⟨t, s', h1, h2, h3⟩

end KMeans
